import Mathlib

/-!
# tikvtool: a verification development

A shallow embedding of the key-value explorer's scan bounds (`dao/rawkv.go`), of its
formatter interface (`utils/formatter.go`) and of the terminal state machine
(`ui/model.go`), followed by theorems about them.

Go strings and byte slices are lists of bytes, Go `int`s are `Int`, and every index or
slice expression is partial: a transition that would panic in Go is `none` here.
-/

namespace TikvTool

/-! ## Bytes and strings -/

/-- A Go `byte`. -/
abbrev Byte := Fin 256

/-- A Go `string` or `[]byte`: a sequence of bytes, whose `len` is its number of bytes. -/
abbrev Str := List Byte

/-- UTF-8 encoding of one code point, as Go stores the characters of a string constant. -/
def utf8EncodeChar (c : Char) : List Byte :=
  let v := c.toNat
  if v ≤ 0x7f then [Fin.ofNat v]
  else if v ≤ 0x7ff then [Fin.ofNat (0xc0 + v / 64), Fin.ofNat (0x80 + v % 64)]
  else if v ≤ 0xffff then
    [Fin.ofNat (0xe0 + v / 4096), Fin.ofNat (0x80 + v / 64 % 64), Fin.ofNat (0x80 + v % 64)]
  else
    [Fin.ofNat (0xf0 + v / 262144), Fin.ofNat (0x80 + v / 4096 % 64),
      Fin.ofNat (0x80 + v / 64 % 64), Fin.ofNat (0x80 + v % 64)]

/-- The bytes of a Go string constant. -/
def str (s : String) : Str := s.toList.flatMap utf8EncodeChar

/-- Go `len(s)` as an `int`. -/
def len {α : Type} (s : List α) : Int := (s.length : Int)

/-- Go `s[i]`: panics (here `none`) unless `0 ≤ i < len(s)`. -/
def index {α : Type} (s : List α) (i : Int) : Option α :=
  if 0 ≤ i ∧ i < len s then s[i.toNat]? else none

/-- Go `s[:j]`: panics unless `0 ≤ j ≤ len(s)`.  (For a slice Go's bound is the capacity;
every use in the program is paired with `s[j:]` or `s[j+1:]` on the same slice, whose
bound is the length.) -/
def sliceTo {α : Type} (s : List α) (j : Int) : Option (List α) :=
  if 0 ≤ j ∧ j ≤ len s then some (s.take j.toNat) else none

/-- Go `s[i:]`: panics unless `0 ≤ i ≤ len(s)`. -/
def sliceFrom {α : Type} (s : List α) (i : Int) : Option (List α) :=
  if 0 ≤ i ∧ i ≤ len s then some (s.drop i.toNat) else none

/-- Go `s[i] = v`: panics unless `0 ≤ i < len(s)`. -/
def setIndex {α : Type} (s : List α) (i : Int) (v : α) : Option (List α) :=
  if 0 ≤ i ∧ i < len s then some (s.set i.toNat v) else none

/-- Go `strings.Split(s, sep)` for a one-byte separator (the program only splits on
the newline): the pieces between successive separators, never an empty list. -/
def stringsSplit (s : Str) (sep : Byte) : List Str :=
  match s with
  | [] => [[]]
  | c :: cs =>
    if c = sep then [] :: stringsSplit cs sep
    else
      match stringsSplit cs sep with
      | [] => [[c]]
      | l :: ls => (c :: l) :: ls

/-- Go `strings.Join(elems, sep)`. -/
def stringsJoin (elems : List Str) (sep : Str) : Str :=
  match elems with
  | [] => []
  | [a] => a
  | a :: b :: rest => a ++ sep ++ stringsJoin (b :: rest) sep

/-- Go `strings.HasPrefix(s, prefix)`. -/
def stringsHasPrefix (s pre : Str) : Bool :=
  match pre, s with
  | [], _ => true
  | _ :: _, [] => false
  | p :: ps, c :: cs => p = c && stringsHasPrefix cs ps

/-- Go `strings.Contains(s, substr)`. -/
def stringsContains (s sub : Str) : Bool :=
  stringsHasPrefix s sub ||
    match s with
    | [] => false
    | _ :: cs => stringsContains cs sub

/-- The newline byte. -/
def newline : Byte := 10

/-! ## dao/rawkv.go: scan bounds -/

/-- The store's key order: `bytes.Compare(a, b) < 0`, lexicographic on bytes. -/
def bytesLt : Str → Str → Bool
  | _, [] => false
  | [], _ :: _ => true
  | a :: as, b :: bs => if a < b then true else if b < a then false else bytesLt as bs

/-- Key order: `bytes.Compare(a, b) ≤ 0`. -/
def bytesLe (a b : Str) : Bool := !bytesLt b a

/-- What the dao passes to the store's `Scan(startKey, endKey, limit)`; `endKey = none`
is Go's `nil`, an unbounded upper end. -/
structure ScanRequest where
  startKey : Str
  endKey : Option Str
  limit : Int
  deriving DecidableEq, Repr

/-- The store contract of `Scan`: the half-open range `[startKey, endKey)`. -/
def ScanRequest.covers (r : ScanRequest) (k : Str) : Bool :=
  bytesLe r.startKey k &&
    match r.endKey with
    | none => true
    | some e => bytesLt k e

/-- Embeds `nextKey`: `append(startKey, 0xFF)`. -/
def nextKey (startKey : Str) : Str := startKey ++ [0xFF]

/-- Embeds `PrefixScan`: the request it sends to the store. -/
def PrefixScan (pre : Str) (limit : Int) : ScanRequest :=
  { startKey := pre, endKey := some (nextKey pre), limit := limit }

/-- Embeds `ScanWithRealPrefix`: the request it sends to the store. -/
def ScanWithRealPrefix (userPrefix : Str) (limit : Int) : ScanRequest :=
  { startKey := userPrefix, endKey := some (nextKey userPrefix), limit := limit }

/-- Embeds `ScanAllKeys`: the request it sends to the store. -/
def ScanAllKeys (limit : Int) : ScanRequest :=
  { startKey := [], endKey := none, limit := limit }

/-! ## utils/formatter.go -/

/-- Embeds `Format`. -/
inductive Format
  | FormatPlainText
  | FormatJSON
  | FormatYAML
  | FormatTOML
  deriving DecidableEq, Repr

/-- The library functions the program calls whose code is outside the repository: Go's
`strings.TrimSpace` and the JSON, YAML and TOML codecs.  `jsonUnmarshalOk s` says that
`json.Unmarshal` of `s` returns no error, and `jsonMarshalIndent s` is the result of
`json.MarshalIndent` on the value parsed from `s` (`none` on error); likewise for the
other two codecs. -/
structure Lib where
  trimSpace : Str → Str
  jsonUnmarshalOk : Str → Bool
  jsonMarshalIndent : Str → Option Str
  yamlUnmarshalOk : Str → Bool
  yamlMarshal : Str → Option Str
  tomlDecodeOk : Str → Bool
  tomlEncode : Str → Option Str

/-- Embeds `isValidJSON`. -/
def isValidJSON (L : Lib) (content : Str) : Bool :=
  L.jsonUnmarshalOk content

/-- Embeds `isValidYAML`. -/
def isValidYAML (L : Lib) (content : Str) : Bool :=
  L.yamlUnmarshalOk content &&
    (stringsContains content (str ":") || stringsContains content (str "-"))

/-- Embeds `isValidTOML`. -/
def isValidTOML (L : Lib) (content : Str) : Bool :=
  L.tomlDecodeOk content &&
    (stringsContains content (str "=") || stringsContains content (str "["))

/-- Embeds `DetectFormat`. -/
def DetectFormat (L : Lib) (content : Str) : Format :=
  let content := L.trimSpace content
  if content = [] then Format.FormatPlainText
  else if isValidJSON L content then Format.FormatJSON
  else if isValidYAML L content then Format.FormatYAML
  else if isValidTOML L content then Format.FormatTOML
  else Format.FormatPlainText

/-- Embeds `formatJSON` of the formatter: `none` is a non-nil error. -/
def formatJSON (L : Lib) (content : Str) : Option Str :=
  if L.jsonUnmarshalOk content then L.jsonMarshalIndent content else none

/-- Embeds `formatYAML`: `none` is a non-nil error. -/
def formatYAML (L : Lib) (content : Str) : Option Str :=
  if L.yamlUnmarshalOk content then (L.yamlMarshal content).map L.trimSpace else none

/-- Embeds `formatTOML`: `none` is a non-nil error. -/
def formatTOML (L : Lib) (content : Str) : Option Str :=
  if L.tomlDecodeOk content then (L.tomlEncode content).map L.trimSpace else none

/-- Embeds `FormatContent`. -/
def FormatContent (L : Lib) (content : Str) : Str × Format :=
  let format := DetectFormat L content
  match format with
  | Format.FormatJSON => ((formatJSON L content).getD content, format)
  | Format.FormatYAML => ((formatYAML L content).getD content, format)
  | Format.FormatTOML => ((formatTOML L content).getD content, format)
  | Format.FormatPlainText => (content, format)

/-! ## ui/model.go: the data model -/

/-- Embeds `KeyValue`. -/
structure KeyValue where
  Key : Str
  Value : Str
  deriving DecidableEq, Repr

/-- Embeds `viewMode`. -/
inductive viewMode
  | modeMain
  | modeSearch
  | modeDetail
  | modeEdit
  | modeAdd
  deriving DecidableEq, Repr

/-- Embeds `Command`. -/
structure Command where
  Name : Str
  Description : Str
  deriving DecidableEq, Repr

/-- The key types of the terminal library that the handlers distinguish; every other
key type is `KeyOther`, carrying the name the library prints for it. -/
inductive KeyType
  | KeyCtrlC
  | KeyEsc
  | KeyEnter
  | KeyUp
  | KeyDown
  | KeyLeft
  | KeyRight
  | KeyBackspace
  | KeyTab
  | KeyCtrlS
  | KeySpace
  | KeyRunes
  | KeyOther (name : Str)
  deriving DecidableEq, Repr

/-- The terminal library's key event `tea.KeyMsg`; `Runes` holds `string(msg.Runes)`. -/
structure KeyMsg where
  type : KeyType
  Runes : Str
  Alt : Bool
  Paste : Bool
  deriving DecidableEq, Repr

/-- The terminal library's table of key names. -/
def keyNames (t : KeyType) : Str :=
  match t with
  | KeyType.KeyCtrlC => str "ctrl+c"
  | KeyType.KeyEsc => str "esc"
  | KeyType.KeyEnter => str "enter"
  | KeyType.KeyUp => str "up"
  | KeyType.KeyDown => str "down"
  | KeyType.KeyLeft => str "left"
  | KeyType.KeyRight => str "right"
  | KeyType.KeyBackspace => str "backspace"
  | KeyType.KeyTab => str "tab"
  | KeyType.KeyCtrlS => str "ctrl+s"
  | KeyType.KeySpace => str " "
  | KeyType.KeyRunes => str "runes"
  | KeyType.KeyOther name => name

/-- The terminal library's `msg.String()`: the typed runes for a rune key (bracketed
when pasted), the key's name otherwise, after `alt+` when Alt is held. -/
def KeyMsg.String (msg : KeyMsg) : Str :=
  (if msg.Alt then str "alt+" else []) ++
    (match msg.type with
     | KeyType.KeyRunes => if msg.Paste then str "[" ++ msg.Runes ++ str "]" else msg.Runes
     | t => keyNames t)

/-- Embeds `model`, without the store handle and the context. -/
structure model where
  input : Str
  cursor : Int
  results : List KeyValue
  selectedItem : Int
  searching : Bool
  mode : viewMode
  detailValue : Str
  detailKey : Str
  resultOffset : Int
  editValue : Str
  editCursor : Int
  editLines : List Str
  editLineNum : Int
  waitingForSecondD : Bool
  insertMode : Bool
  commandMode : Bool
  commandInput : Str
  statusMessage : Str
  detailCommandMode : Bool
  detailCursorLine : Int
  detailCursorCol : Int
  detailLines : List Str
  valueFormat : Format
  addKey : Str
  addValue : Str
  addStep : Int
  addCursor : Int
  commandPrefix : Str
  isInCommand : Bool
  commandList : List Command
  filteredCommands : List Command
  selectedCommand : Int
  commandOffset : Int
  deriving DecidableEq, Repr

/-- A Go `error` value received in a message: `none` is `nil`, `some e` has the text `e`. -/
abbrev GoError := Option Str

/-- The text `%v` prints for an error. -/
def errorText (err : GoError) : Str :=
  match err with
  | none => str "<nil>"
  | some e => e

/-- The messages `Update` receives: key events, the result messages of the asynchronous
commands, and any other message of the terminal library. -/
inductive Msg
  | KeyMsg (msg : KeyMsg)
  | searchResultMsg (results : List KeyValue) (err : GoError)
  | deleteSuccessMsg (key : Str)
  | saveSuccessMsg (key : Str) (value : Str) (exitToDetail : Bool)
  | saveErrorMsg (key : Str) (err : GoError)
  | addSuccessMsg (key : Str) (value : Str)
  | otherMsg
  deriving DecidableEq, Repr

/-- The commands the handlers return, as data: `Quit` is `tea.Quit`; `search req` is the
closure of `searchCmd`, which sends `req` to the store; `deleteKey key` is the closure of
`deleteCurrentKeyCmd` and `deleteSelectedKeyCmd`, which calls `Delete(key)`; `saveKey` is
the closure of `saveKeyCmd`, which calls `Put(key, newValue)`; `addKeyValue` is the
closure of `addKeyValueCmd`, which calls `Put(key, value)`. -/
inductive Cmd
  | Quit
  | search (req : ScanRequest)
  | deleteKey (key : Str)
  | saveKey (key : Str) (newValue : Str) (exitToDetail : Bool)
  | addKeyValue (key : Str) (value : Str)
  deriving DecidableEq, Repr

/-- The static command catalog of `InitialModel`. -/
def catalog : List Command :=
  [ { Name := str "/search", Description := str "Search keys by prefix" },
    { Name := str "/add", Description := str "Add new key-value pair" } ]

/-- Embeds `InitialModel`; fields it does not set have Go's zero values. -/
def InitialModel : model :=
  { input := []
    cursor := 0
    results := []
    selectedItem := 0
    searching := false
    mode := viewMode.modeMain
    detailValue := []
    detailKey := []
    resultOffset := 0
    editValue := []
    editCursor := 0
    editLines := []
    editLineNum := 0
    waitingForSecondD := false
    insertMode := false
    commandMode := false
    commandInput := []
    statusMessage := []
    detailCommandMode := true
    detailCursorLine := 0
    detailCursorCol := 0
    detailLines := []
    valueFormat := Format.FormatPlainText
    addKey := []
    addValue := []
    addStep := 0
    addCursor := 0
    commandPrefix := []
    isInCommand := true
    commandList := catalog
    filteredCommands := catalog
    selectedCommand := 0
    commandOffset := 0 }

/-! ## ui/model.go: commands and helpers -/

/-- Embeds `filterCommands`: the loop that appends, in catalog order, every command
whose name has the typed prefix. -/
def filterCommands (m : model) : model :=
  { m with
    filteredCommands :=
      m.commandList.foldl
        (fun acc cmd => if stringsHasPrefix cmd.Name m.commandPrefix then acc ++ [cmd] else acc)
        [] }

/-- Embeds `searchCmd`: the scan its closure sends to the store.  The method has a value
receiver, so its assignment `m.searching = true` changes the method's own copy of the
model, not the model that `Update` returns. -/
def searchCmd (m : model) : Cmd :=
  if len m.input = 0 then Cmd.search (ScanAllKeys 50)
  else Cmd.search (ScanWithRealPrefix m.input 50)

/-- Embeds `deleteCurrentKeyCmd`. -/
def deleteCurrentKeyCmd (m : model) : Cmd :=
  Cmd.deleteKey m.detailKey

/-- Embeds `deleteSelectedKeyCmd`: the inner option is Go's `nil` command. -/
def deleteSelectedKeyCmd (m : model) : Option (Option Cmd) :=
  if len m.results = 0 ∨ m.selectedItem ≥ len m.results then some none
  else do
    let r ← index m.results m.selectedItem
    some (some (Cmd.deleteKey r.Key))

/-- Embeds `saveKeyCmd`. -/
def saveKeyCmd (m : model) (newValue : Str) (exitToDetail : Bool) : Cmd :=
  Cmd.saveKey m.detailKey newValue exitToDetail

/-- Embeds `addKeyValueCmd`. -/
def addKeyValueCmd (L : Lib) (m : model) : Cmd :=
  Cmd.addKeyValue (L.trimSpace m.addKey) m.addValue

/-- Embeds `formatValue` (pointer receiver): the text to show and the model with the
detected format stored. -/
def formatValue (L : Lib) (m : model) (value : Str) : Str × model :=
  if len value = 0 then (str "<empty>", { m with valueFormat := Format.FormatPlainText })
  else ((FormatContent L value).1, { m with valueFormat := (FormatContent L value).2 })

/-- Embeds the model's method `formatJSON`. -/
def model.formatJSON (L : Lib) (_m : model) (value : Str) : Str :=
  (FormatContent L value).1

/-- Embeds `getCurrentInput`. -/
def getCurrentInput (m : model) : Str :=
  if m.addStep = 0 then m.addKey else m.addValue

/-- Embeds `setCurrentInput` (pointer receiver). -/
def setCurrentInput (m : model) (input : Str) : model :=
  if m.addStep = 0 then { m with addKey := input } else { m with addValue := input }

/-- The guard `n < len(lines) && col < len(lines[n])`, evaluated left to right. -/
def colBeforeLineEnd (lines : List Str) (n col : Int) : Option Bool :=
  if n < len lines then (index lines n).map (fun line => decide (col < len line))
  else some false

/-- The guard `n < len(lines) && col > len(lines[n])`, evaluated left to right. -/
def colPastLineEnd (lines : List Str) (n col : Int) : Option Bool :=
  if n < len lines then (index lines n).map (fun line => decide (col > len line))
  else some false

/-! ## ui/model.go: the key handlers -/

/-- Embeds `executeSelectedCommand`. -/
def executeSelectedCommand (m : model) : Option (model × Option Cmd) :=
  if m.selectedCommand ≥ len m.filteredCommands then some (m, none)
  else do
    let selectedCmd ← index m.filteredCommands m.selectedCommand
    let m := { m with isInCommand := false, commandPrefix := [] }
    if selectedCmd.Name = str "/search" then
      some ({ m with mode := viewMode.modeSearch, input := [], cursor := 0,
                     statusMessage := [] }, none)
    else if selectedCmd.Name = str "/add" then
      some ({ m with mode := viewMode.modeAdd, addStep := 0, addKey := [], addValue := [],
                     addCursor := 0, statusMessage := [] }, none)
    else some (m, none)

/-- Embeds `updateMain`. -/
def updateMain (m : model) (msg : KeyMsg) : Option (model × Option Cmd) :=
  match msg.type with
  | KeyType.KeyCtrlC => some (m, some Cmd.Quit)
  | KeyType.KeyEsc => some (m, some Cmd.Quit)
  | KeyType.KeyEnter => executeSelectedCommand m
  | KeyType.KeyUp =>
    if m.selectedCommand > 0 then
      let m := { m with selectedCommand := m.selectedCommand - 1 }
      if m.selectedCommand < m.commandOffset then
        some ({ m with commandOffset := m.selectedCommand }, none)
      else some (m, none)
    else some (m, none)
  | KeyType.KeyDown =>
    if m.selectedCommand < len m.filteredCommands - 1 then
      let m := { m with selectedCommand := m.selectedCommand + 1 }
      if m.selectedCommand ≥ m.commandOffset + 10 then
        some ({ m with commandOffset := m.selectedCommand - 9 }, none)
      else some (m, none)
    else some (m, none)
  | KeyType.KeyRunes =>
    if msg.Runes = str "/" ∧ len m.commandPrefix = 0 then
      let m := filterCommands { m with commandPrefix := str "/" }
      some ({ m with selectedCommand := 0, commandOffset := 0 }, none)
    else if len msg.String = 1 then
      let m := filterCommands { m with commandPrefix := m.commandPrefix ++ msg.String }
      some ({ m with selectedCommand := 0, commandOffset := 0 }, none)
    else some (m, none)
  | KeyType.KeyBackspace =>
    if len m.commandPrefix > 0 then do
      let p ← sliceTo m.commandPrefix (len m.commandPrefix - 1)
      let m := filterCommands { m with commandPrefix := p }
      some ({ m with selectedCommand := 0, commandOffset := 0 }, none)
    else some (m, none)
  | _ => some (m, none)

/-- Embeds `updateSearch`. -/
def updateSearch (L : Lib) (m : model) (msg : KeyMsg) : Option (model × Option Cmd) :=
  match msg.type with
  | KeyType.KeyCtrlC => some (m, some Cmd.Quit)
  | KeyType.KeyEsc =>
    some ({ m with mode := viewMode.modeMain, isInCommand := true, commandPrefix := [],
                   input := [], cursor := 0 }, none)
  | KeyType.KeyEnter =>
    if len m.results > 0 ∧ m.selectedItem < len m.results then do
      let m := { m with mode := viewMode.modeDetail }
      let r ← index m.results m.selectedItem
      let m := { m with detailKey := r.Key }
      let fv := formatValue L m r.Value
      let m := { fv.2 with detailValue := fv.1, detailCommandMode := true }
      some ({ m with detailLines := stringsSplit m.detailValue newline,
                     detailCursorLine := 0, detailCursorCol := 0,
                     waitingForSecondD := false }, none)
    else some (m, none)
  | KeyType.KeyUp =>
    if m.selectedItem > 0 then
      let m := { m with selectedItem := m.selectedItem - 1 }
      if m.selectedItem < m.resultOffset then
        some ({ m with resultOffset := m.selectedItem }, none)
      else some (m, none)
    else some (m, none)
  | KeyType.KeyDown =>
    if m.selectedItem < len m.results - 1 then
      let m := { m with selectedItem := m.selectedItem + 1 }
      if m.selectedItem ≥ m.resultOffset + 10 then
        some ({ m with resultOffset := m.selectedItem - 9 }, none)
      else some (m, none)
    else some (m, none)
  | KeyType.KeyLeft =>
    if m.cursor > 0 then some ({ m with cursor := m.cursor - 1 }, none)
    else some (m, none)
  | KeyType.KeyRight =>
    if m.cursor < len m.input then some ({ m with cursor := m.cursor + 1 }, none)
    else some (m, none)
  | KeyType.KeyBackspace =>
    if m.cursor > 0 ∧ len m.input > 0 then do
      let a ← sliceTo m.input (m.cursor - 1)
      let b ← sliceFrom m.input m.cursor
      let m := { m with input := a ++ b, cursor := m.cursor - 1 }
      some (m, some (searchCmd m))
    else some (m, none)
  | KeyType.KeyRunes =>
    if msg.Runes = str "d" then
      if m.waitingForSecondD then
        let m := { m with waitingForSecondD := false }
        if len m.results > 0 ∧ m.selectedItem < len m.results then do
          let c ← deleteSelectedKeyCmd m
          some (m, c)
        else some (m, none)
      else some ({ m with waitingForSecondD := true }, none)
    else
      let m := { m with waitingForSecondD := false }
      if len msg.String = 1 then do
        let a ← sliceTo m.input m.cursor
        let b ← sliceFrom m.input m.cursor
        let m := { m with input := a ++ msg.String ++ b, cursor := m.cursor + 1 }
        some (m, some (searchCmd m))
      else some (m, none)
  | _ => some ({ m with waitingForSecondD := false }, none)

/-- Embeds `updateDetail`. -/
def updateDetail (m : model) (msg : KeyMsg) : Option (model × Option Cmd) :=
  match msg.type with
  | KeyType.KeyEsc => some ({ m with mode := viewMode.modeSearch }, none)
  | KeyType.KeyCtrlC => some (m, some Cmd.Quit)
  | KeyType.KeyRunes =>
    if m.detailCommandMode then
      if msg.Runes = str "i" ∨ msg.Runes = str "I" then
        let m := { m with mode := viewMode.modeEdit, editValue := m.detailValue }
        some ({ m with editLines := stringsSplit m.editValue newline, editLineNum := 0,
                       editCursor := 0, insertMode := false }, none)
      else if msg.Runes = str "d" then
        if m.waitingForSecondD then
          let m := { m with waitingForSecondD := false }
          some (m, some (deleteCurrentKeyCmd m))
        else some ({ m with waitingForSecondD := true }, none)
      else if msg.Runes = str "v" then
        some ({ m with detailCommandMode := false, waitingForSecondD := false }, none)
      else if msg.Runes = str "j" then
        if m.detailCursorLine < len m.detailLines - 1 then do
          let m := { m with detailCursorLine := m.detailCursorLine + 1 }
          let line ← index m.detailLines m.detailCursorLine
          let m := if m.detailCursorCol > len line then { m with detailCursorCol := len line }
                   else m
          some ({ m with waitingForSecondD := false }, none)
        else some ({ m with waitingForSecondD := false }, none)
      else if msg.Runes = str "k" then
        if m.detailCursorLine > 0 then do
          let m := { m with detailCursorLine := m.detailCursorLine - 1 }
          let line ← index m.detailLines m.detailCursorLine
          let m := if m.detailCursorCol > len line then { m with detailCursorCol := len line }
                   else m
          some ({ m with waitingForSecondD := false }, none)
        else some ({ m with waitingForSecondD := false }, none)
      else if msg.Runes = str "h" then
        if m.detailCursorCol > 0 then
          some ({ m with detailCursorCol := m.detailCursorCol - 1,
                         waitingForSecondD := false }, none)
        else if m.detailCursorLine > 0 then do
          let m := { m with detailCursorLine := m.detailCursorLine - 1 }
          let line ← index m.detailLines m.detailCursorLine
          some ({ m with detailCursorCol := len line, waitingForSecondD := false }, none)
        else some ({ m with waitingForSecondD := false }, none)
      else if msg.Runes = str "l" then do
        let c ← colBeforeLineEnd m.detailLines m.detailCursorLine m.detailCursorCol
        if c then
          some ({ m with detailCursorCol := m.detailCursorCol + 1,
                         waitingForSecondD := false }, none)
        else if m.detailCursorLine < len m.detailLines - 1 then
          some ({ m with detailCursorLine := m.detailCursorLine + 1, detailCursorCol := 0,
                         waitingForSecondD := false }, none)
        else some ({ m with waitingForSecondD := false }, none)
      else some ({ m with waitingForSecondD := false }, none)
    else
      if msg.Runes = str "i" ∨ msg.Runes = str "I" then
        let m := { m with mode := viewMode.modeEdit, editValue := m.detailValue }
        some ({ m with editLines := stringsSplit m.editValue newline, editLineNum := 0,
                       editCursor := 0, insertMode := false }, none)
      else if msg.Runes = str "c" then
        some ({ m with detailCommandMode := true, waitingForSecondD := false }, none)
      else some (m, none)
  | _ => some (m, none)

/-- Embeds `updateEditCommand`: the editor-command sub-mode of Edit. -/
def updateEditCommand (m : model) (msg : KeyMsg) : Option (model × Option Cmd) :=
  match msg.type with
  | KeyType.KeyEsc =>
    some ({ m with mode := viewMode.modeDetail, detailCommandMode := true }, none)
  | KeyType.KeyCtrlC => some (m, some Cmd.Quit)
  | KeyType.KeyRunes =>
    if msg.Runes = str "i" then some ({ m with insertMode := true }, none)
    else if msg.Runes = str "I" then
      some ({ m with editCursor := 0, insertMode := true }, none)
    else if msg.Runes = str "a" then do
      let c ← colBeforeLineEnd m.editLines m.editLineNum m.editCursor
      let m := if c then { m with editCursor := m.editCursor + 1 } else m
      some ({ m with insertMode := true }, none)
    else if msg.Runes = str "A" then
      if m.editLineNum < len m.editLines then do
        let line ← index m.editLines m.editLineNum
        some ({ m with editCursor := len line, insertMode := true }, none)
      else some ({ m with insertMode := true }, none)
    else if msg.Runes = str "o" then do
      let a ← sliceTo m.editLines (m.editLineNum + 1)
      let b ← sliceFrom m.editLines (m.editLineNum + 1)
      some ({ m with editLines := a ++ [[]] ++ b, editLineNum := m.editLineNum + 1,
                     editCursor := 0, insertMode := true }, none)
    else if msg.Runes = str "O" then do
      let a ← sliceTo m.editLines m.editLineNum
      let b ← sliceFrom m.editLines m.editLineNum
      some ({ m with editLines := a ++ [[]] ++ b, editCursor := 0, insertMode := true }, none)
    else if msg.Runes = str "h" then
      if m.editCursor > 0 then some ({ m with editCursor := m.editCursor - 1 }, none)
      else some (m, none)
    else if msg.Runes = str "l" then do
      let c ← colBeforeLineEnd m.editLines m.editLineNum m.editCursor
      if c then some ({ m with editCursor := m.editCursor + 1 }, none)
      else some (m, none)
    else if msg.Runes = str "j" then
      if m.editLineNum < len m.editLines - 1 then do
        let m := { m with editLineNum := m.editLineNum + 1 }
        let past ← colPastLineEnd m.editLines m.editLineNum m.editCursor
        if past then do
          let line ← index m.editLines m.editLineNum
          some ({ m with editCursor := len line }, none)
        else some (m, none)
      else some (m, none)
    else if msg.Runes = str "k" then
      if m.editLineNum > 0 then do
        let m := { m with editLineNum := m.editLineNum - 1 }
        let past ← colPastLineEnd m.editLines m.editLineNum m.editCursor
        if past then do
          let line ← index m.editLines m.editLineNum
          some ({ m with editCursor := len line }, none)
        else some (m, none)
      else some (m, none)
    else if msg.Runes = str ":" then
      some ({ m with commandMode := true, commandInput := str ":" }, none)
    else if msg.Runes = str "d" then
      if m.waitingForSecondD then
        let m := { m with waitingForSecondD := false }
        if len m.editLines > 1 then do
          let a ← sliceTo m.editLines m.editLineNum
          let b ← sliceFrom m.editLines (m.editLineNum + 1)
          let m := { m with editLines := a ++ b }
          let m := if m.editLineNum ≥ len m.editLines then
                     { m with editLineNum := len m.editLines - 1 }
                   else m
          some ({ m with editCursor := 0 }, none)
        else if len m.editLines = 1 then do
          let ls ← setIndex m.editLines 0 []
          some ({ m with editLines := ls, editCursor := 0 }, none)
        else some ({ m with editCursor := 0 }, none)
      else some ({ m with waitingForSecondD := true }, none)
    else some (m, none)
  | KeyType.KeyCtrlS =>
    let m := { m with waitingForSecondD := false }
    some (m, some (saveKeyCmd m (stringsJoin m.editLines (str "\n")) false))
  | _ => some ({ m with waitingForSecondD := false }, none)

/-- Embeds `updateEditCommandLine`: the command-line sub-mode of Edit. -/
def updateEditCommandLine (m : model) (msg : KeyMsg) : Option (model × Option Cmd) :=
  match msg.type with
  | KeyType.KeyEsc => some ({ m with commandMode := false, commandInput := [] }, none)
  | KeyType.KeyEnter =>
    let cmd := m.commandInput
    let m := { m with commandMode := false, commandInput := [], insertMode := false,
                      statusMessage := [] }
    if cmd = str ":w" then
      some (m, some (saveKeyCmd m (stringsJoin m.editLines (str "\n")) false))
    else if cmd = str ":x" ∨ cmd = str ":wq" then
      some (m, some (saveKeyCmd m (stringsJoin m.editLines (str "\n")) true))
    else if cmd = str ":q" then
      some ({ m with mode := viewMode.modeDetail, detailCommandMode := true }, none)
    else if cmd = str ":q!" then
      some ({ m with mode := viewMode.modeDetail, detailCommandMode := true }, none)
    else some (m, none)
  | KeyType.KeyBackspace =>
    if len m.commandInput > 1 then do
      let s ← sliceTo m.commandInput (len m.commandInput - 1)
      some ({ m with commandInput := s }, none)
    else some (m, none)
  | _ =>
    if len msg.String = 1 then
      some ({ m with commandInput := m.commandInput ++ msg.String }, none)
    else some (m, none)

/-- Embeds `updateEditInsert`: the insert sub-mode of Edit. -/
def updateEditInsert (m : model) (msg : KeyMsg) : Option (model × Option Cmd) :=
  match msg.type with
  | KeyType.KeyEsc => some ({ m with insertMode := false }, none)
  | KeyType.KeyCtrlC => some (m, some Cmd.Quit)
  | KeyType.KeyUp =>
    if m.editLineNum > 0 then do
      let m := { m with editLineNum := m.editLineNum - 1 }
      let past ← colPastLineEnd m.editLines m.editLineNum m.editCursor
      if past then do
        let line ← index m.editLines m.editLineNum
        some ({ m with editCursor := len line }, none)
      else some (m, none)
    else some (m, none)
  | KeyType.KeyDown =>
    if m.editLineNum < len m.editLines - 1 then do
      let m := { m with editLineNum := m.editLineNum + 1 }
      let past ← colPastLineEnd m.editLines m.editLineNum m.editCursor
      if past then do
        let line ← index m.editLines m.editLineNum
        some ({ m with editCursor := len line }, none)
      else some (m, none)
    else some (m, none)
  | KeyType.KeyLeft =>
    if m.editCursor > 0 then some ({ m with editCursor := m.editCursor - 1 }, none)
    else if m.editLineNum > 0 then do
      let m := { m with editLineNum := m.editLineNum - 1 }
      let line ← index m.editLines m.editLineNum
      some ({ m with editCursor := len line }, none)
    else some (m, none)
  | KeyType.KeyRight => do
    let c ← colBeforeLineEnd m.editLines m.editLineNum m.editCursor
    if c then some ({ m with editCursor := m.editCursor + 1 }, none)
    else if m.editLineNum < len m.editLines - 1 then
      some ({ m with editLineNum := m.editLineNum + 1, editCursor := 0 }, none)
    else some (m, none)
  | KeyType.KeyBackspace =>
    if m.editLineNum < len m.editLines then
      if m.editCursor > 0 then do
        let line ← index m.editLines m.editLineNum
        let a ← sliceTo line (m.editCursor - 1)
        let b ← sliceFrom line m.editCursor
        let ls ← setIndex m.editLines m.editLineNum (a ++ b)
        some ({ m with editLines := ls, editCursor := m.editCursor - 1 }, none)
      else if m.editLineNum > 0 then do
        let prevLine ← index m.editLines (m.editLineNum - 1)
        let currentLine ← index m.editLines m.editLineNum
        let ls ← setIndex m.editLines (m.editLineNum - 1) (prevLine ++ currentLine)
        let a ← sliceTo ls m.editLineNum
        let b ← sliceFrom ls (m.editLineNum + 1)
        some ({ m with editLines := a ++ b, editLineNum := m.editLineNum - 1,
                       editCursor := len prevLine }, none)
      else some (m, none)
    else some (m, none)
  | KeyType.KeyEnter =>
    if m.editLineNum < len m.editLines then do
      let line ← index m.editLines m.editLineNum
      let beforeCursor ← sliceTo line m.editCursor
      let afterCursor ← sliceFrom line m.editCursor
      let ls ← setIndex m.editLines m.editLineNum beforeCursor
      let a ← sliceTo ls (m.editLineNum + 1)
      let b ← sliceFrom ls (m.editLineNum + 1)
      some ({ m with editLines := a ++ [afterCursor] ++ b, editLineNum := m.editLineNum + 1,
                     editCursor := 0 }, none)
    else some (m, none)
  | _ =>
    if len msg.String = 1 ∧ m.editLineNum < len m.editLines then do
      let line ← index m.editLines m.editLineNum
      let a ← sliceTo line m.editCursor
      let b ← sliceFrom line m.editCursor
      let ls ← setIndex m.editLines m.editLineNum (a ++ msg.String ++ b)
      some ({ m with editLines := ls, editCursor := m.editCursor + 1 }, none)
    else some (m, none)

/-- Embeds `updateEdit`. -/
def updateEdit (m : model) (msg : KeyMsg) : Option (model × Option Cmd) :=
  if m.commandMode then updateEditCommandLine m msg
  else if !m.insertMode then updateEditCommand m msg
  else updateEditInsert m msg

/-- Embeds `updateAdd`. -/
def updateAdd (L : Lib) (m : model) (msg : KeyMsg) : Option (model × Option Cmd) :=
  match msg.type with
  | KeyType.KeyEsc =>
    some ({ m with mode := viewMode.modeMain, isInCommand := true, commandPrefix := [],
                   addKey := [], addValue := [], addStep := 0, addCursor := 0 }, none)
  | KeyType.KeyCtrlC => some (m, some Cmd.Quit)
  | KeyType.KeyTab =>
    if m.addStep = 0 ∧ len (L.trimSpace m.addKey) > 0 then
      some ({ m with addStep := 1, addCursor := len m.addValue }, none)
    else if m.addStep = 1 then
      some ({ m with addStep := 0, addCursor := len m.addKey }, none)
    else some (m, none)
  | KeyType.KeyEnter =>
    if m.addStep = 0 then
      if len (L.trimSpace m.addKey) > 0 then
        some ({ m with addStep := 1, addCursor := len m.addValue }, none)
      else some (m, none)
    else do
      let currentInput := getCurrentInput m
      let a ← sliceTo currentInput m.addCursor
      let b ← sliceFrom currentInput m.addCursor
      let m := setCurrentInput m (a ++ str "\n" ++ b)
      some ({ m with addCursor := m.addCursor + 1 }, none)
  | KeyType.KeyCtrlS =>
    if len (L.trimSpace m.addKey) > 0 then some (m, some (addKeyValueCmd L m))
    else some (m, none)
  | KeyType.KeyLeft =>
    if m.addCursor > 0 then some ({ m with addCursor := m.addCursor - 1 }, none)
    else some (m, none)
  | KeyType.KeyRight =>
    if m.addCursor < len (getCurrentInput m) then
      some ({ m with addCursor := m.addCursor + 1 }, none)
    else some (m, none)
  | KeyType.KeyBackspace =>
    if m.addCursor > 0 then do
      let currentInput := getCurrentInput m
      let a ← sliceTo currentInput (m.addCursor - 1)
      let b ← sliceFrom currentInput m.addCursor
      let m := setCurrentInput m (a ++ b)
      some ({ m with addCursor := m.addCursor - 1 }, none)
    else some (m, none)
  | _ =>
    if len msg.String = 1 then do
      let currentInput := getCurrentInput m
      let a ← sliceTo currentInput m.addCursor
      let b ← sliceFrom currentInput m.addCursor
      let m := setCurrentInput m (a ++ msg.String ++ b)
      some ({ m with addCursor := m.addCursor + 1 }, none)
    else some (m, none)

/-! ## ui/model.go: the dispatcher -/

/-- Embeds `Update`: the new model and the command returned (`none` is Go's `nil`
command); the outer `none` is a run-time panic. -/
def Update (L : Lib) (m : model) (msg : Msg) : Option (model × Option Cmd) :=
  match msg with
  | Msg.KeyMsg k =>
    match m.mode with
    | viewMode.modeMain => updateMain m k
    | viewMode.modeSearch => updateSearch L m k
    | viewMode.modeDetail => updateDetail m k
    | viewMode.modeEdit => updateEdit m k
    | viewMode.modeAdd => updateAdd L m k
  | Msg.searchResultMsg results err =>
    let m := { m with searching := false }
    if err = none then
      some ({ m with results := results, selectedItem := 0, resultOffset := 0 }, none)
    else some (m, none)
  | Msg.deleteSuccessMsg _ =>
    let m := { m with mode := viewMode.modeSearch }
    some (m, some (searchCmd m))
  | Msg.saveSuccessMsg _ value exitToDetail =>
    let m := { m with detailValue := m.formatJSON L value,
                      statusMessage := str "Saved successfully!" }
    if exitToDetail then
      some ({ m with mode := viewMode.modeDetail, detailCommandMode := true }, none)
    else some (m, none)
  | Msg.saveErrorMsg _ err =>
    some ({ m with statusMessage := str "Save failed: " ++ errorText err }, none)
  | Msg.addSuccessMsg key _ =>
    let m := { m with mode := viewMode.modeSearch, addKey := [], addValue := [],
                      addStep := 0, addCursor := 0,
                      statusMessage := str "Added key '" ++ key ++ str "' successfully!" }
    some (m, some (searchCmd m))
  | Msg.otherMsg => some (m, none)

/-- The interaction loop: applies the messages in order, collecting the commands
returned; `none` when a step panics. -/
def run (L : Lib) (m : model) (msgs : List Msg) : Option (model × List Cmd) :=
  match msgs with
  | [] => some (m, [])
  | msg :: rest =>
    match Update L m msg with
    | none => none
    | some (m1, c) =>
      match run L m1 rest with
      | none => none
      | some (m2, cs) => some (m2, c.toList ++ cs)

/-- A state the program can be in: reached from `InitialModel` by some sequence of key
events and result messages. -/
def Reachable (L : Lib) (m : model) : Prop :=
  ∃ msgs cmds, run L InitialModel msgs = some (m, cmds)

/-! ## ui/model.go: what the commands do off the interaction path -/

/-- The one call on the store that a command's closure makes. -/
inductive StoreCall
  | scan (req : ScanRequest)
  | delete (key : Str)
  | put (key : Str) (value : Str)
  deriving DecidableEq, Repr

/-- The store's answer to a call: a non-nil error with its text, the keys and values of
a scan, or a put or delete that returned no error. -/
inductive StoreReply
  | failed (err : Str)
  | scanned (keys : List Str) (vals : List Str)
  | done
  deriving DecidableEq, Repr

/-- The store call made by the closure of a command (`tea.Quit` makes none). -/
def Cmd.storeCall (c : Cmd) : Option StoreCall :=
  match c with
  | Cmd.Quit => none
  | Cmd.search req => some (StoreCall.scan req)
  | Cmd.deleteKey key => some (StoreCall.delete key)
  | Cmd.saveKey key newValue _ => some (StoreCall.put key newValue)
  | Cmd.addKeyValue key value => some (StoreCall.put key value)

/-- The loop of `searchCmd` that turns the scanned keys and values into results: an
empty key is shown as `<empty key>`; `vals[i]` panics when there are fewer values than
keys. -/
def scanResults (keys vals : List Str) : Option (List KeyValue) :=
  match keys, vals with
  | [], _ => some []
  | _ :: _, [] => none
  | key :: keys, val :: vals =>
    (scanResults keys vals).map
      (fun rest => { Key := if len key = 0 then str "<empty key>" else key, Value := val } :: rest)

/-- The message a command's closure returns for a reply of the store, as written in
`searchCmd`, `deleteCurrentKeyCmd`, `deleteSelectedKeyCmd`, `saveKeyCmd` and
`addKeyValueCmd`; `none` when the reply is not one the call can get, when the closure
panics, and for `tea.Quit`, whose message the terminal library consumes. -/
def Cmd.resultMsg (c : Cmd) (r : StoreReply) : Option Msg :=
  match c, r with
  | Cmd.search _, StoreReply.failed err => some (Msg.searchResultMsg [] (some err))
  | Cmd.search _, StoreReply.scanned keys vals =>
    (scanResults keys vals).map (fun results => Msg.searchResultMsg results none)
  | Cmd.deleteKey _, StoreReply.failed err => some (Msg.searchResultMsg [] (some err))
  | Cmd.deleteKey key, StoreReply.done => some (Msg.deleteSuccessMsg key)
  | Cmd.saveKey key _ _, StoreReply.failed err => some (Msg.saveErrorMsg key (some err))
  | Cmd.saveKey key newValue exitToDetail, StoreReply.done =>
    some (Msg.saveSuccessMsg key newValue exitToDetail)
  | Cmd.addKeyValue key _, StoreReply.failed err => some (Msg.saveErrorMsg key (some err))
  | Cmd.addKeyValue key value, StoreReply.done => some (Msg.addSuccessMsg key value)
  | _, _ => none

/-! ## Concrete inputs -/

/-- The key event of a rune key with the text `s`, typed without Alt and not pasted. -/
def runeKeyMsg (s : String) : KeyMsg :=
  { type := KeyType.KeyRunes, Runes := str s, Alt := false, Paste := false }

/-- The key event of a non-rune key of the given type. -/
def specialKeyMsg (t : KeyType) : KeyMsg :=
  { type := t, Runes := [], Alt := false, Paste := false }

/-- The message of a rune key. -/
def runeKey (s : String) : Msg := Msg.KeyMsg (runeKeyMsg s)

/-- The message of a non-rune key. -/
def specialKey (t : KeyType) : Msg := Msg.KeyMsg (specialKeyMsg t)

/-- ASCII white space, the one-byte characters `strings.TrimSpace` removes. -/
def isAsciiSpace (b : Byte) : Bool :=
  b = 9 || b = 10 || b = 11 || b = 12 || b = 13 || b = 32

/-- A library instance for running the program on concrete inputs: `TrimSpace` on ASCII
white space and codecs that reject every text, so that every value is plain text. -/
def plainLib : Lib :=
  { trimSpace := fun s => ((s.dropWhile isAsciiSpace).reverse.dropWhile isAsciiSpace).reverse
    jsonUnmarshalOk := fun _ => false
    jsonMarshalIndent := fun _ => none
    yamlUnmarshalOk := fun _ => false
    yamlMarshal := fun _ => none
    tomlDecodeOk := fun _ => false
    tomlEncode := fun _ => none }

/-- Key events and a scan result that lead from the initial model into the editor: Enter
runs the highlighted `/search` command, a scan returns the pair `k`, `v`, Enter opens
it, and `i` starts editing. -/
def openEditorMsgs : List Msg :=
  [specialKey KeyType.KeyEnter, Msg.searchResultMsg [{ Key := str "k", Value := str "v" }] none,
    specialKey KeyType.KeyEnter, runeKey "i"]

/-- The state after `openEditorMsgs`: Edit mode on the one-line buffer `v`. -/
def editorState : model :=
  ((run plainLib InitialModel openEditorMsgs).map Prod.fst).getD InitialModel

/-- Key events and a scan result that lead from the initial model to the Search list
holding the one pair `k`, `v`. -/
def searchListMsgs : List Msg :=
  [specialKey KeyType.KeyEnter, Msg.searchResultMsg [{ Key := str "k", Value := str "v" }] none]

/-- The state after `searchListMsgs` and Enter: the Detail view of the pair `k`, `v`, just
opened from the search list. -/
def detailState : model :=
  ((run plainLib InitialModel (searchListMsgs ++ [specialKey KeyType.KeyEnter])).map
    Prod.fst).getD InitialModel

/-- Key events and a scan result that open the editor on the two-line value `a`, `b`. -/
def twoLineEditorMsgs : List Msg :=
  [specialKey KeyType.KeyEnter,
    Msg.searchResultMsg [{ Key := str "k", Value := str "a\nb" }] none,
    specialKey KeyType.KeyEnter, runeKey "i"]

/-- The state after `searchListMsgs`: Search mode with an empty search text and the
one result `k`, `v` highlighted. -/
def searchState : model :=
  ((run plainLib InitialModel searchListMsgs).map Prod.fst).getD InitialModel

/-- The state after opening the editor on `v` and typing `:`, `w`: the command-line
sub-mode of Edit holding the text `:w`. -/
def commandLineState : model :=
  ((run plainLib InitialModel (openEditorMsgs ++ [runeKey ":", runeKey "w"])).map
    Prod.fst).getD InitialModel

/-- The state after choosing `/add` in the Palette and typing `a` and a space: the key
step of Add mode holding the key text `a` followed by a space. -/
def addState : model :=
  ((run plainLib InitialModel
      [specialKey KeyType.KeyDown, specialKey KeyType.KeyEnter, runeKey "a",
        specialKey KeyType.KeySpace]).map Prod.fst).getD InitialModel

/-- JSON white space: the four characters `encoding/json` skips around a value. -/
def isJsonSpace (b : Byte) : Bool :=
  b = 9 || b = 10 || b = 13 || b = 32

/-- A library instance for one JSON text: `TrimSpace` on ASCII white space, and a JSON
parser that accepts the empty object, with JSON white space around it, and no other text. -/
def objectLib : Lib :=
  { trimSpace := plainLib.trimSpace
    jsonUnmarshalOk := fun s =>
      decide (((s.dropWhile isJsonSpace).reverse.dropWhile isJsonSpace).reverse = str "\x7b\x7d")
    jsonMarshalIndent := fun _ => some (str "\x7b\x7d")
    yamlUnmarshalOk := fun _ => false
    yamlMarshal := fun _ => none
    tomlDecodeOk := fun _ => false
    tomlEncode := fun _ => none }

/-- Key events and a scan result that open the Detail view of the two-line value `a`,
`b`. -/
def twoLineDetailMsgs : List Msg :=
  [specialKey KeyType.KeyEnter,
    Msg.searchResultMsg [{ Key := str "k", Value := str "a\nb" }] none,
    specialKey KeyType.KeyEnter]

/-- The state after `twoLineDetailMsgs`: the Detail view of the lines `a`, `b` with the
cursor at line 0, column 0. -/
def twoLineDetailState : model :=
  ((run plainLib InitialModel twoLineDetailMsgs).map Prod.fst).getD InitialModel

/-- The state after `twoLineEditorMsgs`: the editor on the lines `a`, `b` with the cursor
at line 0, column 0. -/
def twoLineEditorState : model :=
  ((run plainLib InitialModel twoLineEditorMsgs).map Prod.fst).getD InitialModel

/-- The state after `twoLineEditorMsgs` and `d`: the editor on the lines `a`, `b` with the
pending-delete flag set. -/
def twoLineDdState : model :=
  ((run plainLib twoLineEditorState [runeKey "d"]).map Prod.fst).getD InitialModel

/-- The state after opening the editor on `v` and `i`: the insert sub-mode of Edit on
the one-line buffer `v`, with the cursor at line 0, column 0. -/
def insertState : model :=
  ((run plainLib editorState [runeKey "i"]).map Prod.fst).getD InitialModel

/-- Messages that lead to a Detail view while the editor's command-line flag is still
set: the editor is opened on the pair `k`, `v`, `:x` and Enter issue a save with exit, a
second `:` is typed before the save completes, and the save-success message arrives. -/
def staleCommandLineMsgs : List Msg :=
  openEditorMsgs ++
    [runeKey ":", runeKey "x", specialKey KeyType.KeyEnter, runeKey ":",
      Msg.saveSuccessMsg (str "k") (str "v") true]

/-- The state after `staleCommandLineMsgs`: Detail mode with `commandMode` still set. -/
def staleDetailState : model :=
  ((run plainLib InitialModel staleCommandLineMsgs).map Prod.fst).getD InitialModel

/-- The state after `/search` is run and the keys `a`, `d`, `b` are typed. -/
def typedAdbState : model :=
  ((run plainLib InitialModel
      [specialKey KeyType.KeyEnter, runeKey "a", runeKey "d", runeKey "b"]).map
    Prod.fst).getD InitialModel

/-- The edit buffer invariant of the data model: the buffer is non-empty and the cursor
is in bounds, `0 ≤ editLineNum < len(editLines)` and
`0 ≤ editCursor ≤ len(editLines[editLineNum])`. -/
def EditInv (m : model) : Prop :=
  m.editLines ≠ [] ∧ 0 ≤ m.editLineNum ∧ m.editLineNum < len m.editLines ∧
    0 ≤ m.editCursor ∧
    ∃ line, index m.editLines m.editLineNum = some line ∧ m.editCursor ≤ len line

/-- No line of the buffer contains the newline byte. -/
def NoNewline (lines : List Str) : Prop :=
  ∀ l ∈ lines, newline ∉ l

/-- The Detail cursor is in bounds: `0 ≤ detailCursorLine < len(detailLines)` and
`0 ≤ detailCursorCol ≤ len(detailLines[detailCursorLine])`. -/
def DetailInv (m : model) : Prop :=
  0 ≤ m.detailCursorLine ∧ m.detailCursorLine < len m.detailLines ∧ 0 ≤ m.detailCursorCol ∧
    ∃ line, index m.detailLines m.detailCursorLine = some line ∧ m.detailCursorCol ≤ len line

/-- The highlight and the scroll offset of a list of `n` rows shown through a window of 10
rows: the highlight is 0 on an empty list and a row of the list otherwise, and it lies in
the window that starts at the offset. -/
def WindowInv (n sel off : Int) : Prop :=
  (n = 0 → sel = 0) ∧ (0 < n → 0 ≤ sel ∧ sel ≤ n - 1) ∧ 0 ≤ off ∧ off ≤ sel ∧ sel < off + 10

/-- The window invariant for the Search result list and for the Palette's filtered
command list. -/
def ListInv (m : model) : Prop :=
  WindowInv (len m.results) m.selectedItem m.resultOffset ∧
    WindowInv (len m.filteredCommands) m.selectedCommand m.commandOffset

/-- When the editor's command-line flag is set, the command text begins with `:`. -/
def CommandLineInv (m : model) : Prop :=
  m.commandMode = true → stringsHasPrefix m.commandInput (str ":") = true

/-- The ways one step changes the search text and its cursor: not at all; the text is
emptied and the cursor set to 0; the cursor moves left or right inside the text; the byte
before the cursor is removed; or the one-byte text of a rune key other than `d` is
inserted at the cursor (`k` is the key of the step, if it is a key event). -/
def SearchTextStep (m m' : model) (k : Option KeyMsg) : Prop :=
  (m'.input = m.input ∧ m'.cursor = m.cursor) ∨
  (m'.input = [] ∧ m'.cursor = 0) ∨
  (m'.input = m.input ∧ 0 < m.cursor ∧ m'.cursor = m.cursor - 1) ∨
  (m'.input = m.input ∧ m.cursor < len m.input ∧ m'.cursor = m.cursor + 1) ∨
  (0 < m.cursor ∧ ∃ a b, sliceTo m.input (m.cursor - 1) = some a ∧
    sliceFrom m.input m.cursor = some b ∧ m'.input = a ++ b ∧ m'.cursor = m.cursor - 1) ∨
  (∃ key, k = some key ∧ key.type = KeyType.KeyRunes ∧ key.Runes ≠ str "d" ∧
    len key.String = 1 ∧
    ∃ a b, sliceTo m.input m.cursor = some a ∧ sliceFrom m.input m.cursor = some b ∧
      m'.input = a ++ key.String ++ b ∧ m'.cursor = m.cursor + 1)

/-- The Add cursor is inside the active field: `0 ≤ addCursor ≤ len(getCurrentInput())`. -/
def AddInv (m : model) : Prop :=
  0 ≤ m.addCursor ∧ m.addCursor ≤ len (getCurrentInput m)

/-- The Detail cursor is in bounds, or no value has been opened yet: the Detail lines are
empty and the cursor is at line 0, column 0. -/
def DetailOk (m : model) : Prop :=
  DetailInv m ∨ (m.detailLines = [] ∧ m.detailCursorLine = 0 ∧ m.detailCursorCol = 0)

/-- The bounds that keep every index and slice operation of the handlers in range: the
search cursor is inside the search text, the Add cursor inside the active field, the
highlights inside their lists, the Detail cursor inside the Detail lines, and in Edit mode
the edit cursor inside the buffer. -/
def SafeInv (m : model) : Prop :=
  (0 ≤ m.cursor ∧ m.cursor ≤ len m.input) ∧ AddInv m ∧ ListInv m ∧ DetailOk m ∧
    (m.mode = viewMode.modeEdit → EditInv m)

/-! ## Theorems: key order and scan bounds -/

theorem bytesLt_irrefl (a : Str) : bytesLt a a = false := by
  induction a with
  | nil => rfl
  | cons x xs ih => simp [bytesLt, ih]

theorem bytesLe_refl (a : Str) : bytesLe a a = true := by
  simp [bytesLe, bytesLt_irrefl]

/-- The function `bytesLt` is the lexicographic order of lists of bytes. -/
theorem bytesLt_iff_lex (a b : Str) : bytesLt a b = true ↔ List.Lex (· < ·) a b := by
  induction a generalizing b with
  | nil =>
    cases b with
    | nil => simp [bytesLt]
    | cons y ys => simp [bytesLt, List.Lex.nil]
  | cons x xs ih =>
    cases b with
    | nil => simp [bytesLt]
    | cons y ys =>
      rcases lt_trichotomy x y with h | h | h
      · simp [bytesLt, h, List.Lex.rel h]
      · subst h
        simp [bytesLt, ih, List.Lex.cons_iff]
      · have h' : ¬ x < y := not_lt.mpr (le_of_lt h)
        have hne : x ≠ y := ne_of_gt h
        simp only [bytesLt, h, h', if_true, if_false, Bool.false_eq_true, false_iff]
        intro hl
        cases hl with
        | cons hl => exact hne rfl
        | rel hl => exact h' hl

theorem bytesLt_append_cons (b s : Str) (c : Byte) : bytesLt b (b ++ c :: s) = true := by
  induction b with
  | nil => rfl
  | cons x xs ih => simp [bytesLt, ih]

theorem bytesLe_append (b s : Str) : bytesLe b (b ++ s) = true := by
  induction b with
  | nil => cases s <;> rfl
  | cons x xs ih =>
    simp only [bytesLe, Bool.not_eq_true', List.cons_append] at ih ⊢
    simp [bytesLt, ih]

theorem bytesLt_append_left (b s t : Str) : bytesLt (b ++ s) (b ++ t) = bytesLt s t := by
  induction b with
  | nil => rfl
  | cons x xs ih => simp [bytesLt, ih]

theorem byte_lt_ff (c : Byte) (hc : c ≠ 0xFF) : c < 0xFF := by
  have h1 := c.isLt
  have h2 : c.val ≠ 255 := fun h => hc (Fin.ext h)
  rw [Fin.lt_def]
  show c.val < 255
  omega

/-- The range `[b, nextKey b)` holds an extension `b ++ s` exactly when `s` does not
start with the byte `0xFF`. -/
theorem covers_append_iff (b s : Str) :
    (bytesLe b (b ++ s) && bytesLt (b ++ s) (nextKey b)) = true ↔ s.head? ≠ some 0xFF := by
  have h : bytesLt (b ++ s) (nextKey b) = bytesLt s [0xFF] := by
    unfold nextKey
    exact bytesLt_append_left b s [0xFF]
  rw [bytesLe_append, h]
  cases s with
  | nil => simp [bytesLt]
  | cons c cs =>
    by_cases hc : c = 0xFF
    · subst hc
      simp [bytesLt]
    · have := byte_lt_ff c hc
      simp [bytesLt, this, hc]

/-- C6: `nextKey b` is `b` followed by the byte `0xFF`, it is strictly greater than `b`
in the lexicographic byte order, and the range `[b, nextKey b)` holds `b` itself and
every `b ++ c :: s` whose first extra byte `c` is not `0xFF`. -/
theorem nextKey_spec (b : Str) (c : Byte) (s : Str) (hc : c ≠ 0xFF) :
    nextKey b = b ++ [0xFF] ∧
    bytesLt b (nextKey b) = true ∧
    (bytesLe b b && bytesLt b (nextKey b)) = true ∧
    (bytesLe b (b ++ c :: s) && bytesLt (b ++ c :: s) (nextKey b)) = true := by
  have hlt : bytesLt b (nextKey b) = true := bytesLt_append_cons b [] 0xFF
  refine ⟨rfl, hlt, ?_, ?_⟩
  · simp [bytesLe_refl, hlt]
  · rw [covers_append_iff]
    simpa using hc

/-- Witness for `nextKey_spec`: the prefix `a`, extended by `b`. -/
theorem nextKey_spec_witness :
    (98 : Byte) ≠ 0xFF ∧
    (nextKey [97] = [97] ++ [0xFF] ∧
    bytesLt [97] (nextKey [97]) = true ∧
    (bytesLe [97] [97] && bytesLt [97] (nextKey [97])) = true ∧
    (bytesLe [97] ([97] ++ 98 :: []) && bytesLt ([97] ++ 98 :: []) (nextKey [97])) = true) :=
  ⟨by decide, nextKey_spec [97] 98 [] (by decide)⟩

/-- C7, as stated, fails: the key `a` followed by `0xFF` has the prefix `a`, yet neither
`ScanWithRealPrefix` nor `PrefixScan` for `a` covers it. -/
theorem prefix_scan_misses_ff_key :
    ([97] : Str) <+: [97, 0xFF] ∧
    (ScanWithRealPrefix [97] 50).covers [97, 0xFF] = false ∧
    (PrefixScan [97] 50).covers [97, 0xFF] = false := by
  refine ⟨⟨[0xFF], rfl⟩, ?_, ?_⟩ <;> decide

/-- C7, amended: a key `b ++ s` with the prefix `b` lies in the range that
`ScanWithRealPrefix` and `PrefixScan` pass to the store exactly when `s` does not start
with the byte `0xFF`; so the bounds include `b` and every extension of `b` by a suffix
whose first byte is not `0xFF`, and no other key with that prefix. -/
theorem prefix_scan_covers_iff (b s : Str) (limit : Int) :
    ((ScanWithRealPrefix b limit).covers (b ++ s) = true ↔ s.head? ≠ some 0xFF) ∧
    ((PrefixScan b limit).covers (b ++ s) = true ↔ s.head? ≠ some 0xFF) :=
  ⟨covers_append_iff b s, covers_append_iff b s⟩

theorem prefix_of_between (b k : Str) (h1 : bytesLe b k = true)
    (h2 : bytesLt k (nextKey b) = true) : b <+: k := by
  induction b generalizing k with
  | nil => exact List.nil_prefix
  | cons x xs ih =>
    cases k with
    | nil => simp [bytesLe, bytesLt] at h1
    | cons y ys =>
      rcases lt_trichotomy x y with h | h | h
      · have h' : ¬ y < x := not_lt.mpr (le_of_lt h)
        simp [nextKey, bytesLt, h, h'] at h2
      · subst h
        simp only [bytesLe, bytesLt, lt_self_iff_false, if_false, Bool.not_eq_true',
          nextKey, List.cons_append] at h1 h2
        have := ih ys (by simpa [bytesLe] using h1) (by simpa [nextKey] using h2)
        exact (List.prefix_cons_inj x).mpr this
      · simp [bytesLe, bytesLt, h] at h1

/-- C8: a key `k` inside the range `[b, nextKey b)` that `ScanWithRealPrefix` passes to
the store has `b` as a byte prefix. -/
theorem scan_range_only_prefix (b k : Str) (limit : Int)
    (h : (ScanWithRealPrefix b limit).covers k = true) : b <+: k := by
  simp only [ScanRequest.covers, ScanWithRealPrefix, Bool.and_eq_true] at h
  exact prefix_of_between b k h.1 h.2

/-- Witness for `scan_range_only_prefix`: the key `ab` in the range of the prefix `a`. -/
theorem scan_range_only_prefix_witness :
    (ScanWithRealPrefix [97] 50).covers [97, 98] = true ∧ ([97] : Str) <+: [97, 98] :=
  ⟨by decide, scan_range_only_prefix [97] [97, 98] 50 (by decide)⟩

/-! ## Theorems: Go slices and strings -/

theorem len_nonneg {α : Type} (s : List α) : 0 ≤ len s := by simp [len]

theorem sliceTo_of_le {α : Type} (s : List α) (j : Int) (h0 : 0 ≤ j) (h1 : j ≤ len s) :
    sliceTo s j = some (s.take j.toNat) := by
  simp [sliceTo, h0, h1]

theorem sliceFrom_of_le {α : Type} (s : List α) (j : Int) (h0 : 0 ≤ j) (h1 : j ≤ len s) :
    sliceFrom s j = some (s.drop j.toNat) := by
  simp [sliceFrom, h0, h1]

theorem setIndex_of_lt {α : Type} (s : List α) (j : Int) (v : α) (h0 : 0 ≤ j)
    (h1 : j < len s) : setIndex s j v = some (s.set j.toNat v) := by
  simp [setIndex, h0, h1]

theorem index_of_lt {α : Type} (s : List α) (i : Int) (h0 : 0 ≤ i) (h1 : i < len s) :
    ∃ x, index s i = some x ∧ s[i.toNat]? = some x := by
  have h : i.toNat < s.length := by simp only [len] at h1; omega
  refine ⟨s[i.toNat], ?_, ?_⟩
  · simp [index, h0, h1, List.getElem?_eq_getElem h]
  · exact List.getElem?_eq_getElem h

theorem index_eq_some {α : Type} {s : List α} {i : Int} {x : α} (h : index s i = some x) :
    0 ≤ i ∧ i < len s ∧ s[i.toNat]? = some x := by
  unfold index at h
  split at h
  · rename_i hb; exact ⟨hb.1, hb.2, h⟩
  · simp at h

theorem index_mem {α : Type} {s : List α} {i : Int} {x : α} (h : index s i = some x) :
    x ∈ s :=
  List.getElem?_mem (index_eq_some h).2.2

theorem colBeforeLineEnd_of_index {lines : List Str} {n : Int} {line : Str} (col : Int)
    (h : index lines n = some line) :
    colBeforeLineEnd lines n col = some (decide (col < len line)) := by
  simp [colBeforeLineEnd, (index_eq_some h).2.1, h]

theorem colPastLineEnd_of_index {lines : List Str} {n : Int} {line : Str} (col : Int)
    (h : index lines n = some line) :
    colPastLineEnd lines n col = some (decide (col > len line)) := by
  simp [colPastLineEnd, (index_eq_some h).2.1, h]

theorem len_take_toNat {α : Type} (s : List α) (j : Int) (h0 : 0 ≤ j) (h1 : j ≤ len s) :
    len (s.take j.toNat) = j := by
  simp only [len] at h1 ⊢
  simp only [List.length_take]
  omega

theorem len_drop_toNat {α : Type} (s : List α) (j : Int) (h0 : 0 ≤ j) (h1 : j ≤ len s) :
    len (s.drop j.toNat) = len s - j := by
  simp only [len] at h1 ⊢
  simp only [List.length_drop]
  omega

theorem len_append {α : Type} (s t : List α) : len (s ++ t) = len s + len t := by
  simp [len]

theorem len_set {α : Type} (s : List α) (i : Nat) (v : α) : len (s.set i v) = len s := by
  simp [len]

theorem len_singleton {α : Type} (x : α) : len [x] = 1 := rfl

theorem len_nil {α : Type} : len ([] : List α) = 0 := rfl

theorem len_pos_of_ne_nil {α : Type} {s : List α} (h : s ≠ []) : 0 < len s := by
  cases s with
  | nil => exact absurd rfl h
  | cons x xs => simp only [len, List.length_cons]; omega

theorem ne_nil_of_len_pos {α : Type} {s : List α} (h : 0 < len s) : s ≠ [] := by
  intro hs
  subst hs
  simp [len] at h

/-- The invariant in the form used to establish it: bounds on the line number, and the
cursor no further than the end of whatever line the line number selects. -/
theorem editInv_of_bounds (m : model) (h0 : 0 ≤ m.editLineNum)
    (h1 : m.editLineNum < len m.editLines) (h2 : 0 ≤ m.editCursor)
    (h3 : ∀ line, index m.editLines m.editLineNum = some line → m.editCursor ≤ len line) :
    EditInv m := by
  obtain ⟨x, hx, _⟩ := index_of_lt m.editLines m.editLineNum h0 h1
  exact ⟨ne_nil_of_len_pos (by omega), h0, h1, h2, x, hx, h3 x hx⟩

theorem index_set_self {α : Type} (s : List α) (i : Int) (v : α) (h0 : 0 ≤ i)
    (h1 : i < len s) : index (s.set i.toNat v) i = some v := by
  have h : i.toNat < s.length := by simp only [len] at h1; omega
  simp [index, h0, len_set, h1, h]

theorem index_insert {α : Type} (a b : List α) (x : α) (i : Int) (hi : i = len a) :
    index (a ++ [x] ++ b) i = some x := by
  subst hi
  have h1 : len a < len (a ++ [x] ++ b) := by
    simp only [len, List.length_append, List.length_singleton]; omega
  unfold index
  rw [if_pos ⟨len_nonneg a, h1⟩]
  have h2 : (len a).toNat = a.length := by simp [len]
  rw [h2, List.append_assoc, List.getElem?_append_right (le_refl _)]
  simp

theorem index_take_append {α : Type} (s t : List α) (i j : Int) (h0 : 0 ≤ i) (h1 : i < j)
    (h2 : j ≤ len s) : index (s.take j.toNat ++ t) i = index s i := by
  have hlt : i.toNat < (s.take j.toNat).length := by
    simp only [len] at h2
    simp only [List.length_take]
    omega
  have hb1 : i < len (s.take j.toNat ++ t) := by
    rw [len_append, len_take_toNat s j (by omega) h2]
    have := len_nonneg t
    omega
  have hb2 : i < len s := by omega
  have hi : i.toNat < j.toNat := by omega
  simp only [index, h0, hb1, hb2, and_self, if_true]
  rw [List.getElem?_append_left hlt, List.getElem?_take_of_lt hi]

theorem noNewline_take {ls : List Str} (h : NoNewline ls) (n : Nat) : NoNewline (ls.take n) :=
  fun l hl => h l (List.mem_of_mem_take hl)

theorem noNewline_drop {ls : List Str} (h : NoNewline ls) (n : Nat) : NoNewline (ls.drop n) :=
  fun l hl => h l (List.mem_of_mem_drop hl)

theorem noNewline_append {a b : List Str} (ha : NoNewline a) (hb : NoNewline b) :
    NoNewline (a ++ b) := by
  intro l hl
  rcases List.mem_append.mp hl with h | h
  · exact ha l h
  · exact hb l h

theorem noNewline_singleton {x : Str} (hx : newline ∉ x) : NoNewline [x] := by
  intro l hl
  rw [List.mem_singleton] at hl
  subst hl
  exact hx

theorem noNewline_set {ls : List Str} (h : NoNewline ls) (n : Nat) {x : Str}
    (hx : newline ∉ x) : NoNewline (ls.set n x) := by
  intro l hl
  rcases List.mem_or_eq_of_mem_set hl with h' | h'
  · exact h l h'
  · subst h'; exact hx

theorem not_mem_take {x : Str} (hx : newline ∉ x) (n : Nat) : newline ∉ x.take n :=
  fun h => hx (List.mem_of_mem_take h)

theorem not_mem_drop {x : Str} (hx : newline ∉ x) (n : Nat) : newline ∉ x.drop n :=
  fun h => hx (List.mem_of_mem_drop h)

theorem not_mem_append {x y : Str} (hx : newline ∉ x) (hy : newline ∉ y) :
    newline ∉ x ++ y := by
  intro h
  rcases List.mem_append.mp h with h | h
  · exact hx h
  · exact hy h

theorem not_mem_of_len_one {s : Str} (h1 : len s = 1) (h2 : s ≠ [newline]) : newline ∉ s := by
  match s, h1, h2 with
  | [c], _, h2 =>
    intro hmem
    rw [List.mem_singleton] at hmem
    exact h2 (by rw [hmem])
  | [], h1, _ => simp [len] at h1
  | _ :: _ :: _, h1, _ => simp [len] at h1; omega

/-- To establish the buffer invariant it is enough to exhibit the line under the cursor. -/
theorem editInv_of_index (m : model) (x : Str)
    (hx : index m.editLines m.editLineNum = some x) (h2 : 0 ≤ m.editCursor)
    (h3 : m.editCursor ≤ len x) : EditInv m := by
  have hI := index_eq_some hx
  exact ⟨ne_nil_of_len_pos (by omega), hI.1, hI.2.1, h2, x, hx, h3⟩

/-- The vertical moves of the editor (`j`, `k`, Up, Down): go to line `n` and clamp the
column to that line's length. -/
theorem edit_vertical_move (m : model) (n : Int) (h0 : 0 ≤ n) (h1 : n < len m.editLines)
    (h2 : 0 ≤ m.editCursor) :
    ∃ m', (do
        let m := { m with editLineNum := n }
        let past ← colPastLineEnd m.editLines m.editLineNum m.editCursor
        if past then do
          let line ← index m.editLines m.editLineNum
          some ({ m with editCursor := len line }, (none : Option Cmd))
        else some (m, none)) = some (m', none) ∧ EditInv m' ∧ m'.editLines = m.editLines := by
  obtain ⟨x, hx, _⟩ := index_of_lt m.editLines n h0 h1
  simp only [Option.bind_eq_bind, colPastLineEnd_of_index _ hx, Option.some_bind, hx]
  split
  · exact ⟨_, rfl, editInv_of_index _ x hx (len_nonneg x) (le_refl _), rfl⟩
  · rename_i hpast
    simp only [gt_iff_lt, decide_eq_true_eq, not_lt] at hpast
    exact ⟨_, rfl, editInv_of_index _ x hx h2 hpast, rfl⟩

/-! ## Theorems: the edit buffer -/

theorem updateEditInsert_ok (m : model) (k : KeyMsg) (h : EditInv m) :
    ∃ m' c, updateEditInsert m k = some (m', c) ∧ EditInv m' ∧
      (k.String ≠ [newline] → NoNewline m.editLines → NoNewline m'.editLines) := by
  obtain ⟨hne, h0, h1, h2, line, hl, h3⟩ := h
  have hI := index_eq_some hl
  have hinv : EditInv m := ⟨hne, h0, h1, h2, line, hl, h3⟩
  unfold updateEditInsert
  split
  · -- Esc
    exact ⟨_, _, rfl, hinv, fun _ h => h⟩
  · exact ⟨_, _, rfl, hinv, fun _ h => h⟩
  · -- Up
    split
    · obtain ⟨m', hm', hi', hl'⟩ := edit_vertical_move m (m.editLineNum - 1) (by omega) (by omega) h2
      exact ⟨m', none, hm', hi', fun _ h => hl' ▸ h⟩
    · exact ⟨_, _, rfl, hinv, fun _ h => h⟩
  · -- Down
    split
    · obtain ⟨m', hm', hi', hl'⟩ := edit_vertical_move m (m.editLineNum + 1) (by omega) (by omega) h2
      exact ⟨m', none, hm', hi', fun _ h => hl' ▸ h⟩
    · exact ⟨_, _, rfl, hinv, fun _ h => h⟩
  · -- Left
    split
    · exact ⟨_, _, rfl, editInv_of_index _ line hl (by show 0 ≤ m.editCursor - 1; omega)
        (by show m.editCursor - 1 ≤ len line; omega), fun _ h => h⟩
    · split
      · obtain ⟨x, hx, _⟩ := index_of_lt m.editLines (m.editLineNum - 1) (by omega) (by omega)
        simp only [Option.bind_eq_bind, hx, Option.some_bind]
        exact ⟨_, _, rfl, editInv_of_index _ x hx (len_nonneg x) (le_refl _), fun _ h => h⟩
      · exact ⟨_, _, rfl, hinv, fun _ h => h⟩
  · -- Right
    simp only [Option.bind_eq_bind, colBeforeLineEnd_of_index _ hl, Option.some_bind]
    split
    · rename_i hlt
      simp only [decide_eq_true_eq] at hlt
      exact ⟨_, _, rfl, editInv_of_index _ line hl (by show 0 ≤ m.editCursor + 1; omega)
        (by show m.editCursor + 1 ≤ len line; omega), fun _ h => h⟩
    · split
      · obtain ⟨x, hx, _⟩ := index_of_lt m.editLines (m.editLineNum + 1) (by omega) (by omega)
        exact ⟨_, _, rfl, editInv_of_index _ x hx (le_refl _) (len_nonneg x), fun _ h => h⟩
      · exact ⟨_, _, rfl, hinv, fun _ h => h⟩
  · -- Backspace
    rw [if_pos h1]
    split
    · simp only [Option.bind_eq_bind, hl, Option.some_bind,
        sliceTo_of_le line (m.editCursor - 1) (by omega) (by omega),
        sliceFrom_of_le line m.editCursor h2 h3,
        setIndex_of_lt m.editLines m.editLineNum _ h0 h1]
      refine ⟨_, _, rfl, editInv_of_index _ _ (index_set_self _ _ _ h0 h1)
        (by show 0 ≤ m.editCursor - 1; omega) ?_, ?_⟩
      · show m.editCursor - 1 ≤ _
        rw [len_append, len_take_toNat _ _ (by omega) (by omega), len_drop_toNat _ _ h2 h3]
        omega
      · intro _ hn
        have hline := hn line (index_mem hl)
        exact noNewline_set hn _ (not_mem_append (not_mem_take hline _) (not_mem_drop hline _))
    · split
      · obtain ⟨p, hp, _⟩ := index_of_lt m.editLines (m.editLineNum - 1) (by omega) (by omega)
        have hs1 : m.editLineNum ≤ len (m.editLines.set (m.editLineNum - 1).toNat (p ++ line)) := by
          rw [len_set]; omega
        have hs2 : m.editLineNum + 1 ≤ len (m.editLines.set (m.editLineNum - 1).toNat (p ++ line)) := by
          rw [len_set]; omega
        simp only [Option.bind_eq_bind, hl, hp, Option.some_bind,
          setIndex_of_lt m.editLines (m.editLineNum - 1) _ (by omega) (by omega),
          sliceTo_of_le _ m.editLineNum h0 hs1,
          sliceFrom_of_le _ (m.editLineNum + 1) (by omega) hs2]
        refine ⟨_, _, rfl, editInv_of_index _ (p ++ line) ?_ (len_nonneg p) ?_, ?_⟩
        · show index (_ ++ _) (m.editLineNum - 1) = _
          rw [index_take_append _ _ _ _ (by omega) (by omega) hs1]
          exact index_set_self _ _ _ (by omega) (by omega)
        · show len p ≤ len (p ++ line)
          rw [len_append]
          have := len_nonneg line
          omega
        · intro _ hn
          have hline := hn line (index_mem hl)
          have hp' := hn p (index_mem hp)
          have hset := noNewline_set hn (m.editLineNum - 1).toNat (not_mem_append hp' hline)
          exact noNewline_append (noNewline_take hset _) (noNewline_drop hset _)
      · exact ⟨_, _, rfl, hinv, fun _ h => h⟩
  · -- Enter
    rw [if_pos h1]
    have hs : m.editLineNum + 1 ≤ len (m.editLines.set m.editLineNum.toNat (line.take m.editCursor.toNat)) := by
      rw [len_set]; omega
    simp only [Option.bind_eq_bind, hl, Option.some_bind,
      sliceTo_of_le line m.editCursor h2 h3, sliceFrom_of_le line m.editCursor h2 h3,
      setIndex_of_lt m.editLines m.editLineNum _ h0 h1,
      sliceTo_of_le _ (m.editLineNum + 1) (by omega) hs,
      sliceFrom_of_le _ (m.editLineNum + 1) (by omega) hs]
    refine ⟨_, _, rfl, editInv_of_index _ (line.drop m.editCursor.toNat) ?_ (le_refl _)
      (len_nonneg _), ?_⟩
    · exact index_insert _ _ _ _ (len_take_toNat _ _ (by omega) hs).symm
    · intro _ hn
      have hline := hn line (index_mem hl)
      have hset := noNewline_set hn m.editLineNum.toNat (not_mem_take hline m.editCursor.toNat)
      exact noNewline_append (noNewline_append (noNewline_take hset _)
        (noNewline_singleton (not_mem_drop hline _))) (noNewline_drop hset _)
  · -- any other key: a one-byte text is inserted
    split
    · rename_i hc
      simp only [Option.bind_eq_bind, hl, Option.some_bind,
        sliceTo_of_le line m.editCursor h2 h3, sliceFrom_of_le line m.editCursor h2 h3,
        setIndex_of_lt m.editLines m.editLineNum _ h0 h1]
      refine ⟨_, _, rfl, editInv_of_index _ _ (index_set_self _ _ _ h0 h1)
        (by show 0 ≤ m.editCursor + 1; omega) ?_, ?_⟩
      · show m.editCursor + 1 ≤ _
        rw [len_append, len_append, len_take_toNat _ _ h2 h3, len_drop_toNat _ _ h2 h3, hc.1]
        omega
      · intro hk hn
        have hline := hn line (index_mem hl)
        exact noNewline_set hn _ (not_mem_append (not_mem_append (not_mem_take hline _)
          (not_mem_of_len_one hc.1 hk)) (not_mem_drop hline _))
    · exact ⟨_, _, rfl, hinv, fun _ h => h⟩

theorem updateEditCommand_ok (m : model) (k : KeyMsg) (h : EditInv m) :
    ∃ m' c, updateEditCommand m k = some (m', c) ∧ EditInv m' ∧
      (NoNewline m.editLines → NoNewline m'.editLines) := by
  obtain ⟨hne, h0, h1, h2, line, hl, h3⟩ := h
  have hI := index_eq_some hl
  have hinv : EditInv m := ⟨hne, h0, h1, h2, line, hl, h3⟩
  unfold updateEditCommand
  split
  · exact ⟨_, _, rfl, hinv, fun h => h⟩
  · exact ⟨_, _, rfl, hinv, fun h => h⟩
  · -- rune keys
    by_cases hk0 : k.Runes = str "i"
    · rw [if_pos hk0]
      exact ⟨_, _, rfl, hinv, fun h => h⟩
    rw [if_neg hk0]
    by_cases hk1 : k.Runes = str "I"
    · rw [if_pos hk1]
      -- I
      exact ⟨_, _, rfl, editInv_of_index _ line hl (le_refl _) (len_nonneg _), fun h => h⟩
    rw [if_neg hk1]
    by_cases hk2 : k.Runes = str "a"
    · rw [if_pos hk2]
      -- a
      simp only [Option.bind_eq_bind, colBeforeLineEnd_of_index _ hl, Option.some_bind]
      split
      · rename_i hlt
        simp only [decide_eq_true_eq] at hlt
        exact ⟨_, _, rfl, editInv_of_index _ line hl (by show 0 ≤ m.editCursor + 1; omega)
          (by show m.editCursor + 1 ≤ len line; omega), fun h => h⟩
      · exact ⟨_, _, rfl, hinv, fun h => h⟩
    rw [if_neg hk2]
    by_cases hk3 : k.Runes = str "A"
    · rw [if_pos hk3]
      -- A
      rw [if_pos h1]
      simp only [Option.bind_eq_bind, hl, Option.some_bind]
      exact ⟨_, _, rfl, editInv_of_index _ line hl (len_nonneg _) (le_refl _), fun h => h⟩
    rw [if_neg hk3]
    by_cases hk4 : k.Runes = str "o"
    · rw [if_pos hk4]
      -- o
      simp only [Option.bind_eq_bind, Option.some_bind,
        sliceTo_of_le m.editLines (m.editLineNum + 1) (by omega) (by omega),
        sliceFrom_of_le m.editLines (m.editLineNum + 1) (by omega) (by omega)]
      refine ⟨_, _, rfl, editInv_of_index _ [] ?_ (le_refl _) (le_refl _), ?_⟩
      · exact index_insert _ _ _ _
          (len_take_toNat m.editLines (m.editLineNum + 1) (by omega) (by omega)).symm
      · intro hn
        exact noNewline_append (noNewline_append (noNewline_take hn _)
          (noNewline_singleton (List.not_mem_nil _))) (noNewline_drop hn _)
    rw [if_neg hk4]
    by_cases hk5 : k.Runes = str "O"
    · rw [if_pos hk5]
      -- O
      simp only [Option.bind_eq_bind, Option.some_bind,
        sliceTo_of_le m.editLines m.editLineNum h0 (by omega),
        sliceFrom_of_le m.editLines m.editLineNum h0 (by omega)]
      refine ⟨_, _, rfl, editInv_of_index _ [] ?_ (le_refl _) (le_refl _), ?_⟩
      · exact index_insert _ _ _ _ (len_take_toNat m.editLines m.editLineNum h0 (by omega)).symm
      · intro hn
        exact noNewline_append (noNewline_append (noNewline_take hn _)
          (noNewline_singleton (List.not_mem_nil _))) (noNewline_drop hn _)
    rw [if_neg hk5]
    by_cases hk6 : k.Runes = str "h"
    · rw [if_pos hk6]
      -- h
      split
      · exact ⟨_, _, rfl, editInv_of_index _ line hl (by show 0 ≤ m.editCursor - 1; omega)
          (by show m.editCursor - 1 ≤ len line; omega), fun h => h⟩
      · exact ⟨_, _, rfl, hinv, fun h => h⟩
    rw [if_neg hk6]
    by_cases hk7 : k.Runes = str "l"
    · rw [if_pos hk7]
      -- l
      simp only [Option.bind_eq_bind, colBeforeLineEnd_of_index _ hl, Option.some_bind]
      split
      · rename_i hlt
        simp only [decide_eq_true_eq] at hlt
        exact ⟨_, _, rfl, editInv_of_index _ line hl (by show 0 ≤ m.editCursor + 1; omega)
          (by show m.editCursor + 1 ≤ len line; omega), fun h => h⟩
      · exact ⟨_, _, rfl, hinv, fun h => h⟩
    rw [if_neg hk7]
    by_cases hk8 : k.Runes = str "j"
    · rw [if_pos hk8]
      -- j
      split
      · obtain ⟨m', hm', hi', hl'⟩ :=
          edit_vertical_move m (m.editLineNum + 1) (by omega) (by omega) h2
        exact ⟨m', none, hm', hi', fun h => hl' ▸ h⟩
      · exact ⟨_, _, rfl, hinv, fun h => h⟩
    rw [if_neg hk8]
    by_cases hk9 : k.Runes = str "k"
    · rw [if_pos hk9]
      -- k
      split
      · obtain ⟨m', hm', hi', hl'⟩ :=
          edit_vertical_move m (m.editLineNum - 1) (by omega) (by omega) h2
        exact ⟨m', none, hm', hi', fun h => hl' ▸ h⟩
      · exact ⟨_, _, rfl, hinv, fun h => h⟩
    rw [if_neg hk9]
    by_cases hk10 : k.Runes = str ":"
    · rw [if_pos hk10]
      -- :
      exact ⟨_, _, rfl, hinv, fun h => h⟩
    rw [if_neg hk10]
    by_cases hk11 : k.Runes = str "d"
    · rw [if_pos hk11]
      -- d
      split
      · dsimp only
        split
        · rename_i hgt
          have hgt' : len m.editLines > 1 := hgt
          simp only [Option.bind_eq_bind, Option.some_bind,
            sliceTo_of_le m.editLines m.editLineNum h0 (by omega),
            sliceFrom_of_le m.editLines (m.editLineNum + 1) (by omega) (by omega)]
          have hlen : len (m.editLines.take m.editLineNum.toNat ++
              m.editLines.drop (m.editLineNum + 1).toNat) = len m.editLines - 1 := by
            rw [len_append, len_take_toNat _ _ h0 (by omega),
              len_drop_toNat _ _ (by omega) (by omega)]
            omega
          refine ⟨_, _, rfl, ?_, ?_⟩
          · split
            · refine editInv_of_bounds _ ?_ ?_ (le_refl _) (fun l _ => len_nonneg l)
              · show 0 ≤ len (_ ++ _) - 1
                rw [hlen]; omega
              · show len (_ ++ _) - 1 < len (_ ++ _)
                omega
            · rename_i hge
              have hge' : ¬ m.editLineNum ≥ len (m.editLines.take m.editLineNum.toNat ++
                m.editLines.drop (m.editLineNum + 1).toNat) := hge
              refine editInv_of_bounds _ h0 ?_ (le_refl _) (fun l _ => len_nonneg l)
              show m.editLineNum < len (_ ++ _)
              omega
          · intro hn
            have : NoNewline (m.editLines.take m.editLineNum.toNat ++
                m.editLines.drop (m.editLineNum + 1).toNat) :=
              noNewline_append (noNewline_take hn _) (noNewline_drop hn _)
            split <;> exact this
        · split
          · rename_i hone
            have hone' : len m.editLines = 1 := hone
            simp only [Option.bind_eq_bind, Option.some_bind,
              setIndex_of_lt m.editLines 0 [] (le_refl _) (by omega)]
            have hn0 : m.editLineNum = 0 := by omega
            refine ⟨_, _, rfl, editInv_of_index _ [] ?_ (le_refl _) (le_refl _), ?_⟩
            · show index (m.editLines.set _ []) m.editLineNum = some []
              rw [hn0]
              exact index_set_self _ _ _ (le_refl _) (by omega)
            · intro hn
              exact noNewline_set hn _ (List.not_mem_nil _)
          · exact ⟨_, _, rfl, editInv_of_index _ line hl (le_refl _) (len_nonneg _), fun h => h⟩
      · exact ⟨_, _, rfl, hinv, fun h => h⟩

    rw [if_neg hk11]
    exact ⟨_, _, rfl, hinv, fun h => h⟩
  · exact ⟨_, _, rfl, hinv, fun h => h⟩
  · exact ⟨_, _, rfl, hinv, fun h => h⟩

theorem updateEditCommandLine_ok (m : model) (k : KeyMsg) (h : EditInv m) :
    ∃ m' c, updateEditCommandLine m k = some (m', c) ∧ EditInv m' ∧
      m'.editLines = m.editLines := by
  unfold updateEditCommandLine
  split
  · exact ⟨_, _, rfl, h, rfl⟩
  · simp only
    split
    · exact ⟨_, _, rfl, h, rfl⟩
    split
    · exact ⟨_, _, rfl, h, rfl⟩
    split
    · exact ⟨_, _, rfl, h, rfl⟩
    split
    · exact ⟨_, _, rfl, h, rfl⟩
    · exact ⟨_, _, rfl, h, rfl⟩
  · split
    · rename_i hgt
      have hgt' : len m.commandInput > 1 := hgt
      simp only [Option.bind_eq_bind, Option.some_bind,
        sliceTo_of_le m.commandInput (len m.commandInput - 1) (by omega) (by omega)]
      exact ⟨_, _, rfl, h, rfl⟩
    · exact ⟨_, _, rfl, h, rfl⟩
  · split
    · exact ⟨_, _, rfl, h, rfl⟩
    · exact ⟨_, _, rfl, h, rfl⟩

/-- Every key handler of Edit mode returns, and keeps the buffer invariant; it keeps the
lines free of newlines unless the key's text is a newline. -/
theorem updateEdit_ok (m : model) (k : KeyMsg) (h : EditInv m) :
    ∃ m' c, updateEdit m k = some (m', c) ∧ EditInv m' ∧
      (k.String ≠ [newline] → NoNewline m.editLines → NoNewline m'.editLines) := by
  unfold updateEdit
  split
  · obtain ⟨m', c, h1, h2, h3⟩ := updateEditCommandLine_ok m k h
    exact ⟨m', c, h1, h2, fun _ hn => h3 ▸ hn⟩
  · split
    · obtain ⟨m', c, h1, h2, h3⟩ := updateEditCommand_ok m k h
      exact ⟨m', c, h1, h2, fun _ hn => h3 hn⟩
    · exact updateEditInsert_ok m k h

/-! ## Theorems: which handlers can enter Edit mode -/

theorem formatValue_mode (L : Lib) (m : model) (v : Str) :
    (formatValue L m v).2.mode = m.mode := by
  unfold formatValue
  split <;> rfl

theorem setCurrentInput_mode (m : model) (s : Str) : (setCurrentInput m s).mode = m.mode := by
  unfold setCurrentInput
  split <;> rfl

theorem filterCommands_mode (m : model) : (filterCommands m).mode = m.mode := rfl

theorem executeSelectedCommand_mode (m : model) (m' : model) (c : Option Cmd)
    (h : executeSelectedCommand m = some (m', c)) (hm : m'.mode = viewMode.modeEdit) :
    m.mode = viewMode.modeEdit := by
  unfold executeSelectedCommand at h
  split at h
  · simp only [Option.some.injEq, Prod.mk.injEq] at h
    obtain ⟨rfl, -⟩ := h
    exact hm
  · simp only [Option.bind_eq_bind, Option.bind_eq_some] at h
    obtain ⟨_, -, h⟩ := h
    repeat' split at h
    all_goals (simp only [Option.some.injEq, Prod.mk.injEq] at h)
    all_goals (obtain ⟨rfl, -⟩ := h; revert hm; simp)

theorem updateMain_mode (m : model) (k : KeyMsg) (m' : model) (c : Option Cmd)
    (h : updateMain m k = some (m', c)) (hm : m'.mode = viewMode.modeEdit) :
    m.mode = viewMode.modeEdit := by
  unfold updateMain at h
  split at h
  case h_3 => exact executeSelectedCommand_mode m m' c h hm
  all_goals (try dsimp only at h)
  all_goals (repeat' split at h)
  all_goals (try simp only [Option.bind_eq_bind, Option.bind_eq_some, Option.some.injEq,
    Prod.mk.injEq, exists_and_left] at h)
  all_goals first
    | (obtain ⟨rfl, -⟩ := h; revert hm; simp [filterCommands_mode])
    | (obtain ⟨_, -, rfl, -⟩ := h; revert hm; simp [filterCommands_mode])

theorem updateSearch_mode (L : Lib) (m : model) (k : KeyMsg) (m' : model) (c : Option Cmd)
    (h : updateSearch L m k = some (m', c)) (hm : m'.mode = viewMode.modeEdit) :
    m.mode = viewMode.modeEdit := by
  unfold updateSearch at h
  split at h
  all_goals (try dsimp only at h)
  all_goals (repeat' split at h)
  all_goals (try simp only [Option.bind_eq_bind, Option.bind_eq_some, Option.some.injEq,
    Prod.mk.injEq, exists_and_left] at h)
  all_goals first
    | (obtain ⟨rfl, -⟩ := h; revert hm; simp [formatValue_mode])
    | (obtain ⟨_, -, rfl, -⟩ := h; revert hm; simp [formatValue_mode])
    | (obtain ⟨_, -, _, -, rfl, -⟩ := h; revert hm; simp [formatValue_mode])

theorem updateAdd_mode (L : Lib) (m : model) (k : KeyMsg) (m' : model) (c : Option Cmd)
    (h : updateAdd L m k = some (m', c)) (hm : m'.mode = viewMode.modeEdit) :
    m.mode = viewMode.modeEdit := by
  unfold updateAdd at h
  split at h
  all_goals (try dsimp only at h)
  all_goals (repeat' split at h)
  all_goals (try simp only [Option.bind_eq_bind, Option.bind_eq_some, Option.some.injEq,
    Prod.mk.injEq, exists_and_left] at h)
  all_goals first
    | (obtain ⟨rfl, -⟩ := h; revert hm; simp [setCurrentInput_mode])
    | (obtain ⟨_, -, _, -, rfl, -⟩ := h; revert hm; simp [setCurrentInput_mode])

/-! ## Theorems: splitting and joining lines -/

theorem stringsSplit_ne_nil (s : Str) (sep : Byte) : stringsSplit s sep ≠ [] := by
  cases s with
  | nil => simp [stringsSplit]
  | cons c cs =>
    unfold stringsSplit
    split
    · simp
    · split <;> simp

theorem stringsSplit_no_sep (s : Str) (sep : Byte) : ∀ l ∈ stringsSplit s sep, sep ∉ l := by
  induction s with
  | nil => simp [stringsSplit]
  | cons c cs ih =>
    unfold stringsSplit
    split
    · intro l hl
      rcases List.mem_cons.mp hl with h | h
      · subst h; simp
      · exact ih l h
    · rename_i hne
      split
      · rename_i heq
        exact absurd heq (stringsSplit_ne_nil cs sep)
      · rename_i l0 ls heq
        intro l hl
        rw [heq] at ih
        rcases List.mem_cons.mp hl with h | h
        · subst h
          intro hmem
          rcases List.mem_cons.mp hmem with h' | h'
          · exact hne h'.symm
          · exact ih l0 (List.mem_cons_self _ _) h'
        · exact ih l (List.mem_cons_of_mem _ h)

theorem stringsJoin_cons_cons (c : Byte) (l : Str) (ls : List Str) (sep : Str) :
    stringsJoin ((c :: l) :: ls) sep = c :: stringsJoin (l :: ls) sep := by
  cases ls with
  | nil => simp [stringsJoin]
  | cons b rest => simp [stringsJoin]

/-- Joining the pieces of a split gives the text back. -/
theorem stringsJoin_split (s : Str) (sep : Byte) :
    stringsJoin (stringsSplit s sep) [sep] = s := by
  induction s with
  | nil => simp [stringsSplit, stringsJoin]
  | cons c cs ih =>
    unfold stringsSplit
    split
    · rename_i heq
      rcases hs : stringsSplit cs sep with _ | ⟨b, rest⟩
      · exact absurd hs (stringsSplit_ne_nil cs sep)
      · rw [hs] at ih
        simp [stringsJoin, ih, heq]
    · split
      · rename_i heq
        exact absurd heq (stringsSplit_ne_nil cs sep)
      · rename_i l0 ls heq
        rw [heq] at ih
        rw [stringsJoin_cons_cons, ih]

theorem stringsSplit_of_no_sep (a : Str) (sep : Byte) (h : sep ∉ a) :
    stringsSplit a sep = [a] := by
  induction a with
  | nil => simp [stringsSplit]
  | cons c cs ih =>
    have hc : c ≠ sep := fun e => h (e ▸ List.mem_cons_self _ _)
    have hcs : sep ∉ cs := fun e => h (List.mem_cons_of_mem _ e)
    unfold stringsSplit
    rw [if_neg hc, ih hcs]

theorem stringsSplit_append_sep (a t : Str) (sep : Byte) (h : sep ∉ a) :
    stringsSplit (a ++ sep :: t) sep = a :: stringsSplit t sep := by
  induction a with
  | nil =>
    show stringsSplit (sep :: t) sep = _
    rw [stringsSplit, if_pos rfl]
  | cons c cs ih =>
    have hc : c ≠ sep := fun e => h (e ▸ List.mem_cons_self _ _)
    have hcs : sep ∉ cs := fun e => h (List.mem_cons_of_mem _ e)
    show stringsSplit (c :: (cs ++ sep :: t)) sep = _
    rw [stringsSplit, if_neg hc, ih hcs]

/-- Splitting the join of a non-empty list of separator-free lines gives the lines back. -/
theorem stringsSplit_join (ls : List Str) (sep : Byte) (hne : ls ≠ [])
    (h : ∀ l ∈ ls, sep ∉ l) : stringsSplit (stringsJoin ls [sep]) sep = ls := by
  induction ls with
  | nil => exact absurd rfl hne
  | cons a rest ih =>
    cases rest with
    | nil =>
      simp only [stringsJoin]
      exact stringsSplit_of_no_sep a sep (h a (List.mem_cons_self _ _))
    | cons b rest' =>
      have ha : sep ∉ a := h a (List.mem_cons_self _ _)
      have hrest : ∀ l ∈ b :: rest', sep ∉ l := fun l hl => h l (List.mem_cons_of_mem _ hl)
      simp only [stringsJoin, List.append_assoc, List.singleton_append]
      rw [stringsSplit_append_sep a _ sep ha, ih (by simp) hrest]

/-- The round trip through join and split is exact precisely for the non-empty buffers
without a newline inside a line. -/
theorem split_join_iff (ls : List Str) :
    stringsSplit (stringsJoin ls [newline]) newline = ls ↔ ls ≠ [] ∧ NoNewline ls := by
  constructor
  · intro h
    constructor
    · rw [← h]; exact stringsSplit_ne_nil _ _
    · intro l hl
      rw [← h] at hl
      exact stringsSplit_no_sep _ _ l hl
  · intro h
    exact stringsSplit_join ls newline h.1 h.2

theorem str_newline : str "\n" = [newline] := by decide

/-! ## Theorems: the buffer invariant along every run -/

/-- The only way into Edit mode from Detail: `i` or `I`, which loads the buffer with the
lines of the detail value and puts the cursor at line 0, column 0. -/
theorem updateDetail_enters_edit (m : model) (k : KeyMsg) (m' : model) (c : Option Cmd)
    (h : updateDetail m k = some (m', c)) (hm : m'.mode = viewMode.modeEdit) :
    m.mode = viewMode.modeEdit ∨
      (m'.editLines = stringsSplit m.detailValue newline ∧ m'.editLineNum = 0 ∧
        m'.editCursor = 0 ∧ m'.insertMode = false) := by
  unfold updateDetail at h
  split at h
  · simp only [Option.some.injEq, Prod.mk.injEq] at h
    obtain ⟨rfl, -⟩ := h
    simp at hm
  · simp only [Option.some.injEq, Prod.mk.injEq] at h
    obtain ⟨rfl, -⟩ := h
    exact Or.inl hm
  · by_cases hcm : m.detailCommandMode = true
    · rw [if_pos hcm] at h
      by_cases hi : k.Runes = str "i" ∨ k.Runes = str "I"
      · rw [if_pos hi] at h
        simp only [Option.some.injEq, Prod.mk.injEq] at h
        obtain ⟨rfl, -⟩ := h
        exact Or.inr ⟨rfl, rfl, rfl, rfl⟩
      rw [if_neg hi] at h
      left
      by_cases hd : k.Runes = str "d"
      · rw [if_pos hd] at h
        split at h
        all_goals (simp only [Option.some.injEq, Prod.mk.injEq] at h)
        all_goals (obtain ⟨rfl, -⟩ := h; exact hm)
      rw [if_neg hd] at h
      by_cases hv : k.Runes = str "v"
      · rw [if_pos hv] at h
        simp only [Option.some.injEq, Prod.mk.injEq] at h
        obtain ⟨rfl, -⟩ := h
        exact hm
      rw [if_neg hv] at h
      by_cases hj : k.Runes = str "j"
      · rw [if_pos hj] at h
        split at h
        · simp only [Option.bind_eq_bind, Option.bind_eq_some, Option.some.injEq,
            Prod.mk.injEq] at h
          obtain ⟨_, -, h⟩ := h
          split at h
          all_goals (obtain ⟨rfl, -⟩ := h; exact hm)
        · simp only [Option.some.injEq, Prod.mk.injEq] at h
          obtain ⟨rfl, -⟩ := h
          exact hm
      rw [if_neg hj] at h
      by_cases hk : k.Runes = str "k"
      · rw [if_pos hk] at h
        split at h
        · simp only [Option.bind_eq_bind, Option.bind_eq_some, Option.some.injEq,
            Prod.mk.injEq] at h
          obtain ⟨_, -, h⟩ := h
          split at h
          all_goals (obtain ⟨rfl, -⟩ := h; exact hm)
        · simp only [Option.some.injEq, Prod.mk.injEq] at h
          obtain ⟨rfl, -⟩ := h
          exact hm
      rw [if_neg hk] at h
      by_cases hh : k.Runes = str "h"
      · rw [if_pos hh] at h
        repeat' split at h
        all_goals (simp only [Option.bind_eq_bind, Option.bind_eq_some, Option.some.injEq,
            Prod.mk.injEq] at h)
        all_goals first
          | (obtain ⟨rfl, -⟩ := h; exact hm)
          | (obtain ⟨_, -, rfl, -⟩ := h; exact hm)
      rw [if_neg hh] at h
      by_cases hl : k.Runes = str "l"
      · rw [if_pos hl] at h
        simp only [Option.bind_eq_bind, Option.bind_eq_some] at h
        obtain ⟨_, -, h⟩ := h
        repeat' split at h
        all_goals (simp only [Option.some.injEq, Prod.mk.injEq] at h)
        all_goals (obtain ⟨rfl, -⟩ := h; exact hm)
      rw [if_neg hl] at h
      simp only [Option.some.injEq, Prod.mk.injEq] at h
      obtain ⟨rfl, -⟩ := h
      exact hm
    · rw [if_neg hcm] at h
      by_cases hi : k.Runes = str "i" ∨ k.Runes = str "I"
      · rw [if_pos hi] at h
        simp only [Option.some.injEq, Prod.mk.injEq] at h
        obtain ⟨rfl, -⟩ := h
        exact Or.inr ⟨rfl, rfl, rfl, rfl⟩
      rw [if_neg hi] at h
      left
      split at h
      all_goals (simp only [Option.some.injEq, Prod.mk.injEq] at h)
      all_goals (obtain ⟨rfl, -⟩ := h; exact hm)
  · simp only [Option.some.injEq, Prod.mk.injEq] at h
    obtain ⟨rfl, -⟩ := h
    exact Or.inl hm

/-- A buffer freshly loaded from a text satisfies the buffer invariant and has no
newline inside a line. -/
theorem editInv_of_fresh (m : model) (s : Str)
    (h1 : m.editLines = stringsSplit s newline) (h2 : m.editLineNum = 0)
    (h3 : m.editCursor = 0) : EditInv m ∧ NoNewline m.editLines := by
  have hne : m.editLines ≠ [] := h1 ▸ stringsSplit_ne_nil s newline
  have hpos := len_pos_of_ne_nil hne
  constructor
  · refine editInv_of_bounds m (by omega) (by omega) (by omega) ?_
    intro l _
    rw [h3]
    exact len_nonneg l
  · rw [h1]
    exact stringsSplit_no_sep s newline

/-- One step of `Update` from outside the Edit key handlers: if it ends in Edit mode, it
either started there and left the buffer and cursor alone, or it loaded a fresh buffer. -/
theorem update_edit_frame (L : Lib) (m : model) (msg : Msg) (m' : model) (c : Option Cmd)
    (h : Update L m msg = some (m', c)) (hm : m'.mode = viewMode.modeEdit)
    (hk : ∀ k, msg = Msg.KeyMsg k → m.mode ≠ viewMode.modeEdit) :
    (m.mode = viewMode.modeEdit ∧ m'.editLines = m.editLines ∧
        m'.editLineNum = m.editLineNum ∧ m'.editCursor = m.editCursor) ∨
      (EditInv m' ∧ NoNewline m'.editLines) := by
  cases msg with
  | KeyMsg k =>
    have hne := hk k rfl
    unfold Update at h
    dsimp only at h
    split at h
    · rename_i hmode
      have := updateMain_mode m k m' c h hm
      rw [hmode] at this
      cases this
    · rename_i hmode
      have := updateSearch_mode L m k m' c h hm
      rw [hmode] at this
      cases this
    · rename_i hmode
      rcases updateDetail_enters_edit m k m' c h hm with h' | ⟨h1, h2, h3, -⟩
      · exact absurd h' hne
      · exact Or.inr (editInv_of_fresh m' _ h1 h2 h3)
    · rename_i hmode
      exact absurd hmode hne
    · rename_i hmode
      have := updateAdd_mode L m k m' c h hm
      rw [hmode] at this
      cases this
  | searchResultMsg results err =>
    unfold Update at h
    dsimp only at h
    split at h
    all_goals (simp only [Option.some.injEq, Prod.mk.injEq] at h)
    all_goals (obtain ⟨rfl, -⟩ := h; exact Or.inl ⟨hm, rfl, rfl, rfl⟩)
  | deleteSuccessMsg key =>
    unfold Update at h
    simp only [Option.some.injEq, Prod.mk.injEq] at h
    obtain ⟨rfl, -⟩ := h
    simp at hm
  | saveSuccessMsg key value exitToDetail =>
    unfold Update at h
    dsimp only at h
    split at h
    all_goals (simp only [Option.some.injEq, Prod.mk.injEq] at h)
    · obtain ⟨rfl, -⟩ := h
      simp at hm
    · obtain ⟨rfl, -⟩ := h
      exact Or.inl ⟨hm, rfl, rfl, rfl⟩
  | saveErrorMsg key err =>
    unfold Update at h
    simp only [Option.some.injEq, Prod.mk.injEq] at h
    obtain ⟨rfl, -⟩ := h
    exact Or.inl ⟨hm, rfl, rfl, rfl⟩
  | addSuccessMsg key value =>
    unfold Update at h
    simp only [Option.some.injEq, Prod.mk.injEq] at h
    obtain ⟨rfl, -⟩ := h
    simp at hm
  | otherMsg =>
    unfold Update at h
    simp only [Option.some.injEq, Prod.mk.injEq] at h
    obtain ⟨rfl, -⟩ := h
    exact Or.inl ⟨hm, rfl, rfl, rfl⟩

theorem editInv_congr (m m' : model) (h1 : m'.editLines = m.editLines)
    (h2 : m'.editLineNum = m.editLineNum) (h3 : m'.editCursor = m.editCursor)
    (h : EditInv m) : EditInv m' := by
  unfold EditInv at h ⊢
  rw [h1, h2, h3]
  exact h

/-- One step of `Update` keeps "in Edit mode the buffer invariant holds", and keeps the
lines free of newlines when the message is not a key whose text is a newline. -/
theorem update_keeps_edit_buffer (L : Lib) (m : model) (msg : Msg) (m' : model)
    (c : Option Cmd) (h : Update L m msg = some (m', c)) (hm : m'.mode = viewMode.modeEdit) :
    ((m.mode = viewMode.modeEdit → EditInv m) → EditInv m') ∧
    ((∀ k, msg = Msg.KeyMsg k → k.String ≠ [newline]) →
      (m.mode = viewMode.modeEdit → EditInv m ∧ NoNewline m.editLines) →
      EditInv m' ∧ NoNewline m'.editLines) := by
  by_cases hcase : ∃ k, msg = Msg.KeyMsg k ∧ m.mode = viewMode.modeEdit
  · obtain ⟨k, rfl, hmode⟩ := hcase
    have hu : Update L m (Msg.KeyMsg k) = updateEdit m k := by
      unfold Update
      simp only [hmode]
    rw [hu] at h
    constructor
    · intro hinv
      obtain ⟨m1, c1, h1, h2, -⟩ := updateEdit_ok m k (hinv hmode)
      rw [h1] at h
      simp only [Option.some.injEq, Prod.mk.injEq] at h
      exact h.1 ▸ h2
    · intro hk hinv
      obtain ⟨m1, c1, h1, h2, h3⟩ := updateEdit_ok m k (hinv hmode).1
      rw [h1] at h
      simp only [Option.some.injEq, Prod.mk.injEq] at h
      obtain ⟨rfl, -⟩ := h
      exact ⟨h2, h3 (hk k rfl) (hinv hmode).2⟩
  · have hk : ∀ k, msg = Msg.KeyMsg k → m.mode ≠ viewMode.modeEdit :=
      fun k hk hmode => hcase ⟨k, hk, hmode⟩
    rcases update_edit_frame L m msg m' c h hm hk with ⟨hmode, h1, h2, h3⟩ | ⟨h1, h2⟩
    · constructor
      · intro hinv
        exact editInv_congr m m' h1 h2 h3 (hinv hmode)
      · intro _ hinv
        exact ⟨editInv_congr m m' h1 h2 h3 (hinv hmode).1, h1 ▸ (hinv hmode).2⟩
    · exact ⟨fun _ => h1, fun _ _ => ⟨h1, h2⟩⟩

theorem run_keeps_editInv (L : Lib) (msgs : List Msg) :
    ∀ (m m' : model) (cs : List Cmd), (m.mode = viewMode.modeEdit → EditInv m) →
      run L m msgs = some (m', cs) → m'.mode = viewMode.modeEdit → EditInv m' := by
  induction msgs with
  | nil =>
    intro m m' cs hinv h hm
    simp only [run, Option.some.injEq, Prod.mk.injEq] at h
    obtain ⟨rfl, -⟩ := h
    exact hinv hm
  | cons msg rest ih =>
    intro m m' cs hinv h hm
    unfold run at h
    split at h
    · cases h
    · rename_i m1 c hu
      split at h
      · cases h
      · rename_i m2 cs2 hr
        simp only [Option.some.injEq, Prod.mk.injEq] at h
        obtain ⟨rfl, -⟩ := h
        exact ih m1 m2 cs2 (fun hm1 => (update_keeps_edit_buffer L m msg m1 c hu hm1).1 hinv)
          hr hm

theorem run_keeps_noNewline (L : Lib) (msgs : List Msg) :
    ∀ (m m' : model) (cs : List Cmd),
      (∀ k, Msg.KeyMsg k ∈ msgs → k.String ≠ [newline]) →
      (m.mode = viewMode.modeEdit → EditInv m ∧ NoNewline m.editLines) →
      run L m msgs = some (m', cs) → m'.mode = viewMode.modeEdit →
      EditInv m' ∧ NoNewline m'.editLines := by
  induction msgs with
  | nil =>
    intro m m' cs _ hinv h hm
    simp only [run, Option.some.injEq, Prod.mk.injEq] at h
    obtain ⟨rfl, -⟩ := h
    exact hinv hm
  | cons msg rest ih =>
    intro m m' cs hk hinv h hm
    unfold run at h
    split at h
    · cases h
    · rename_i m1 c hu
      split at h
      · cases h
      · rename_i m2 cs2 hr
        simp only [Option.some.injEq, Prod.mk.injEq] at h
        obtain ⟨rfl, -⟩ := h
        refine ih m1 m2 cs2 (fun k hmem => hk k (List.mem_cons_of_mem _ hmem)) ?_ hr hm
        intro hm1
        exact (update_keeps_edit_buffer L m msg m1 c hu hm1).2
          (fun k hmsg => hk k (hmsg ▸ List.mem_cons_self _ _)) hinv

theorem run_openEditorMsgs : run plainLib InitialModel openEditorMsgs = some (editorState, []) := by
  rfl

/-- C1: in every state reachable from the initial model whose mode is Edit, the edit
buffer is non-empty and the cursor is in bounds (`0 ≤ editLineNum < len(editLines)` and
`0 ≤ editCursor ≤ len(editLines[editLineNum])`); and each of the three Edit-mode key
handlers, started in a state with that invariant, returns a state with it, for every
key (line split, line merge, `dd`, `o` and `O` included). -/
theorem edit_cursor_in_bounds (L : Lib) (m : model) (hr : Reachable L m)
    (hm : m.mode = viewMode.modeEdit) :
    EditInv m ∧
    ∀ (m0 : model) (k : KeyMsg), EditInv m0 →
      (∃ m1 c, updateEditCommand m0 k = some (m1, c) ∧ EditInv m1) ∧
      (∃ m1 c, updateEditInsert m0 k = some (m1, c) ∧ EditInv m1) ∧
      (∃ m1 c, updateEditCommandLine m0 k = some (m1, c) ∧ EditInv m1) := by
  constructor
  · obtain ⟨msgs, cs, hrun⟩ := hr
    exact run_keeps_editInv L msgs InitialModel m cs (fun h => by cases h) hrun hm
  · intro m0 k h0
    refine ⟨?_, ?_, ?_⟩
    · obtain ⟨m1, c, h1, h2, -⟩ := updateEditCommand_ok m0 k h0
      exact ⟨m1, c, h1, h2⟩
    · obtain ⟨m1, c, h1, h2, -⟩ := updateEditInsert_ok m0 k h0
      exact ⟨m1, c, h1, h2⟩
    · obtain ⟨m1, c, h1, h2, -⟩ := updateEditCommandLine_ok m0 k h0
      exact ⟨m1, c, h1, h2⟩

/-- Witness for `edit_cursor_in_bounds`: the editor opened on the value `v`. -/
theorem edit_cursor_in_bounds_witness :
    Reachable plainLib editorState ∧ editorState.mode = viewMode.modeEdit ∧
      EditInv editorState :=
  ⟨⟨openEditorMsgs, [], run_openEditorMsgs⟩, by decide,
    (edit_cursor_in_bounds plainLib editorState ⟨openEditorMsgs, [], run_openEditorMsgs⟩
      (by decide)).1⟩

/-- C2: from any state outside Edit mode, after any messages in which no key's text is a
newline, a state in Edit mode has a buffer whose lines, joined with the newline and split
again on the newline, are the same lines; it is non-empty with no newline inside a line,
which is what the round trip amounts to for any list of lines. -/
theorem edit_buffer_round_trip (L : Lib) (m0 m : model) (msgs : List Msg) (cs : List Cmd)
    (h0 : m0.mode ≠ viewMode.modeEdit)
    (hkeys : ∀ k, Msg.KeyMsg k ∈ msgs → k.String ≠ str "\n")
    (hrun : run L m0 msgs = some (m, cs)) (hm : m.mode = viewMode.modeEdit) :
    stringsSplit (stringsJoin m.editLines (str "\n")) newline = m.editLines ∧
    (m.editLines ≠ [] ∧ NoNewline m.editLines) ∧
    ∀ ls : List Str,
      stringsSplit (stringsJoin ls (str "\n")) newline = ls ↔ ls ≠ [] ∧ NoNewline ls := by
  rw [str_newline] at hkeys ⊢
  have h := run_keeps_noNewline L msgs m0 m cs hkeys (fun h => absurd h h0) hrun hm
  have hne : m.editLines ≠ [] := h.1.1
  exact ⟨(split_join_iff m.editLines).mpr ⟨hne, h.2⟩, ⟨hne, h.2⟩, split_join_iff⟩

/-- Witness for `edit_buffer_round_trip`: the editor opened on the value `v`. -/
theorem edit_buffer_round_trip_witness :
    InitialModel.mode ≠ viewMode.modeEdit ∧
    (∀ k, Msg.KeyMsg k ∈ openEditorMsgs → k.String ≠ str "\n") ∧
    run plainLib InitialModel openEditorMsgs = some (editorState, []) ∧
    editorState.mode = viewMode.modeEdit ∧
    stringsSplit (stringsJoin editorState.editLines (str "\n")) newline =
      editorState.editLines :=
  have hk : ∀ k, Msg.KeyMsg k ∈ openEditorMsgs → k.String ≠ str "\n" := by
    intro k hmem
    simp only [openEditorMsgs, specialKey, runeKey, specialKeyMsg, runeKeyMsg, List.mem_cons, Msg.KeyMsg.injEq,
      List.mem_singleton, List.not_mem_nil, or_false, reduceCtorEq, false_or] at hmem
    rcases hmem with h | h | h <;> subst h <;> decide
  ⟨by decide, hk, run_openEditorMsgs, by decide,
    (edit_buffer_round_trip plainLib InitialModel editorState openEditorMsgs [] (by decide) hk
      run_openEditorMsgs (by decide)).1⟩

/-! ## Theorems: single steps of the editor -/

theorem run_cons {L : Lib} {m m1 m2 : model} {msg : Msg} {rest : List Msg} {c : Option Cmd}
    {cs : List Cmd} (h : Update L m msg = some (m1, c)) (hr : run L m1 rest = some (m2, cs)) :
    run L m (msg :: rest) = some (m2, c.toList ++ cs) := by
  simp only [run, h, hr]

theorem run_nil (L : Lib) (m : model) : run L m [] = some (m, []) := rfl

theorem run_cons_none {L : Lib} {m m1 m2 : model} {msg : Msg} {rest : List Msg}
    {cs : List Cmd} (h : Update L m msg = some (m1, none))
    (hr : run L m1 rest = some (m2, cs)) : run L m (msg :: rest) = some (m2, cs) := by
  simp only [run, h, hr, Option.toList, List.nil_append]

theorem run_cons_some {L : Lib} {m m1 m2 : model} {msg : Msg} {rest : List Msg} {c : Cmd}
    {cs : List Cmd} (h : Update L m msg = some (m1, some c))
    (hr : run L m1 rest = some (m2, cs)) : run L m (msg :: rest) = some (m2, c :: cs) := by
  simp only [run, h, hr, Option.toList, List.singleton_append]

theorem update_detail_i (L : Lib) (m : model) (hmode : m.mode = viewMode.modeDetail)
    (hdc : m.detailCommandMode = true) :
    Update L m (runeKey "i") =
      some ({ m with mode := viewMode.modeEdit, editValue := m.detailValue,
                     editLines := stringsSplit m.detailValue newline, editLineNum := 0,
                     editCursor := 0, insertMode := false }, none) := by
  simp [Update, runeKey, runeKeyMsg, hmode, updateDetail, hdc]

theorem update_edit_command_i (L : Lib) (m : model) (hmode : m.mode = viewMode.modeEdit)
    (hcl : m.commandMode = false) (hins : m.insertMode = false) :
    Update L m (runeKey "i") = some ({ m with insertMode := true }, none) := by
  simp [Update, runeKey, runeKeyMsg, hmode, updateEdit, hcl, hins, updateEditCommand]

theorem update_edit_insert_X (L : Lib) (m : model) (hmode : m.mode = viewMode.modeEdit)
    (hcl : m.commandMode = false) (hins : m.insertMode = true) (l0 : Str) (rest : List Str)
    (hl : m.editLines = l0 :: rest) (hn : m.editLineNum = 0) (hc : m.editCursor = 0) :
    Update L m (runeKey "X") =
      some ({ m with editLines := (str "X" ++ l0) :: rest, editCursor := 1 }, none) := by
  have hS : KeyMsg.String ⟨KeyType.KeyRunes, str "X", false, false⟩ = str "X" := by decide
  have h1 : len (str "X") = 1 := by decide
  have h2 : (0 : Int) < len (l0 :: rest) := by simp [len]
  simp [Update, runeKey, runeKeyMsg, hmode, updateEdit, hcl, hins, updateEditInsert, hS, h1,
    hl, hn, hc, h2, index, sliceTo, sliceFrom, setIndex, len_nonneg]

theorem update_edit_insert_esc (L : Lib) (m : model) (hmode : m.mode = viewMode.modeEdit)
    (hcl : m.commandMode = false) (hins : m.insertMode = true) :
    Update L m (specialKey KeyType.KeyEsc) = some ({ m with insertMode := false }, none) := by
  simp [Update, specialKey, specialKeyMsg, hmode, updateEdit, hcl, hins, updateEditInsert]

theorem update_edit_command_colon (L : Lib) (m : model) (hmode : m.mode = viewMode.modeEdit)
    (hcl : m.commandMode = false) (hins : m.insertMode = false) :
    Update L m (runeKey ":") =
      some ({ m with commandMode := true, commandInput := str ":" }, none) := by
  have n0 : str ":" ≠ str "i" := by decide
  have n1 : str ":" ≠ str "I" := by decide
  have n2 : str ":" ≠ str "a" := by decide
  have n3 : str ":" ≠ str "A" := by decide
  have n4 : str ":" ≠ str "o" := by decide
  have n5 : str ":" ≠ str "O" := by decide
  have n6 : str ":" ≠ str "h" := by decide
  have n7 : str ":" ≠ str "l" := by decide
  have n8 : str ":" ≠ str "j" := by decide
  have n9 : str ":" ≠ str "k" := by decide
  simp [Update, runeKey, runeKeyMsg, hmode, updateEdit, hcl, hins, updateEditCommand,
    n0, n1, n2, n3, n4, n5, n6, n7, n8, n9]

theorem update_edit_cmdline_rune (L : Lib) (m : model) (s : String)
    (hmode : m.mode = viewMode.modeEdit) (hcl : m.commandMode = true)
    (hs : len (str s) = 1) :
    Update L m (runeKey s) = some ({ m with commandInput := m.commandInput ++ str s }, none) := by
  simp [Update, runeKey, runeKeyMsg, hmode, updateEdit, hcl, updateEditCommandLine,
    KeyMsg.String, hs]

theorem update_edit_cmdline_enter_wq (L : Lib) (m : model)
    (hmode : m.mode = viewMode.modeEdit) (hcl : m.commandMode = true)
    (hin : m.commandInput = str ":wq") :
    Update L m (specialKey KeyType.KeyEnter) =
      some ({ m with commandMode := false, commandInput := [], insertMode := false,
                     statusMessage := [] },
        some (Cmd.saveKey m.detailKey (stringsJoin m.editLines (str "\n")) true)) := by
  have h1 : str ":wq" ≠ str ":w" := by decide
  simp [Update, specialKey, specialKeyMsg, hmode, updateEdit, hcl, updateEditCommandLine, hin,
    h1, saveKeyCmd]

theorem update_saveSuccess_exit (L : Lib) (m : model) (key value : Str) :
    ∃ m2, Update L m (Msg.saveSuccessMsg key value true) = some (m2, none) ∧
      m2.mode = viewMode.modeDetail ∧ m2.detailCommandMode = true :=
  ⟨_, rfl, rfl, rfl⟩

/-- C10, as stated, fails.  From the Detail view of the pair `k`, `v` just opened from the
search list, the keys `i`, `X`, Escape, `:`, `w`, `q`, Enter issue no command and end in
Detail mode: `i` enters the editor in its command sub-mode, where `X` does nothing and
Escape leaves the editor.  And from a Detail view opened while the editor's command-line
flag is still set (a save with exit completed while a second `:` was being typed), even
the keys `i`, `i`, `X`, Escape, `:`, `w`, `q`, Enter save the value `v` without the `X`. -/
theorem detail_i_X_escape_wq_saves_nothing :
    (run plainLib InitialModel
        ([specialKey KeyType.KeyEnter,
          Msg.searchResultMsg [{ Key := str "k", Value := str "v" }] none,
          specialKey KeyType.KeyEnter] ++
         [runeKey "i", runeKey "X", specialKey KeyType.KeyEsc, runeKey ":", runeKey "w",
          runeKey "q", specialKey KeyType.KeyEnter])).map (fun r => (r.1.mode, r.2)) =
      some (viewMode.modeDetail, []) ∧
    (run plainLib InitialModel
        [specialKey KeyType.KeyEnter,
          Msg.searchResultMsg [{ Key := str "k", Value := str "v" }] none,
          specialKey KeyType.KeyEnter, runeKey "i", runeKey ":", runeKey "x",
          specialKey KeyType.KeyEnter, runeKey ":",
          Msg.saveSuccessMsg (str "k") (str "v") true, specialKey KeyType.KeyEsc,
          specialKey KeyType.KeyEnter]).map
        (fun r => (r.1.mode, r.1.detailCommandMode, r.1.commandMode)) =
      some (viewMode.modeDetail, true, true) ∧
    (run plainLib InitialModel
        ([specialKey KeyType.KeyEnter,
          Msg.searchResultMsg [{ Key := str "k", Value := str "v" }] none,
          specialKey KeyType.KeyEnter, runeKey "i", runeKey ":", runeKey "x",
          specialKey KeyType.KeyEnter, runeKey ":",
          Msg.saveSuccessMsg (str "k") (str "v") true, specialKey KeyType.KeyEsc,
          specialKey KeyType.KeyEnter] ++
         [runeKey "i", runeKey "i", runeKey "X", specialKey KeyType.KeyEsc, runeKey ":",
          runeKey "w", runeKey "q", specialKey KeyType.KeyEnter])).map (fun r => r.2) =
      some [Cmd.saveKey (str "k") (str "v") true, Cmd.saveKey (str "k") (str "v") true] := by
  refine ⟨?_, ?_, ?_⟩ <;> decide

/-- C10, amended: from any Detail state in command sub-mode in which the editor's
command-line flag is clear, the keys `i`, `i`, `X`, Escape, `:`, `w`, `q`, Enter issue
exactly one command, a save with exit for the detail key whose value is the detail value
with `X` inserted at its start (the edit cursor starts at line 0, column 0), and applying
the save-success message to the resulting state gives mode Detail in command sub-mode. -/
theorem detail_edit_save_scenario (L : Lib) (m : model)
    (hmode : m.mode = viewMode.modeDetail) (hdc : m.detailCommandMode = true)
    (hcl : m.commandMode = false) :
    ∃ m1,
      run L m [runeKey "i", runeKey "i", runeKey "X", specialKey KeyType.KeyEsc, runeKey ":",
          runeKey "w", runeKey "q", specialKey KeyType.KeyEnter] =
        some (m1, [Cmd.saveKey m.detailKey (str "X" ++ m.detailValue) true]) ∧
      m1.mode = viewMode.modeEdit ∧
      ∃ m2,
        Update L m1 (Msg.saveSuccessMsg m.detailKey (str "X" ++ m.detailValue) true) =
          some (m2, none) ∧
        m2.mode = viewMode.modeDetail ∧ m2.detailCommandMode = true := by
  obtain ⟨l0, rest, hs⟩ : ∃ l0 rest, stringsSplit m.detailValue newline = l0 :: rest := by
    rcases h : stringsSplit m.detailValue newline with _ | ⟨l0, rest⟩
    · exact absurd h (stringsSplit_ne_nil _ _)
    · exact ⟨l0, rest, rfl⟩
  have hjoin : stringsJoin ((str "X" ++ l0) :: rest) (str "\n") = str "X" ++ m.detailValue := by
    have h1 : str "X" = [88] := by decide
    have h2 := stringsJoin_split m.detailValue newline
    rw [hs] at h2
    rw [h1, str_newline]
    show stringsJoin ((88 :: l0) :: rest) [newline] = 88 :: m.detailValue
    rw [stringsJoin_cons_cons, h2]
  refine ⟨?w, ?h1, ?h2, ?h3⟩
  case h1 =>
    rw [← hjoin]
    refine run_cons_none (update_detail_i L m hmode hdc) ?_
    refine run_cons_none (update_edit_command_i L _ (by rfl) (by exact hcl) (by rfl)) ?_
    refine run_cons_none
      (update_edit_insert_X L _ (by rfl) (by exact hcl) (by rfl) l0 rest (by exact hs) (by rfl)
        (by rfl)) ?_
    refine run_cons_none (update_edit_insert_esc L _ (by rfl) (by exact hcl) (by rfl)) ?_
    refine run_cons_none (update_edit_command_colon L _ (by rfl) (by exact hcl) (by rfl)) ?_
    refine run_cons_none (update_edit_cmdline_rune L _ "w" (by rfl) (by rfl) (by decide)) ?_
    refine run_cons_none (update_edit_cmdline_rune L _ "q" (by rfl) (by rfl) (by decide)) ?_
    refine run_cons_some (update_edit_cmdline_enter_wq L _ (by rfl) (by rfl)
      (by show str ":" ++ str "w" ++ str "q" = str ":wq"; decide)) ?_
    exact run_nil L _
  case h2 => rfl
  case h3 => exact update_saveSuccess_exit L _ _ _

/-- Witness for `detail_edit_save_scenario`: the Detail view of the pair `k`, `v`. -/
theorem detail_edit_save_scenario_witness :
    detailState.mode = viewMode.modeDetail ∧ detailState.detailCommandMode = true ∧
    detailState.commandMode = false ∧
    ∃ m1,
      run plainLib detailState
          [runeKey "i", runeKey "i", runeKey "X", specialKey KeyType.KeyEsc, runeKey ":",
            runeKey "w", runeKey "q", specialKey KeyType.KeyEnter] =
        some (m1, [Cmd.saveKey detailState.detailKey (str "X" ++ detailState.detailValue) true]) ∧
      m1.mode = viewMode.modeEdit ∧
      ∃ m2,
        Update plainLib m1
            (Msg.saveSuccessMsg detailState.detailKey (str "X" ++ detailState.detailValue) true) =
          some (m2, none) ∧
        m2.mode = viewMode.modeDetail ∧ m2.detailCommandMode = true :=
  ⟨by decide, by decide, by decide,
    detail_edit_save_scenario plainLib detailState (by decide) (by decide) (by decide)⟩

/-! ## Theorems: defects found by running the handlers -/

/-- C3 (code bug): in Search mode on the list holding the pair `k`, `v`, after `d` each of
the keys Up, Down, Left, Right and Backspace leaves the pending-delete flag set, and the
key sequence `d`, K, `d` issues the delete of `k` for each of them. -/
theorem search_d_arrow_d_issues_delete :
    (∀ t ∈ [KeyType.KeyUp, KeyType.KeyDown, KeyType.KeyLeft, KeyType.KeyRight,
        KeyType.KeyBackspace],
      (run plainLib InitialModel (searchListMsgs ++ [runeKey "d", specialKey t])).map
          (fun r => (r.1.mode, r.1.waitingForSecondD, r.2)) =
        some (viewMode.modeSearch, true, [])) ∧
    (∀ t ∈ [KeyType.KeyUp, KeyType.KeyDown, KeyType.KeyLeft, KeyType.KeyRight,
        KeyType.KeyBackspace],
      (run plainLib InitialModel
          (searchListMsgs ++ [runeKey "d", specialKey t, runeKey "d"])).map
          (fun r => (r.1.mode, r.2)) =
        some (viewMode.modeSearch, [Cmd.deleteKey (str "k")])) := by
  constructor <;> decide

/-- C4 (code bug): in the editor-command sub-mode on the buffer `a`, `b`, the key
sequences `d`, `x`, `d` and `d`, `h`, `d` and `d`, `l`, `d` each delete the line `a`:
a rune key other than `d` does not clear the pending-delete flag. -/
theorem edit_d_x_d_deletes_line :
    (run plainLib InitialModel twoLineEditorMsgs).map
        (fun r => (r.1.mode, r.1.commandMode, r.1.insertMode, r.1.editLines)) =
      some (viewMode.modeEdit, false, false, [str "a", str "b"]) ∧
    (∀ s ∈ ["x", "h", "l"],
      (run plainLib InitialModel (twoLineEditorMsgs ++ [runeKey "d", runeKey s])).map
          (fun r => (r.1.waitingForSecondD, r.1.editLines)) =
        some (true, [str "a", str "b"])) ∧
    (∀ s ∈ ["x", "h", "l"],
      (run plainLib InitialModel
          (twoLineEditorMsgs ++ [runeKey "d", runeKey s, runeKey "d"])).map
          (fun r => (r.1.mode, r.1.editLines)) =
        some (viewMode.modeEdit, [str "b"])) := by
  refine ⟨?_, ?_, ?_⟩ <;> decide

/-- C5 (code bug): typing `/`, `s`, then Enter and Escape returns to the Palette with an
empty prefix, yet the filtered list is still the single entry `/search`, while the
catalog entries whose name starts with the empty prefix are both commands. -/
theorem palette_filter_stale_after_escape :
    (run plainLib InitialModel
        [runeKey "/", runeKey "s", specialKey KeyType.KeyEnter,
          specialKey KeyType.KeyEsc]).map
        (fun r => (r.1.mode, r.1.commandPrefix, r.1.filteredCommands.map Command.Name,
          (r.1.commandList.filter
            (fun cmd => stringsHasPrefix cmd.Name r.1.commandPrefix)).map Command.Name)) =
      some (viewMode.modeMain, [], [str "/search"], [str "/search", str "/add"]) := by
  decide

/-- C9 (code bug): the command-line handler of Edit mode has no case for Ctrl-C, so in
every state it returns the state unchanged with no command; from the editor opened on
`v`, `:` followed by Ctrl-C issues no quit command and stays in the command line. -/
theorem ctrl_c_ignored_in_edit_command_line :
    (∀ m : model, updateEditCommandLine m (specialKeyMsg KeyType.KeyCtrlC) = some (m, none)) ∧
    (run plainLib InitialModel
        (openEditorMsgs ++ [runeKey ":", specialKey KeyType.KeyCtrlC])).map
        (fun r => (r.1.mode, r.1.commandMode, r.2)) =
      some (viewMode.modeEdit, true, []) := by
  constructor
  · intro m
    have h : len (specialKeyMsg KeyType.KeyCtrlC).String ≠ 1 := by decide
    simp only [updateEditCommandLine, specialKeyMsg] at h ⊢
    rw [if_neg h]
  · decide

/-! ## Theorems: result messages of failed commands -/

/-- C11: a failed save comes back as the save-failure message carrying the error, and
applying a save-failure message to any state returns the same state with only the
status message replaced, by `Save failed: ` followed by the error text, and no command;
so the mode, the edit buffer lines, the edit cursor and the editor sub-mode flags are
unchanged. -/
theorem save_failure_changes_only_status (L : Lib) (m : model) (key newValue e : Str)
    (exitToDetail : Bool) (err : GoError) :
    Cmd.resultMsg (Cmd.saveKey key newValue exitToDetail) (StoreReply.failed e) =
      some (Msg.saveErrorMsg key (some e)) ∧
    Update L m (Msg.saveErrorMsg key (some e)) =
      some ({ m with statusMessage := str "Save failed: " ++ e }, none) ∧
    Update L m (Msg.saveErrorMsg key err) =
      some ({ m with statusMessage := str "Save failed: " ++ errorText err }, none) ∧
    ∀ m1 c, Update L m (Msg.saveErrorMsg key err) = some (m1, c) →
      c = none ∧ m1.mode = m.mode ∧ m1.editLines = m.editLines ∧
      m1.editLineNum = m.editLineNum ∧ m1.editCursor = m.editCursor ∧
      m1.insertMode = m.insertMode ∧ m1.commandMode = m.commandMode ∧
      m1.commandInput = m.commandInput := by
  refine ⟨rfl, rfl, rfl, ?_⟩
  intro m1 c h
  simp only [Update, Option.some.injEq, Prod.mk.injEq] at h
  obtain ⟨rfl, rfl⟩ := h
  exact ⟨rfl, rfl, rfl, rfl, rfl, rfl, rfl, rfl⟩

theorem len_eq_zero_iff {α : Type} (s : List α) : len s = 0 ↔ s = [] := by
  cases s with
  | nil => simp [len]
  | cons x xs => simp [len]; omega

/-- The scan that `searchCmd` issues, spelled out: the whole keyspace for an empty search
text, the range from the text to the text followed by `0xFF` otherwise; limit 50. -/
theorem searchCmd_eq (m : model) :
    searchCmd m =
      Cmd.search (if m.input = [] then { startKey := [], endKey := none, limit := 50 }
        else { startKey := m.input, endKey := some (m.input ++ [0xFF]), limit := 50 }) := by
  unfold searchCmd
  by_cases h : m.input = []
  · rw [if_pos ((len_eq_zero_iff _).mpr h), if_pos h]
    rfl
  · rw [if_neg (fun h' => h ((len_eq_zero_iff _).mp h')), if_neg h]
    rfl

/-- C13: in Search mode with the edit cursor inside the search text, a rune key other
than `d` whose text is one byte inserts it at the cursor, and Backspace with the cursor
after a character removes that character; both return a scan command for the updated
text: the whole keyspace from the empty key with no upper bound when the text is empty,
the half-open range from the text to the text followed by `0xFF` otherwise, with limit
50.  Typing `u`, `s`, `e`, `r` into the empty search text issues last the scan over
`user` to `user` followed by `0xFF`. -/
theorem search_edit_issues_scan (L : Lib) (m : model) (k : KeyMsg)
    (hmode : m.mode = viewMode.modeSearch) (h0 : 0 ≤ m.cursor) (h1 : m.cursor ≤ len m.input) :
    (k.type = KeyType.KeyRunes → k.Runes ≠ str "d" → len k.String = 1 →
      ∃ m1, Update L m (Msg.KeyMsg k) =
          some (m1, some (Cmd.search
            { startKey := m1.input, endKey := some (m1.input ++ [0xFF]), limit := 50 })) ∧
        m1.input = m.input.take m.cursor.toNat ++ k.String ++ m.input.drop m.cursor.toNat ∧
        m1.input ≠ [] ∧ m1.cursor = m.cursor + 1 ∧ m1.mode = viewMode.modeSearch) ∧
    (k.type = KeyType.KeyBackspace → 0 < m.cursor →
      ∃ m1, Update L m (Msg.KeyMsg k) =
          some (m1, some (Cmd.search
            (if m1.input = [] then { startKey := [], endKey := none, limit := 50 }
             else { startKey := m1.input, endKey := some (m1.input ++ [0xFF]), limit := 50 }))) ∧
        m1.input = m.input.take (m.cursor - 1).toNat ++ m.input.drop m.cursor.toNat ∧
        m1.cursor = m.cursor - 1 ∧ m1.mode = viewMode.modeSearch) ∧
    (run L InitialModel
        [specialKey KeyType.KeyEnter, runeKey "u", runeKey "s", runeKey "e",
          runeKey "r"]).map (fun r => (r.1.mode, r.1.input, r.2.getLast?)) =
      some (viewMode.modeSearch, str "user", some (Cmd.search
        { startKey := str "user", endKey := some (str "user" ++ [0xFF]), limit := 50 })) := by
  refine ⟨?_, ?_, rfl⟩
  · intro hk hd hlen
    have hU : Update L m (Msg.KeyMsg k) = updateSearch L m k := by
      unfold Update; simp only [hmode]
    rw [hU]
    unfold updateSearch
    simp only [hk, if_neg hd, hlen, if_true, Option.bind_eq_bind,
      sliceTo_of_le m.input m.cursor h0 h1, sliceFrom_of_le m.input m.cursor h0 h1,
      Option.some_bind]
    have hne : m.input.take m.cursor.toNat ++ k.String ++ m.input.drop m.cursor.toNat ≠ [] := by
      intro h
      have := congrArg len h
      rw [len_append, len_append, hlen] at this
      have h2 := len_nonneg (m.input.take m.cursor.toNat)
      have h3 := len_nonneg (m.input.drop m.cursor.toNat)
      simp only [len_nil] at this
      omega
    rw [searchCmd_eq]
    simp only [if_neg hne]
    exact ⟨_, rfl, rfl, hne, rfl, hmode⟩
  · intro hk hpos
    have hU : Update L m (Msg.KeyMsg k) = updateSearch L m k := by
      unfold Update; simp only [hmode]
    rw [hU]
    unfold updateSearch
    have hc : m.cursor > 0 ∧ len m.input > 0 := ⟨hpos, by omega⟩
    simp only [hk, if_pos hc, Option.bind_eq_bind,
      sliceTo_of_le m.input (m.cursor - 1) (by omega) (by omega),
      sliceFrom_of_le m.input m.cursor h0 h1, Option.some_bind]
    rw [searchCmd_eq]
    exact ⟨_, rfl, rfl, rfl, hmode⟩

/-- Witness for `search_edit_issues_scan`: the Search list with an empty search text. -/
theorem search_edit_issues_scan_witness :
    searchState.mode = viewMode.modeSearch ∧ 0 ≤ searchState.cursor ∧
    searchState.cursor ≤ len searchState.input ∧
    (run plainLib InitialModel
        [specialKey KeyType.KeyEnter, runeKey "u", runeKey "s", runeKey "e",
          runeKey "r"]).map (fun r => (r.1.mode, r.1.input, r.2.getLast?)) =
      some (viewMode.modeSearch, str "user", some (Cmd.search
        { startKey := str "user", endKey := some (str "user" ++ [0xFF]), limit := 50 })) :=
  ⟨by decide, by decide, by decide,
    (search_edit_issues_scan plainLib searchState (runeKeyMsg "u") (by decide) (by decide)
      (by decide)).2.2⟩

theorem formatValue_searching (L : Lib) (m : model) (v : Str) :
    (formatValue L m v).2.searching = m.searching := by
  unfold formatValue
  split <;> rfl

/-- No key handled in Search mode changes the in-progress flag. -/
theorem updateSearch_searching (L : Lib) (m : model) (k : KeyMsg) (m' : model)
    (c : Option Cmd) (h : updateSearch L m k = some (m', c)) :
    m'.searching = m.searching := by
  unfold updateSearch at h
  split at h
  case h_3 =>
    split at h
    · simp only [Option.bind_eq_bind, Option.bind_eq_some, Option.some.injEq,
        Prod.mk.injEq] at h
      obtain ⟨_, -, rfl, -⟩ := h
      exact formatValue_searching L _ _
    · simp only [Option.some.injEq, Prod.mk.injEq] at h
      obtain ⟨rfl, -⟩ := h
      rfl
  all_goals (try dsimp only at h)
  all_goals (repeat' split at h)
  all_goals (try simp only [Option.bind_eq_bind, Option.bind_eq_some, Option.some.injEq,
    Prod.mk.injEq, exists_and_left] at h)
  all_goals first
    | (obtain ⟨rfl, -⟩ := h; rfl)
    | (obtain ⟨_, -, rfl, -⟩ := h; rfl)
    | (obtain ⟨_, -, _, -, rfl, -⟩ := h; rfl)

/-- C14 (code bug): no key handled in Search mode changes the in-progress flag, because
`searchCmd` sets it on its own copy of the model; typing `u` into the empty search text
issues the scan for `u` and leaves the flag clear. -/
theorem search_edit_leaves_searching_clear :
    (∀ (L : Lib) (m : model) (k : KeyMsg) (m1 : model) (c : Option Cmd),
      m.mode = viewMode.modeSearch → Update L m (Msg.KeyMsg k) = some (m1, c) →
      m1.searching = m.searching) ∧
    (run plainLib InitialModel [specialKey KeyType.KeyEnter, runeKey "u"]).map
        (fun r => (r.1.mode, r.1.input, r.1.searching, r.2)) =
      some (viewMode.modeSearch, str "u", false,
        [Cmd.search { startKey := str "u", endKey := some (str "u" ++ [0xFF]), limit := 50 }]) := by
  constructor
  · intro L m k m1 c hmode h
    have hU : Update L m (Msg.KeyMsg k) = updateSearch L m k := by
      unfold Update; simp only [hmode]
    rw [hU] at h
    exact updateSearch_searching L m k m1 c h
  · decide

/-- C15, as stated, fails: opening the result `k` whose value is empty gives the detail
value `<empty>`, which is not the formatter's text for the empty value. -/
theorem search_enter_empty_value_placeholder :
    (run plainLib InitialModel
        [specialKey KeyType.KeyEnter,
          Msg.searchResultMsg [{ Key := str "k", Value := [] }] none,
          specialKey KeyType.KeyEnter]).map
        (fun r => (r.1.mode, r.1.detailKey, r.1.detailValue, r.1.detailLines)) =
      some (viewMode.modeDetail, str "k", str "<empty>", [str "<empty>"]) ∧
    FormatContent plainLib [] = ([], Format.FormatPlainText) ∧
    str "<empty>" ≠ (FormatContent plainLib []).1 := by
  refine ⟨?_, ?_, ?_⟩ <;> decide

/-- C15, amended: in Search mode Enter on the highlighted result `r` yields mode Detail in
command sub-mode with detail key `r.Key`, displayed lines the detail value split on the
newline and the cursor at line 0, column 0, where for a non-empty `r.Value` the detail
value and stored format are the formatter's `FormatContent r.Value`, and for an empty
`r.Value` they are the placeholder `<empty>` and plain text; with an empty result list
Enter returns the state unchanged.  No command is issued. -/
theorem search_enter_opens_detail (L : Lib) (m : model) (k : KeyMsg)
    (hk : k.type = KeyType.KeyEnter) (hmode : m.mode = viewMode.modeSearch) :
    (∀ r, index m.results m.selectedItem = some r →
      ∃ m1, Update L m (Msg.KeyMsg k) = some (m1, none) ∧
        m1.mode = viewMode.modeDetail ∧ m1.detailCommandMode = true ∧
        m1.detailKey = r.Key ∧
        (r.Value ≠ [] → m1.detailValue = (FormatContent L r.Value).1 ∧
          m1.valueFormat = (FormatContent L r.Value).2) ∧
        (r.Value = [] → m1.detailValue = str "<empty>" ∧
          m1.valueFormat = Format.FormatPlainText) ∧
        m1.detailLines = stringsSplit m1.detailValue newline ∧
        m1.detailCursorLine = 0 ∧ m1.detailCursorCol = 0) ∧
    (m.results = [] → Update L m (Msg.KeyMsg k) = some (m, none)) := by
  have hU : Update L m (Msg.KeyMsg k) = updateSearch L m k := by
    unfold Update; simp only [hmode]
  rw [hU]
  constructor
  · intro r hr
    have hI := index_eq_some hr
    have hc : len m.results > 0 ∧ m.selectedItem < len m.results := ⟨by omega, hI.2.1⟩
    unfold updateSearch
    simp only [hk, if_pos hc, Option.bind_eq_bind, hr, Option.some_bind]
    refine ⟨_, rfl, ?_, rfl, ?_, ?_, ?_, rfl, rfl, rfl⟩
    · exact formatValue_mode L _ _
    · show (formatValue L _ _).2.detailKey = r.Key
      unfold formatValue
      split <;> rfl
    · intro hne
      have hl : ¬ len r.Value = 0 := fun h => hne ((len_eq_zero_iff _).mp h)
      show (formatValue L _ r.Value).1 = _ ∧ (formatValue L _ r.Value).2.valueFormat = _
      unfold formatValue
      rw [if_neg hl]
      exact ⟨rfl, rfl⟩
    · intro he
      have hl : len r.Value = 0 := (len_eq_zero_iff _).mpr he
      show (formatValue L _ r.Value).1 = _ ∧ (formatValue L _ r.Value).2.valueFormat = _
      unfold formatValue
      rw [if_pos hl]
      exact ⟨rfl, rfl⟩
  · intro he
    have hc : ¬ (len m.results > 0 ∧ m.selectedItem < len m.results) := by
      rw [he]
      simp [len]
    unfold updateSearch
    simp only [hk, if_neg hc]

/-- Witness for `search_enter_opens_detail`: Enter on the Search list holding `k`, `v`. -/
theorem search_enter_opens_detail_witness :
    (specialKeyMsg KeyType.KeyEnter).type = KeyType.KeyEnter ∧
    searchState.mode = viewMode.modeSearch ∧
    index searchState.results searchState.selectedItem =
      some { Key := str "k", Value := str "v" } ∧
    ∃ m1, Update plainLib searchState (specialKey KeyType.KeyEnter) = some (m1, none) ∧
      m1.mode = viewMode.modeDetail ∧ m1.detailKey = str "k" :=
  ⟨rfl, by decide, by decide,
    match (search_enter_opens_detail plainLib searchState (specialKeyMsg KeyType.KeyEnter) rfl
      (by decide)).1 { Key := str "k", Value := str "v" } (by decide) with
    | ⟨m1, h1, h2, _, h4, _⟩ => ⟨m1, h1, h2, h4⟩⟩

/-! ## Theorems: saving from the editor -/

/-- C16 (code bug): applying a save-success message with the exit flag and value `v` to
any state gives mode Detail in command sub-mode with the cached detail value set to the
pretty-printed `v`, but the displayed lines are left as they were; after editing `v` into
`Xv` and saving with `:wq`, the Detail view holds the value `Xv` and still displays the
line `v`. -/
theorem save_success_leaves_detail_lines_stale :
    (∀ (L : Lib) (m : model) (key v : Str),
      ∃ m1, Update L m (Msg.saveSuccessMsg key v true) = some (m1, none) ∧
        m1.mode = viewMode.modeDetail ∧ m1.detailCommandMode = true ∧
        m1.detailValue = (FormatContent L v).1 ∧ m1.detailLines = m.detailLines) ∧
    (run plainLib InitialModel
        (searchListMsgs ++
          [specialKey KeyType.KeyEnter, runeKey "i", runeKey "i", runeKey "X",
            specialKey KeyType.KeyEsc, runeKey ":", runeKey "w", runeKey "q",
            specialKey KeyType.KeyEnter,
            Msg.saveSuccessMsg (str "k") (str "Xv") true])).map
        (fun r => (r.1.mode, r.1.detailCommandMode, r.1.detailValue, r.1.detailLines, r.2)) =
      some (viewMode.modeDetail, true, str "Xv", [str "v"],
        [Cmd.saveKey (str "k") (str "Xv") true]) ∧
    stringsSplit (FormatContent plainLib (str "Xv")).1 newline = [str "Xv"] := by
  refine ⟨?_, ?_, ?_⟩
  · intro L m key v
    exact ⟨_, rfl, rfl, rfl, rfl, rfl⟩
  · rfl
  · decide

/-- C17 (code bug): `i` in Detail loads the edit buffer from the cached detail value, not
from the displayed lines; in the Detail view reached by editing `v` into `Xv` and saving
with `:wq`, the displayed lines are `v` and `i` yields the edit buffer `Xv`, with the
cursor at line 0, column 0. -/
theorem detail_i_loads_cached_value :
    (∀ (L : Lib) (m : model), m.mode = viewMode.modeDetail →
      ∃ m1, Update L m (runeKey "i") = some (m1, none) ∧ m1.mode = viewMode.modeEdit ∧
        m1.editLines = stringsSplit m.detailValue newline ∧ m1.editLineNum = 0 ∧
        m1.editCursor = 0) ∧
    (run plainLib InitialModel
        (searchListMsgs ++
          [specialKey KeyType.KeyEnter, runeKey "i", runeKey "i", runeKey "X",
            specialKey KeyType.KeyEsc, runeKey ":", runeKey "w", runeKey "q",
            specialKey KeyType.KeyEnter,
            Msg.saveSuccessMsg (str "k") (str "Xv") true])).map
        (fun r => (r.1.mode, r.1.detailLines)) =
      some (viewMode.modeDetail, [str "v"]) ∧
    (run plainLib InitialModel
        (searchListMsgs ++
          [specialKey KeyType.KeyEnter, runeKey "i", runeKey "i", runeKey "X",
            specialKey KeyType.KeyEsc, runeKey ":", runeKey "w", runeKey "q",
            specialKey KeyType.KeyEnter,
            Msg.saveSuccessMsg (str "k") (str "Xv") true, runeKey "i"])).map
        (fun r => (r.1.mode, r.1.editLines, r.1.editLineNum, r.1.editCursor)) =
      some (viewMode.modeEdit, [str "Xv"], 0, 0) := by
  refine ⟨?_, ?_, ?_⟩
  · intro L m hmode
    by_cases hdc : m.detailCommandMode = true
    · exact ⟨_, update_detail_i L m hmode hdc, rfl, rfl, rfl, rfl⟩
    · have h : Update L m (runeKey "i") =
          some ({ m with mode := viewMode.modeEdit, editValue := m.detailValue,
                         editLines := stringsSplit m.detailValue newline, editLineNum := 0,
                         editCursor := 0, insertMode := false }, none) := by
        simp [Update, runeKey, runeKeyMsg, hmode, updateDetail, hdc]
      exact ⟨_, h, rfl, rfl, rfl, rfl⟩
  · decide
  · decide

/-- C18: in the command-line sub-mode of Edit, Enter with the accumulated text `T` clears
the command line, leaves the buffer lines unchanged and returns to the editor-command
sub-mode; for `T` = `:w` it issues a save of the newline-joined buffer without the exit
flag and stays in Edit; for `:x` or `:wq` it issues that save with the exit flag and
stays in Edit; for `:q` or `:q!` it switches to Detail in command sub-mode and issues no
command; for every other `T` it issues no command and stays in Edit. -/
theorem command_line_enter (L : Lib) (m : model) (k : KeyMsg)
    (hk : k.type = KeyType.KeyEnter) (hmode : m.mode = viewMode.modeEdit)
    (hcl : m.commandMode = true) :
    ∃ m1 c, Update L m (Msg.KeyMsg k) = some (m1, c) ∧
      m1.commandMode = false ∧ m1.insertMode = false ∧ m1.editLines = m.editLines ∧
      (m.commandInput = str ":w" →
        c = some (Cmd.saveKey m.detailKey (stringsJoin m.editLines (str "\n")) false) ∧
        m1.mode = viewMode.modeEdit) ∧
      (m.commandInput = str ":x" ∨ m.commandInput = str ":wq" →
        c = some (Cmd.saveKey m.detailKey (stringsJoin m.editLines (str "\n")) true) ∧
        m1.mode = viewMode.modeEdit) ∧
      (m.commandInput = str ":q" ∨ m.commandInput = str ":q!" →
        c = none ∧ m1.mode = viewMode.modeDetail ∧ m1.detailCommandMode = true) ∧
      (m.commandInput ≠ str ":w" → m.commandInput ≠ str ":x" →
        m.commandInput ≠ str ":wq" → m.commandInput ≠ str ":q" →
        m.commandInput ≠ str ":q!" → c = none ∧ m1.mode = viewMode.modeEdit) := by
  have hU : Update L m (Msg.KeyMsg k) = updateEditCommandLine m k := by
    unfold Update; simp only [hmode, updateEdit, hcl, if_true]
  rw [hU]
  unfold updateEditCommandLine
  simp only [hk]
  have n1 : str ":w" ≠ str ":x" := by decide
  have n2 : str ":w" ≠ str ":wq" := by decide
  have n3 : str ":w" ≠ str ":q" := by decide
  have n4 : str ":w" ≠ str ":q!" := by decide
  have n5 : str ":x" ≠ str ":wq" := by decide
  have n6 : str ":x" ≠ str ":q" := by decide
  have n7 : str ":x" ≠ str ":q!" := by decide
  have n8 : str ":wq" ≠ str ":q" := by decide
  have n9 : str ":wq" ≠ str ":q!" := by decide
  have n10 : str ":q" ≠ str ":q!" := by decide
  by_cases h1 : m.commandInput = str ":w"
  · rw [if_pos h1]
    refine ⟨_, _, rfl, rfl, rfl, rfl, fun _ => ⟨rfl, hmode⟩, ?_, ?_, fun h => absurd h1 h⟩
    · rintro (h | h) <;> rw [h1] at h
      · exact absurd h n1
      · exact absurd h n2
    · rintro (h | h) <;> rw [h1] at h
      · exact absurd h n3
      · exact absurd h n4
  rw [if_neg h1]
  by_cases h2 : m.commandInput = str ":x" ∨ m.commandInput = str ":wq"
  · rw [if_pos h2]
    refine ⟨_, _, rfl, rfl, rfl, rfl, fun h => absurd h h1, fun _ => ⟨rfl, hmode⟩, ?_, ?_⟩
    · rintro (h | h) <;> rcases h2 with h' | h' <;> rw [h'] at h
      · exact absurd h n6
      · exact absurd h n8
      · exact absurd h n7
      · exact absurd h n9
    · intro _ hx hwq
      rcases h2 with h' | h'
      · exact absurd h' hx
      · exact absurd h' hwq
  rw [if_neg h2]
  by_cases h3 : m.commandInput = str ":q"
  · rw [if_pos h3]
    exact ⟨_, _, rfl, rfl, rfl, rfl, fun h => absurd h h1, fun h => absurd h h2,
      fun _ => ⟨rfl, rfl, rfl⟩, fun _ _ _ h => absurd h3 h⟩
  rw [if_neg h3]
  by_cases h4 : m.commandInput = str ":q!"
  · rw [if_pos h4]
    exact ⟨_, _, rfl, rfl, rfl, rfl, fun h => absurd h h1, fun h => absurd h h2,
      fun _ => ⟨rfl, rfl, rfl⟩, fun _ _ _ _ h => absurd h4 h⟩
  rw [if_neg h4]
  refine ⟨_, _, rfl, rfl, rfl, rfl, fun h => absurd h h1, fun h => absurd h h2, ?_,
    fun _ _ _ _ _ => ⟨rfl, hmode⟩⟩
  rintro (h | h)
  · exact absurd h h3
  · exact absurd h h4

/-- Witness for `command_line_enter`: Enter in the command line holding `:w`. -/
theorem command_line_enter_witness :
    (specialKeyMsg KeyType.KeyEnter).type = KeyType.KeyEnter ∧
    commandLineState.mode = viewMode.modeEdit ∧ commandLineState.commandMode = true ∧
    commandLineState.commandInput = str ":w" ∧
    ∃ m1 c, Update plainLib commandLineState (specialKey KeyType.KeyEnter) = some (m1, c) ∧
      c = some (Cmd.saveKey commandLineState.detailKey
        (stringsJoin commandLineState.editLines (str "\n")) false) ∧
      m1.mode = viewMode.modeEdit :=
  ⟨rfl, by decide, by decide, by decide,
    match command_line_enter plainLib commandLineState (specialKeyMsg KeyType.KeyEnter) rfl
      (by decide) (by decide) with
    | ⟨m1, c, h1, _, _, _, hw, _⟩ => ⟨m1, c, h1, hw (by decide)⟩⟩

/-- C19 (code bug): in the editor-command sub-mode Ctrl-S issues the save of the
newline-joined buffer without the exit flag, but the insert sub-mode handler has no case
for Ctrl-S and returns every state unchanged with no command; from the editor opened on
`v`, `i` followed by Ctrl-S issues nothing. -/
theorem ctrl_s_ignored_in_insert_mode :
    (∀ m : model, updateEditInsert m (specialKeyMsg KeyType.KeyCtrlS) = some (m, none)) ∧
    (∀ m : model, updateEditCommand m (specialKeyMsg KeyType.KeyCtrlS) =
      some ({ m with waitingForSecondD := false },
        some (Cmd.saveKey m.detailKey (stringsJoin m.editLines (str "\n")) false))) ∧
    (run plainLib InitialModel (openEditorMsgs ++ [specialKey KeyType.KeyCtrlS])).map
        (fun r => (r.1.mode, r.1.insertMode, r.2)) =
      some (viewMode.modeEdit, false, [Cmd.saveKey (str "k") (str "v") false]) ∧
    (run plainLib InitialModel
        (openEditorMsgs ++ [runeKey "i", specialKey KeyType.KeyCtrlS])).map
        (fun r => (r.1.mode, r.1.insertMode, r.2)) =
      some (viewMode.modeEdit, true, []) := by
  refine ⟨?_, ?_, ?_, ?_⟩
  · intro m
    have h : ¬ (len (specialKeyMsg KeyType.KeyCtrlS).String = 1 ∧
        m.editLineNum < len m.editLines) := by
      intro h
      exact absurd h.1 (by decide)
    simp only [updateEditInsert, specialKeyMsg] at h ⊢
    rw [if_neg h]
  · intro m
    rfl
  · decide
  · decide

/-! ## Theorems: Add mode -/

/-- C20: in Add mode, at either step, Ctrl-S returns the state unchanged; when the key
with its leading and trailing white space trimmed is non-empty it issues the command
whose store call is the put of the trimmed key and the value as typed, and when it is
empty it issues no command. -/
theorem add_ctrl_s_puts_trimmed_key (L : Lib) (m : model) (k : KeyMsg)
    (hk : k.type = KeyType.KeyCtrlS) (hmode : m.mode = viewMode.modeAdd) :
    (L.trimSpace m.addKey ≠ [] →
      Update L m (Msg.KeyMsg k) =
        some (m, some (Cmd.addKeyValue (L.trimSpace m.addKey) m.addValue))) ∧
    (L.trimSpace m.addKey = [] → Update L m (Msg.KeyMsg k) = some (m, none)) ∧
    (Cmd.addKeyValue (L.trimSpace m.addKey) m.addValue).storeCall =
      some (StoreCall.put (L.trimSpace m.addKey) m.addValue) := by
  have hU : Update L m (Msg.KeyMsg k) = updateAdd L m k := by
    unfold Update; simp only [hmode]
  rw [hU]
  unfold updateAdd
  simp only [hk]
  refine ⟨?_, ?_, rfl⟩
  · intro hne
    have hpos : len (L.trimSpace m.addKey) > 0 := len_pos_of_ne_nil hne
    rw [if_pos hpos]
    rfl
  · intro he
    have hz : ¬ len (L.trimSpace m.addKey) > 0 := by
      rw [he]
      simp [len]
    rw [if_neg hz]

/-- Witness for `add_ctrl_s_puts_trimmed_key`: Ctrl-S in Add mode with the key text `a`
followed by a space puts the key `a`. -/
theorem add_ctrl_s_puts_trimmed_key_witness :
    (specialKeyMsg KeyType.KeyCtrlS).type = KeyType.KeyCtrlS ∧
    addState.mode = viewMode.modeAdd ∧ addState.addKey = str "a " ∧
    plainLib.trimSpace addState.addKey = str "a" ∧
    Update plainLib addState (specialKey KeyType.KeyCtrlS) =
      some (addState, some (Cmd.addKeyValue (plainLib.trimSpace addState.addKey)
        addState.addValue)) :=
  ⟨rfl, by decide, by decide, by decide,
    (add_ctrl_s_puts_trimmed_key plainLib addState (specialKeyMsg KeyType.KeyCtrlS) rfl
      (by decide)).1 (by decide)⟩

/-! ## Theorems: what each handler leaves unchanged -/

theorem ite_eq_some_iff {α : Type} {c : Prop} [Decidable c] {x y : Option α} {r : α} :
    ((if c then x else y) = some r) = ((c ∧ x = some r) ∨ (¬ c ∧ y = some r)) := by
  by_cases hc : c <;> simp [hc]

theorem bind_eq_some_iff {α β : Type} {x : Option α} {f : α → Option β} {r : β} :
    ((x >>= f) = some r) = ∃ a, x = some a ∧ f a = some r := by
  cases x <;> simp

theorem some_pair_iff {α β : Type} {a a' : α} {b b' : β} :
    (some (a, b) = some (a', b')) = (a = a' ∧ b = b') := by
  simp

theorem updateDetail_frame (m : model) (k : KeyMsg) (m' : model) (c : Option Cmd)
    (h : updateDetail m k = some (m', c)) :
    m' = { m with mode := m'.mode, editValue := m'.editValue, editLines := m'.editLines,
                  editLineNum := m'.editLineNum, editCursor := m'.editCursor,
                  insertMode := m'.insertMode, waitingForSecondD := m'.waitingForSecondD,
                  detailCommandMode := m'.detailCommandMode,
                  detailCursorLine := m'.detailCursorLine,
                  detailCursorCol := m'.detailCursorCol } := by
  unfold updateDetail at h
  split at h
  all_goals
    repeat' first
      | (rw [some_pair_iff] at h; obtain ⟨rfl, -⟩ := h; first | rfl | (split <;> rfl))
      | (rw [ite_eq_some_iff] at h; rcases h with ⟨-, h⟩ | ⟨-, h⟩)
      | (rw [bind_eq_some_iff] at h; obtain ⟨_, -, h⟩ := h)

theorem updateEditCommand_frame (m : model) (k : KeyMsg) (m' : model) (c : Option Cmd)
    (h : updateEditCommand m k = some (m', c)) :
    m' = { m with mode := m'.mode, detailCommandMode := m'.detailCommandMode,
                  insertMode := m'.insertMode, editCursor := m'.editCursor,
                  editLines := m'.editLines, editLineNum := m'.editLineNum,
                  commandMode := m'.commandMode, commandInput := m'.commandInput,
                  waitingForSecondD := m'.waitingForSecondD } := by
  unfold updateEditCommand at h
  split at h
  all_goals
    repeat' first
      | (rw [some_pair_iff] at h; obtain ⟨rfl, -⟩ := h; first | rfl | (split <;> rfl))
      | (rw [ite_eq_some_iff] at h; rcases h with ⟨-, h⟩ | ⟨-, h⟩)
      | (rw [bind_eq_some_iff] at h; obtain ⟨_, -, h⟩ := h)

theorem updateEditInsert_frame (m : model) (k : KeyMsg) (m' : model) (c : Option Cmd)
    (h : updateEditInsert m k = some (m', c)) :
    m' = { m with insertMode := m'.insertMode, editCursor := m'.editCursor,
                  editLines := m'.editLines, editLineNum := m'.editLineNum } := by
  unfold updateEditInsert at h
  split at h
  all_goals
    repeat' first
      | (rw [some_pair_iff] at h; obtain ⟨rfl, -⟩ := h; rfl)
      | (rw [ite_eq_some_iff] at h; rcases h with ⟨-, h⟩ | ⟨-, h⟩)
      | (rw [bind_eq_some_iff] at h; obtain ⟨_, -, h⟩ := h)

theorem updateSearch_frame (L : Lib) (m : model) (k : KeyMsg) (m' : model) (c : Option Cmd)
    (h : updateSearch L m k = some (m', c)) :
    m' = { m with mode := m'.mode, isInCommand := m'.isInCommand,
                  commandPrefix := m'.commandPrefix, input := m'.input, cursor := m'.cursor,
                  detailKey := m'.detailKey, detailValue := m'.detailValue,
                  valueFormat := m'.valueFormat, detailCommandMode := m'.detailCommandMode,
                  detailLines := m'.detailLines, detailCursorLine := m'.detailCursorLine,
                  detailCursorCol := m'.detailCursorCol,
                  waitingForSecondD := m'.waitingForSecondD,
                  selectedItem := m'.selectedItem, resultOffset := m'.resultOffset } := by
  unfold updateSearch at h
  split at h
  all_goals
    repeat' first
      | (rw [some_pair_iff] at h; obtain ⟨rfl, -⟩ := h;
          first | rfl | (unfold formatValue; split <;> rfl))
      | (rw [ite_eq_some_iff] at h; rcases h with ⟨-, h⟩ | ⟨-, h⟩)
      | (rw [bind_eq_some_iff] at h; obtain ⟨_, -, h⟩ := h)

theorem executeSelectedCommand_frame (m : model) (m' : model) (c : Option Cmd)
    (h : executeSelectedCommand m = some (m', c)) :
    m' = { m with isInCommand := m'.isInCommand, commandPrefix := m'.commandPrefix,
                  mode := m'.mode, input := m'.input, cursor := m'.cursor,
                  statusMessage := m'.statusMessage, addStep := m'.addStep,
                  addKey := m'.addKey, addValue := m'.addValue, addCursor := m'.addCursor } := by
  unfold executeSelectedCommand at h
  repeat' first
    | (rw [some_pair_iff] at h; obtain ⟨rfl, -⟩ := h; rfl)
    | (rw [ite_eq_some_iff] at h; rcases h with ⟨-, h⟩ | ⟨-, h⟩)
    | (rw [bind_eq_some_iff] at h; obtain ⟨_, -, h⟩ := h)

theorem updateMain_frame (m : model) (k : KeyMsg) (m' : model) (c : Option Cmd)
    (h : updateMain m k = some (m', c)) :
    m' = { m with isInCommand := m'.isInCommand, commandPrefix := m'.commandPrefix,
                  mode := m'.mode, input := m'.input, cursor := m'.cursor,
                  statusMessage := m'.statusMessage, addStep := m'.addStep,
                  addKey := m'.addKey, addValue := m'.addValue, addCursor := m'.addCursor,
                  filteredCommands := m'.filteredCommands,
                  selectedCommand := m'.selectedCommand,
                  commandOffset := m'.commandOffset } := by
  unfold updateMain at h
  split at h
  case h_3 =>
    have hf := executeSelectedCommand_frame m m' c h
    rw [hf]
  all_goals
    repeat' first
      | (rw [some_pair_iff] at h; obtain ⟨rfl, -⟩ := h; rfl)
      | (rw [ite_eq_some_iff] at h; rcases h with ⟨-, h⟩ | ⟨-, h⟩)
      | (rw [bind_eq_some_iff] at h; obtain ⟨_, -, h⟩ := h)

theorem updateAdd_frame (L : Lib) (m : model) (k : KeyMsg) (m' : model) (c : Option Cmd)
    (h : updateAdd L m k = some (m', c)) :
    m' = { m with mode := m'.mode, isInCommand := m'.isInCommand,
                  commandPrefix := m'.commandPrefix, addKey := m'.addKey,
                  addValue := m'.addValue, addStep := m'.addStep,
                  addCursor := m'.addCursor } := by
  unfold updateAdd at h
  split at h
  all_goals
    repeat' first
      | (rw [some_pair_iff] at h; obtain ⟨rfl, -⟩ := h;
          first | rfl | (unfold setCurrentInput; split <;> rfl))
      | (rw [ite_eq_some_iff] at h; rcases h with ⟨-, h⟩ | ⟨-, h⟩)
      | (rw [bind_eq_some_iff] at h; obtain ⟨_, -, h⟩ := h)

theorem updateEditCommandLine_frame (m : model) (k : KeyMsg) (m' : model) (c : Option Cmd)
    (h : updateEditCommandLine m k = some (m', c)) :
    m' = { m with commandMode := m'.commandMode, commandInput := m'.commandInput,
                  insertMode := m'.insertMode, statusMessage := m'.statusMessage,
                  mode := m'.mode, detailCommandMode := m'.detailCommandMode } := by
  unfold updateEditCommandLine at h
  split at h
  all_goals
    repeat' first
      | (rw [some_pair_iff] at h; obtain ⟨rfl, -⟩ := h; rfl)
      | (rw [ite_eq_some_iff] at h; rcases h with ⟨-, h⟩ | ⟨-, h⟩)
      | (rw [bind_eq_some_iff] at h; obtain ⟨_, -, h⟩ := h)

theorem update_key_detail (L : Lib) (m : model) (k : KeyMsg)
    (hmode : m.mode = viewMode.modeDetail) :
    Update L m (Msg.KeyMsg k) = updateDetail m k := by
  unfold Update
  simp only [hmode]

theorem update_key_edit_command (L : Lib) (m : model) (k : KeyMsg)
    (hmode : m.mode = viewMode.modeEdit) (hcl : m.commandMode = false)
    (hins : m.insertMode = false) :
    Update L m (Msg.KeyMsg k) = updateEditCommand m k := by
  unfold Update updateEdit
  simp [hmode, hcl, hins]

theorem update_key_edit_insert (L : Lib) (m : model) (k : KeyMsg)
    (hmode : m.mode = viewMode.modeEdit) (hcl : m.commandMode = false)
    (hins : m.insertMode = true) :
    Update L m (Msg.KeyMsg k) = updateEditInsert m k := by
  unfold Update updateEdit
  simp [hmode, hcl, hins]

theorem update_key_edit_command_line (L : Lib) (m : model) (k : KeyMsg)
    (hmode : m.mode = viewMode.modeEdit) (hcl : m.commandMode = true) :
    Update L m (Msg.KeyMsg k) = updateEditCommandLine m k := by
  unfold Update updateEdit
  simp [hmode, hcl]

theorem update_key_search (L : Lib) (m : model) (k : KeyMsg)
    (hmode : m.mode = viewMode.modeSearch) :
    Update L m (Msg.KeyMsg k) = updateSearch L m k := by
  unfold Update
  simp only [hmode]

theorem update_key_main (L : Lib) (m : model) (k : KeyMsg)
    (hmode : m.mode = viewMode.modeMain) :
    Update L m (Msg.KeyMsg k) = updateMain m k := by
  unfold Update
  simp only [hmode]

theorem update_key_add (L : Lib) (m : model) (k : KeyMsg)
    (hmode : m.mode = viewMode.modeAdd) :
    Update L m (Msg.KeyMsg k) = updateAdd L m k := by
  unfold Update
  simp only [hmode]

/-! ## Theorems: invariants of the reachable states -/

/-- A property that holds in the state a run starts from and is kept by every step of
`Update` holds in the state the run ends in. -/
theorem run_invariant (L : Lib) (P : model → Prop)
    (hstep : ∀ m msg m' c, P m → Update L m msg = some (m', c) → P m') (msgs : List Msg) :
    ∀ (m m' : model) (cs : List Cmd), P m → run L m msgs = some (m', cs) → P m' := by
  induction msgs with
  | nil =>
    intro m m' cs hP h
    simp only [run, Option.some.injEq, Prod.mk.injEq] at h
    exact h.1 ▸ hP
  | cons msg rest ih =>
    intro m m' cs hP h
    unfold run at h
    split at h
    · cases h
    · rename_i m1 c hu
      split at h
      · cases h
      · rename_i m2 cs2 hr
        simp only [Option.some.injEq, Prod.mk.injEq] at h
        exact h.1 ▸ ih m1 m2 cs2 (hstep m msg m1 c hP hu) hr

/-- Induction over the reachable states. -/
theorem reachable_invariant (L : Lib) (P : model → Prop) (h0 : P InitialModel)
    (hstep : ∀ m msg m' c, P m → Update L m msg = some (m', c) → P m') (m : model)
    (hr : Reachable L m) : P m := by
  obtain ⟨msgs, cs, hrun⟩ := hr
  exact run_invariant L P hstep msgs InitialModel m cs h0 hrun

/-- A state reached by one more step from a reachable state is reachable. -/
theorem reachable_step (L : Lib) (m : model) (msg : Msg) (m' : model) (c : Option Cmd)
    (hr : Reachable L m) (h : Update L m msg = some (m', c)) : Reachable L m' := by
  obtain ⟨msgs, cs, hrun⟩ := hr
  refine ⟨msgs ++ [msg], cs ++ c.toList, ?_⟩
  revert hrun cs
  generalize InitialModel = m0
  induction msgs generalizing m0 with
  | nil =>
    intro cs hrun
    simp only [run, Option.some.injEq, Prod.mk.injEq] at hrun
    obtain ⟨rfl, rfl⟩ := hrun
    simp [run, h]
  | cons a rest ih =>
    intro cs hrun
    unfold run at hrun
    split at hrun
    · cases hrun
    · rename_i m1 c1 hu
      split at hrun
      · cases hrun
      · rename_i m2 cs2 hr2
        simp only [Option.some.injEq, Prod.mk.injEq] at hrun
        obtain ⟨rfl, rfl⟩ := hrun
        have := ih m1 cs2 hr2
        simp [run, hu, this]

theorem windowInv_reset (n : Int) : WindowInv n 0 0 := by
  unfold WindowInv
  omega

theorem updateSearch_window (L : Lib) (m : model) (k : KeyMsg) (m' : model) (c : Option Cmd)
    (h : updateSearch L m k = some (m', c))
    (hinv : WindowInv (len m.results) m.selectedItem m.resultOffset) :
    WindowInv (len m'.results) m'.selectedItem m'.resultOffset := by
  unfold updateSearch at h
  split at h
  all_goals
    repeat' first
      | (rw [some_pair_iff] at h; obtain ⟨rfl, -⟩ := h;
          first
            | exact hinv
            | (simp only [WindowInv] at *; omega)
            | (unfold formatValue; split <;> exact hinv))
      | (rw [ite_eq_some_iff] at h; rcases h with ⟨hc, h⟩ | ⟨hc, h⟩)
      | (rw [bind_eq_some_iff] at h; obtain ⟨_, -, h⟩ := h)

theorem updateMain_window (m : model) (k : KeyMsg) (m' : model) (c : Option Cmd)
    (h : updateMain m k = some (m', c))
    (hinv : WindowInv (len m.filteredCommands) m.selectedCommand m.commandOffset) :
    WindowInv (len m'.filteredCommands) m'.selectedCommand m'.commandOffset := by
  unfold updateMain at h
  split at h
  case h_3 =>
    have hf := executeSelectedCommand_frame m m' c h
    rw [hf]
    exact hinv
  all_goals
    repeat' first
      | (rw [some_pair_iff] at h; obtain ⟨rfl, -⟩ := h;
          first
            | exact hinv
            | exact windowInv_reset _
            | (simp only [WindowInv] at *; omega))
      | (rw [ite_eq_some_iff] at h; rcases h with ⟨hc, h⟩ | ⟨hc, h⟩)
      | (rw [bind_eq_some_iff] at h; obtain ⟨_, -, h⟩ := h)

theorem update_keeps_listInv (L : Lib) (m : model) (msg : Msg) (m' : model) (c : Option Cmd)
    (hinv : ListInv m) (h : Update L m msg = some (m', c)) : ListInv m' := by
  cases msg with
  | KeyMsg k =>
    unfold Update at h
    dsimp only at h
    split at h
    · have hf := updateMain_frame m k m' c h
      refine ⟨?_, updateMain_window m k m' c h hinv.2⟩
      rw [hf]
      exact hinv.1
    · have hf := updateSearch_frame L m k m' c h
      refine ⟨updateSearch_window L m k m' c h hinv.1, ?_⟩
      rw [hf]
      exact hinv.2
    · have hf := updateDetail_frame m k m' c h
      rw [hf]
      exact hinv
    · unfold updateEdit at h
      split at h
      · have hf := updateEditCommandLine_frame m k m' c h
        rw [hf]
        exact hinv
      · split at h
        · have hf := updateEditCommand_frame m k m' c h
          rw [hf]
          exact hinv
        · have hf := updateEditInsert_frame m k m' c h
          rw [hf]
          exact hinv
    · have hf := updateAdd_frame L m k m' c h
      rw [hf]
      exact hinv
  | searchResultMsg results err =>
    unfold Update at h
    dsimp only at h
    split at h
    all_goals (simp only [Option.some.injEq, Prod.mk.injEq] at h)
    · obtain ⟨rfl, -⟩ := h
      exact ⟨windowInv_reset _, hinv.2⟩
    · obtain ⟨rfl, -⟩ := h
      exact hinv
  | deleteSuccessMsg key =>
    unfold Update at h
    simp only [Option.some.injEq, Prod.mk.injEq] at h
    obtain ⟨rfl, -⟩ := h
    exact hinv
  | saveSuccessMsg key value exitToDetail =>
    unfold Update at h
    dsimp only at h
    split at h
    all_goals (simp only [Option.some.injEq, Prod.mk.injEq] at h)
    all_goals (obtain ⟨rfl, -⟩ := h; exact hinv)
  | saveErrorMsg key err =>
    unfold Update at h
    simp only [Option.some.injEq, Prod.mk.injEq] at h
    obtain ⟨rfl, -⟩ := h
    exact hinv
  | addSuccessMsg key value =>
    unfold Update at h
    simp only [Option.some.injEq, Prod.mk.injEq] at h
    obtain ⟨rfl, -⟩ := h
    exact hinv
  | otherMsg =>
    unfold Update at h
    simp only [Option.some.injEq, Prod.mk.injEq] at h
    obtain ⟨rfl, -⟩ := h
    exact hinv

/-- In every reachable state the highlight and the scroll offset of the Search list and
of the Palette's list satisfy the window invariant. -/
theorem reachable_listInv (L : Lib) (m : model) (hr : Reachable L m) : ListInv m :=
  reachable_invariant L ListInv ⟨by unfold WindowInv; decide, by unfold WindowInv; decide⟩
    (update_keeps_listInv L) m hr

theorem hasPrefix_colon_iff (s : Str) :
    stringsHasPrefix s (str ":") = true ↔ ∃ rest, s = str ":" ++ rest := by
  have hc : str ":" = [58] := by decide
  rw [hc]
  cases s with
  | nil => simp [stringsHasPrefix]
  | cons c cs =>
    simp only [stringsHasPrefix, Bool.and_true, decide_eq_true_eq, List.singleton_append,
      List.cons.injEq, exists_and_left, exists_eq', and_true]
    exact eq_comm

theorem hasPrefix_colon_append (s t : Str) (h : stringsHasPrefix s (str ":") = true) :
    stringsHasPrefix (s ++ t) (str ":") = true := by
  rw [hasPrefix_colon_iff] at h ⊢
  obtain ⟨rest, rfl⟩ := h
  exact ⟨rest ++ t, by rw [List.append_assoc]⟩

theorem hasPrefix_colon_take (s : Str) (n : Nat) (hn : 1 ≤ n)
    (h : stringsHasPrefix s (str ":") = true) :
    stringsHasPrefix (s.take n) (str ":") = true := by
  rw [hasPrefix_colon_iff] at h ⊢
  obtain ⟨rest, rfl⟩ := h
  have hc : str ":" = [58] := by decide
  rw [hc]
  obtain ⟨n', rfl⟩ : ∃ n', n = n' + 1 := ⟨n - 1, by omega⟩
  exact ⟨rest.take n', rfl⟩

/-- The command-line handler keeps the command text beginning with `:` while the
command-line flag is set. -/
theorem updateEditCommandLine_commandLineInv (m : model) (k : KeyMsg) (m' : model)
    (c : Option Cmd) (hinv : CommandLineInv m) (hcl : m.commandMode = true)
    (h : updateEditCommandLine m k = some (m', c)) : CommandLineInv m' := by
  have hp := hinv hcl
  unfold updateEditCommandLine at h
  split at h
  · rw [some_pair_iff] at h
    obtain ⟨rfl, -⟩ := h
    intro hc
    cases hc
  · repeat' first
      | (rw [some_pair_iff] at h; obtain ⟨rfl, -⟩ := h; intro hc; cases hc)
      | (rw [ite_eq_some_iff] at h; rcases h with ⟨-, h⟩ | ⟨-, h⟩)
  · rw [ite_eq_some_iff] at h
    rcases h with ⟨hlen, h⟩ | ⟨-, h⟩
    · rw [bind_eq_some_iff] at h
      obtain ⟨s, hs, h⟩ := h
      rw [some_pair_iff] at h
      obtain ⟨rfl, -⟩ := h
      intro _
      have h0 := len_nonneg m.commandInput
      rw [sliceTo_of_le m.commandInput (len m.commandInput - 1) (by omega) (by omega)] at hs
      cases hs
      exact hasPrefix_colon_take m.commandInput _ (by omega) hp
    · rw [some_pair_iff] at h
      obtain ⟨rfl, -⟩ := h
      exact hinv
  · rw [ite_eq_some_iff] at h
    rcases h with ⟨-, h⟩ | ⟨-, h⟩
    · rw [some_pair_iff] at h
      obtain ⟨rfl, -⟩ := h
      intro _
      exact hasPrefix_colon_append m.commandInput _ hp
    · rw [some_pair_iff] at h
      obtain ⟨rfl, -⟩ := h
      exact hinv

/-- The editor-command handler sets the command-line flag only together with the
command text `:`. -/
theorem updateEditCommand_commandLineInv (m : model) (k : KeyMsg) (m' : model)
    (c : Option Cmd) (hcl : m.commandMode = false)
    (h : updateEditCommand m k = some (m', c)) : CommandLineInv m' := by
  have hcolon : stringsHasPrefix (str ":") (str ":") = true := by decide
  unfold updateEditCommand at h
  split at h
  all_goals
    repeat' first
      | (rw [some_pair_iff] at h; obtain ⟨rfl, -⟩ := h;
          first
            | (intro hc; exact absurd (hcl.symm.trans hc) (by decide))
            | (intro _; exact hcolon)
            | (intro hc; split at hc <;> exact absurd (hcl.symm.trans hc) (by decide)))
      | (rw [ite_eq_some_iff] at h; rcases h with ⟨-, h⟩ | ⟨-, h⟩)
      | (rw [bind_eq_some_iff] at h; obtain ⟨_, -, h⟩ := h)

theorem commandLineInv_congr (m m' : model) (h1 : m'.commandMode = m.commandMode)
    (h2 : m'.commandInput = m.commandInput) (h : CommandLineInv m) : CommandLineInv m' := by
  unfold CommandLineInv at h ⊢
  rw [h1, h2]
  exact h

theorem update_keeps_commandLineInv (L : Lib) (m : model) (msg : Msg) (m' : model)
    (c : Option Cmd) (hinv : CommandLineInv m) (h : Update L m msg = some (m', c)) :
    CommandLineInv m' := by
  cases msg with
  | KeyMsg k =>
    unfold Update at h
    dsimp only at h
    split at h
    · have hf := updateMain_frame m k m' c h
      rw [hf]
      exact hinv
    · have hf := updateSearch_frame L m k m' c h
      rw [hf]
      exact hinv
    · have hf := updateDetail_frame m k m' c h
      rw [hf]
      exact hinv
    · unfold updateEdit at h
      split at h
      · rename_i hcl
        exact updateEditCommandLine_commandLineInv m k m' c hinv hcl h
      · rename_i hcl
        split at h
        · exact updateEditCommand_commandLineInv m k m' c (by simpa using hcl) h
        · have hf := updateEditInsert_frame m k m' c h
          rw [hf]
          exact hinv
    · have hf := updateAdd_frame L m k m' c h
      rw [hf]
      exact hinv
  | searchResultMsg results err =>
    unfold Update at h
    dsimp only at h
    split at h
    all_goals (simp only [Option.some.injEq, Prod.mk.injEq] at h)
    all_goals (obtain ⟨rfl, -⟩ := h; exact hinv)
  | deleteSuccessMsg key =>
    unfold Update at h
    simp only [Option.some.injEq, Prod.mk.injEq] at h
    obtain ⟨rfl, -⟩ := h
    exact hinv
  | saveSuccessMsg key value exitToDetail =>
    unfold Update at h
    dsimp only at h
    split at h
    all_goals (simp only [Option.some.injEq, Prod.mk.injEq] at h)
    all_goals (obtain ⟨rfl, -⟩ := h; exact hinv)
  | saveErrorMsg key err =>
    unfold Update at h
    simp only [Option.some.injEq, Prod.mk.injEq] at h
    obtain ⟨rfl, -⟩ := h
    exact hinv
  | addSuccessMsg key value =>
    unfold Update at h
    simp only [Option.some.injEq, Prod.mk.injEq] at h
    obtain ⟨rfl, -⟩ := h
    exact hinv
  | otherMsg =>
    unfold Update at h
    simp only [Option.some.injEq, Prod.mk.injEq] at h
    obtain ⟨rfl, -⟩ := h
    exact hinv

/-- In every reachable state, a set command-line flag comes with a command text that
begins with `:`. -/
theorem reachable_commandLineInv (L : Lib) (m : model) (hr : Reachable L m) :
    CommandLineInv m :=
  reachable_invariant L CommandLineInv (fun h => by cases h) (update_keeps_commandLineInv L)
    m hr

/-! ## Theorems: format detection -/

/-- C22, as stated, fails: the parsers see the text after `TrimSpace`, which removes more
than a parser skips.  The text made of a vertical tab and `{}` is not accepted by the
JSON parser, and `DetectFormat` returns JSON for it. -/
theorem detect_format_trims_before_parsing :
    objectLib.jsonUnmarshalOk (str "\x0b\x7b\x7d") = false ∧
    DetectFormat objectLib (str "\x0b\x7b\x7d") = Format.FormatJSON := by
  decide

/-- C22, amended: with `t` the text after `TrimSpace`, `DetectFormat` returns JSON exactly
when `t` is non-empty and parses as JSON; otherwise YAML exactly when `t` is non-empty,
parses as YAML and contains `:` or `-`; otherwise TOML exactly when `t` is non-empty,
parses as TOML and contains `=` or `[`; otherwise PlainText.  For the four literal
inputs, which `TrimSpace` leaves alone, the result is JSON, YAML, TOML and PlainText
under the parsers' verdicts on them. -/
theorem detect_format_spec (L : Lib) (content : Str) :
    (DetectFormat L content = Format.FormatJSON ↔
      L.trimSpace content ≠ [] ∧ L.jsonUnmarshalOk (L.trimSpace content) = true) ∧
    (DetectFormat L content = Format.FormatYAML ↔
      L.trimSpace content ≠ [] ∧ L.jsonUnmarshalOk (L.trimSpace content) = false ∧
      L.yamlUnmarshalOk (L.trimSpace content) = true ∧
      (stringsContains (L.trimSpace content) (str ":") = true ∨
        stringsContains (L.trimSpace content) (str "-") = true)) ∧
    (DetectFormat L content = Format.FormatTOML ↔
      L.trimSpace content ≠ [] ∧ L.jsonUnmarshalOk (L.trimSpace content) = false ∧
      ¬ (L.yamlUnmarshalOk (L.trimSpace content) = true ∧
        (stringsContains (L.trimSpace content) (str ":") = true ∨
          stringsContains (L.trimSpace content) (str "-") = true)) ∧
      L.tomlDecodeOk (L.trimSpace content) = true ∧
      (stringsContains (L.trimSpace content) (str "=") = true ∨
        stringsContains (L.trimSpace content) (str "[") = true)) ∧
    (DetectFormat L content = Format.FormatPlainText ↔
      L.trimSpace content = [] ∨
      (L.jsonUnmarshalOk (L.trimSpace content) = false ∧
        ¬ (L.yamlUnmarshalOk (L.trimSpace content) = true ∧
          (stringsContains (L.trimSpace content) (str ":") = true ∨
            stringsContains (L.trimSpace content) (str "-") = true)) ∧
        ¬ (L.tomlDecodeOk (L.trimSpace content) = true ∧
          (stringsContains (L.trimSpace content) (str "=") = true ∨
            stringsContains (L.trimSpace content) (str "[") = true)))) ∧
    (L.trimSpace (str "\x7b\"a\":1\x7d") = str "\x7b\"a\":1\x7d" →
      L.jsonUnmarshalOk (str "\x7b\"a\":1\x7d") = true →
      DetectFormat L (str "\x7b\"a\":1\x7d") = Format.FormatJSON) ∧
    (L.trimSpace (str "a: 1") = str "a: 1" → L.jsonUnmarshalOk (str "a: 1") = false →
      L.yamlUnmarshalOk (str "a: 1") = true →
      DetectFormat L (str "a: 1") = Format.FormatYAML) ∧
    (L.trimSpace (str "a = 1") = str "a = 1" → L.jsonUnmarshalOk (str "a = 1") = false →
      L.yamlUnmarshalOk (str "a = 1") = false → L.tomlDecodeOk (str "a = 1") = true →
      DetectFormat L (str "a = 1") = Format.FormatTOML) ∧
    (L.trimSpace (str "hello world") = str "hello world" →
      L.jsonUnmarshalOk (str "hello world") = false →
      L.yamlUnmarshalOk (str "hello world") = false →
      L.tomlDecodeOk (str "hello world") = false →
      DetectFormat L (str "hello world") = Format.FormatPlainText) := by
  have hc1 : stringsContains (str "a: 1") (str ":") = true := by decide
  have hc2 : stringsContains (str "a = 1") (str "=") = true := by decide
  have hne1 : str "\x7b\"a\":1\x7d" ≠ [] := by decide
  have hne2 : str "a: 1" ≠ [] := by decide
  have hne3 : str "a = 1" ≠ [] := by decide
  have hne4 : str "hello world" ≠ [] := by decide
  refine ⟨?_, ?_, ?_, ?_, ?_, ?_, ?_, ?_⟩
  iterate 4
    unfold DetectFormat isValidJSON isValidYAML isValidTOML
    dsimp only
    by_cases h0 : L.trimSpace content = [] <;>
    cases hj : L.jsonUnmarshalOk (L.trimSpace content) <;>
    cases hy : L.yamlUnmarshalOk (L.trimSpace content) <;>
    cases ht : L.tomlDecodeOk (L.trimSpace content) <;>
    cases h1 : stringsContains (L.trimSpace content) (str ":") <;>
    cases h2 : stringsContains (L.trimSpace content) (str "-") <;>
    cases h3 : stringsContains (L.trimSpace content) (str "=") <;>
    cases h4 : stringsContains (L.trimSpace content) (str "[") <;>
    simp [h0]
  · intro ht hj
    unfold DetectFormat isValidJSON
    simp only [ht, hj, if_neg hne1, if_true]
  · intro ht hj hy
    unfold DetectFormat isValidJSON isValidYAML
    simp [ht, hj, hy, hc1, hne2]
  · intro ht hj hy htoml
    unfold DetectFormat isValidJSON isValidYAML isValidTOML
    simp [ht, hj, hy, htoml, hc2, hne3]
  · intro ht hj hy htoml
    unfold DetectFormat isValidJSON isValidYAML isValidTOML
    simp [ht, hj, hy, htoml, hne4]

/-! ## Theorems: cursor movement in Detail and in the editor -/

theorem updateDetail_h (m : model) (k : KeyMsg) (hk : k.type = KeyType.KeyRunes)
    (hr : k.Runes = str "h") (hcm : m.detailCommandMode = true) :
    updateDetail m k =
      if m.detailCursorCol > 0 then
        some ({ m with detailCursorCol := m.detailCursorCol - 1,
                       waitingForSecondD := false }, none)
      else if m.detailCursorLine > 0 then
        (index m.detailLines (m.detailCursorLine - 1)).bind (fun line =>
          some ({ m with detailCursorLine := m.detailCursorLine - 1,
                         detailCursorCol := len line, waitingForSecondD := false }, none))
      else some ({ m with waitingForSecondD := false }, none) := by
  have n0 : str "h" ≠ str "i" := by decide
  have n1 : str "h" ≠ str "I" := by decide
  have n2 : str "h" ≠ str "d" := by decide
  have n3 : str "h" ≠ str "v" := by decide
  have n4 : str "h" ≠ str "j" := by decide
  have n5 : str "h" ≠ str "k" := by decide
  simp [updateDetail, hk, hr, hcm, n0, n1, n2, n3, n4, n5]

theorem updateDetail_l (m : model) (k : KeyMsg) (hk : k.type = KeyType.KeyRunes)
    (hr : k.Runes = str "l") (hcm : m.detailCommandMode = true) :
    updateDetail m k =
      (colBeforeLineEnd m.detailLines m.detailCursorLine m.detailCursorCol).bind (fun c =>
        if c then
          some ({ m with detailCursorCol := m.detailCursorCol + 1,
                         waitingForSecondD := false }, none)
        else if m.detailCursorLine < len m.detailLines - 1 then
          some ({ m with detailCursorLine := m.detailCursorLine + 1, detailCursorCol := 0,
                         waitingForSecondD := false }, none)
        else some ({ m with waitingForSecondD := false }, none)) := by
  have n0 : str "l" ≠ str "i" := by decide
  have n1 : str "l" ≠ str "I" := by decide
  have n2 : str "l" ≠ str "d" := by decide
  have n3 : str "l" ≠ str "v" := by decide
  have n4 : str "l" ≠ str "j" := by decide
  have n5 : str "l" ≠ str "k" := by decide
  have n6 : str "l" ≠ str "h" := by decide
  simp [updateDetail, hk, hr, hcm, n0, n1, n2, n3, n4, n5, n6]

theorem updateDetail_j (m : model) (k : KeyMsg) (hk : k.type = KeyType.KeyRunes)
    (hr : k.Runes = str "j") (hcm : m.detailCommandMode = true) :
    updateDetail m k =
      if m.detailCursorLine < len m.detailLines - 1 then
        (index m.detailLines (m.detailCursorLine + 1)).bind (fun line =>
          some ({ m with detailCursorLine := m.detailCursorLine + 1,
                         detailCursorCol := min m.detailCursorCol (len line),
                         waitingForSecondD := false }, none))
      else some ({ m with waitingForSecondD := false }, none) := by
  have n0 : str "j" ≠ str "i" := by decide
  have n1 : str "j" ≠ str "I" := by decide
  have n2 : str "j" ≠ str "d" := by decide
  have n3 : str "j" ≠ str "v" := by decide
  simp only [updateDetail, hk, hr, hcm, n0, n1, n2, n3, if_true, if_false, or_self]
  split
  · simp only [Option.bind_eq_bind]
    cases index m.detailLines (m.detailCursorLine + 1) with
    | none => rfl
    | some line =>
      simp only [Option.some_bind, Option.some.injEq, Prod.mk.injEq, and_true]
      by_cases hc : m.detailCursorCol > len line
      · rw [if_pos hc, min_eq_right (le_of_lt hc)]
      · rw [if_neg hc, min_eq_left (not_lt.mp hc)]
  · rfl

theorem updateDetail_k (m : model) (k : KeyMsg) (hk : k.type = KeyType.KeyRunes)
    (hr : k.Runes = str "k") (hcm : m.detailCommandMode = true) :
    updateDetail m k =
      if m.detailCursorLine > 0 then
        (index m.detailLines (m.detailCursorLine - 1)).bind (fun line =>
          some ({ m with detailCursorLine := m.detailCursorLine - 1,
                         detailCursorCol := min m.detailCursorCol (len line),
                         waitingForSecondD := false }, none))
      else some ({ m with waitingForSecondD := false }, none) := by
  have n0 : str "k" ≠ str "i" := by decide
  have n1 : str "k" ≠ str "I" := by decide
  have n2 : str "k" ≠ str "d" := by decide
  have n3 : str "k" ≠ str "v" := by decide
  have n4 : str "k" ≠ str "j" := by decide
  simp only [updateDetail, hk, hr, hcm, n0, n1, n2, n3, n4, if_true, if_false, or_self]
  split
  · simp only [Option.bind_eq_bind]
    cases index m.detailLines (m.detailCursorLine - 1) with
    | none => rfl
    | some line =>
      simp only [Option.some_bind, Option.some.injEq, Prod.mk.injEq, and_true]
      by_cases hc : m.detailCursorCol > len line
      · rw [if_pos hc, min_eq_right (le_of_lt hc)]
      · rw [if_neg hc, min_eq_left (not_lt.mp hc)]
  · rfl

theorem detailInv_of_index (m : model) (x : Str)
    (hx : index m.detailLines m.detailCursorLine = some x) (h2 : 0 ≤ m.detailCursorCol)
    (h3 : m.detailCursorCol ≤ len x) : DetailInv m := by
  have hI := index_eq_some hx
  exact ⟨hI.1, hI.2.1, h2, x, hx, h3⟩

/-- The key `h` in the command sub-mode of Detail, from a cursor in bounds. -/
theorem detail_h_moves (m : model) (k : KeyMsg) (hk : k.type = KeyType.KeyRunes)
    (hr : k.Runes = str "h") (hcm : m.detailCommandMode = true) (hinv : DetailInv m) :
    ∃ m', updateDetail m k = some (m', none) ∧
      m' = { m with detailCursorLine := m'.detailCursorLine,
                    detailCursorCol := m'.detailCursorCol, waitingForSecondD := false } ∧
      DetailInv m' ∧
      (m.detailCursorCol > 0 →
        m'.detailCursorLine = m.detailCursorLine ∧
        m'.detailCursorCol = m.detailCursorCol - 1) ∧
      (m.detailCursorCol = 0 → m.detailCursorLine > 0 →
        m'.detailCursorLine = m.detailCursorLine - 1 ∧
        ∃ prev, index m.detailLines (m.detailCursorLine - 1) = some prev ∧
          m'.detailCursorCol = len prev) ∧
      (m.detailCursorCol = 0 → m.detailCursorLine = 0 →
        m'.detailCursorLine = 0 ∧ m'.detailCursorCol = 0) := by
  obtain ⟨h0, h1, h2, line, hl, h3⟩ := hinv
  rw [updateDetail_h m k hk hr hcm]
  by_cases hc : m.detailCursorCol > 0
  · rw [if_pos hc]
    refine ⟨_, rfl, rfl, ?_, fun _ => ⟨rfl, rfl⟩, fun h => ?_, fun h => ?_⟩
    · refine detailInv_of_index _ line hl ?_ ?_
      · show 0 ≤ m.detailCursorCol - 1
        omega
      · show m.detailCursorCol - 1 ≤ len line
        omega
    · omega
    · omega
  · rw [if_neg hc]
    by_cases hn : m.detailCursorLine > 0
    · rw [if_pos hn]
      obtain ⟨prev, hp, -⟩ := index_of_lt m.detailLines (m.detailCursorLine - 1) (by omega)
        (by omega)
      rw [hp]
      refine ⟨_, rfl, rfl, ?_, fun h => absurd h hc, fun _ _ => ⟨rfl, prev, rfl, rfl⟩,
        fun _ h => ?_⟩
      · exact detailInv_of_index _ prev hp (len_nonneg prev) (le_refl _)
      · omega
    · rw [if_neg hn]
      refine ⟨_, rfl, rfl, ?_, fun h => absurd h hc, fun _ h => absurd h hn, fun h1 h2 => ?_⟩
      · exact detailInv_of_index _ line hl h2 h3
      · exact ⟨h2, h1⟩

/-- The key `l` in the command sub-mode of Detail, from a cursor in bounds. -/
theorem detail_l_moves (m : model) (k : KeyMsg) (hk : k.type = KeyType.KeyRunes)
    (hr : k.Runes = str "l") (hcm : m.detailCommandMode = true) (hinv : DetailInv m) :
    ∃ m' cur, updateDetail m k = some (m', none) ∧
      index m.detailLines m.detailCursorLine = some cur ∧
      m' = { m with detailCursorLine := m'.detailCursorLine,
                    detailCursorCol := m'.detailCursorCol, waitingForSecondD := false } ∧
      DetailInv m' ∧
      (m.detailCursorCol < len cur →
        m'.detailCursorLine = m.detailCursorLine ∧
        m'.detailCursorCol = m.detailCursorCol + 1) ∧
      (m.detailCursorCol = len cur → m.detailCursorLine < len m.detailLines - 1 →
        m'.detailCursorLine = m.detailCursorLine + 1 ∧ m'.detailCursorCol = 0) ∧
      (m.detailCursorCol = len cur → m.detailCursorLine = len m.detailLines - 1 →
        m'.detailCursorLine = m.detailCursorLine ∧
        m'.detailCursorCol = m.detailCursorCol) := by
  obtain ⟨h0, h1, h2, line, hl, h3⟩ := hinv
  rw [updateDetail_l m k hk hr hcm, colBeforeLineEnd_of_index _ hl, Option.some_bind]
  by_cases hc : m.detailCursorCol < len line
  · rw [if_pos (decide_eq_true hc)]
    refine ⟨_, line, rfl, hl, rfl, ?_, fun _ => ⟨rfl, rfl⟩, fun h => ?_, fun h => ?_⟩
    · refine detailInv_of_index _ line hl ?_ ?_
      · show 0 ≤ m.detailCursorCol + 1
        omega
      · show m.detailCursorCol + 1 ≤ len line
        omega
    · omega
    · omega
  · rw [if_neg (by simpa using hc)]
    by_cases hn : m.detailCursorLine < len m.detailLines - 1
    · rw [if_pos hn]
      obtain ⟨next, hp, -⟩ := index_of_lt m.detailLines (m.detailCursorLine + 1) (by omega)
        (by omega)
      refine ⟨_, line, rfl, hl, rfl, ?_, fun h => absurd h hc, fun _ _ => ⟨rfl, rfl⟩,
        fun _ h => ?_⟩
      · exact detailInv_of_index _ next hp (le_refl _) (len_nonneg next)
      · omega
    · rw [if_neg hn]
      refine ⟨_, line, rfl, hl, rfl, ?_, fun h => absurd h hc, fun _ h => absurd h hn,
        fun _ _ => ⟨rfl, rfl⟩⟩
      exact detailInv_of_index _ line hl h2 h3

/-- The key `j` in the command sub-mode of Detail, from a cursor in bounds. -/
theorem detail_j_moves (m : model) (k : KeyMsg) (hk : k.type = KeyType.KeyRunes)
    (hr : k.Runes = str "j") (hcm : m.detailCommandMode = true) (hinv : DetailInv m) :
    ∃ m', updateDetail m k = some (m', none) ∧
      m' = { m with detailCursorLine := m'.detailCursorLine,
                    detailCursorCol := m'.detailCursorCol, waitingForSecondD := false } ∧
      DetailInv m' ∧
      (m.detailCursorLine < len m.detailLines - 1 →
        m'.detailCursorLine = m.detailCursorLine + 1 ∧
        ∃ next, index m.detailLines (m.detailCursorLine + 1) = some next ∧
          m'.detailCursorCol = min m.detailCursorCol (len next)) ∧
      (m.detailCursorLine = len m.detailLines - 1 →
        m'.detailCursorLine = m.detailCursorLine ∧
        m'.detailCursorCol = m.detailCursorCol) := by
  obtain ⟨h0, h1, h2, line, hl, h3⟩ := hinv
  rw [updateDetail_j m k hk hr hcm]
  by_cases hn : m.detailCursorLine < len m.detailLines - 1
  · rw [if_pos hn]
    obtain ⟨next, hp, -⟩ := index_of_lt m.detailLines (m.detailCursorLine + 1) (by omega)
      (by omega)
    rw [hp]
    refine ⟨_, rfl, rfl, ?_, fun _ => ⟨rfl, next, rfl, rfl⟩, fun h => ?_⟩
    · refine detailInv_of_index _ next hp ?_ ?_
      · show 0 ≤ min m.detailCursorCol (len next)
        have := len_nonneg next
        omega
      · show min m.detailCursorCol (len next) ≤ len next
        omega
    · omega
  · rw [if_neg hn]
    exact ⟨_, rfl, rfl, detailInv_of_index _ line hl h2 h3, fun h => absurd h hn,
      fun _ => ⟨rfl, rfl⟩⟩

/-- The key `k` in the command sub-mode of Detail, from a cursor in bounds. -/
theorem detail_k_moves (m : model) (k : KeyMsg) (hk : k.type = KeyType.KeyRunes)
    (hr : k.Runes = str "k") (hcm : m.detailCommandMode = true) (hinv : DetailInv m) :
    ∃ m', updateDetail m k = some (m', none) ∧
      m' = { m with detailCursorLine := m'.detailCursorLine,
                    detailCursorCol := m'.detailCursorCol, waitingForSecondD := false } ∧
      DetailInv m' ∧
      (m.detailCursorLine > 0 →
        m'.detailCursorLine = m.detailCursorLine - 1 ∧
        ∃ prev, index m.detailLines (m.detailCursorLine - 1) = some prev ∧
          m'.detailCursorCol = min m.detailCursorCol (len prev)) ∧
      (m.detailCursorLine = 0 →
        m'.detailCursorLine = 0 ∧ m'.detailCursorCol = m.detailCursorCol) := by
  obtain ⟨h0, h1, h2, line, hl, h3⟩ := hinv
  rw [updateDetail_k m k hk hr hcm]
  by_cases hn : m.detailCursorLine > 0
  · rw [if_pos hn]
    obtain ⟨prev, hp, -⟩ := index_of_lt m.detailLines (m.detailCursorLine - 1) (by omega)
      (by omega)
    rw [hp]
    refine ⟨_, rfl, rfl, ?_, fun _ => ⟨rfl, prev, rfl, rfl⟩, fun h => ?_⟩
    · refine detailInv_of_index _ prev hp ?_ ?_
      · show 0 ≤ min m.detailCursorCol (len prev)
        have := len_nonneg prev
        omega
      · show min m.detailCursorCol (len prev) ≤ len prev
        omega
    · omega
  · rw [if_neg hn]
    exact ⟨_, rfl, rfl, detailInv_of_index _ line hl h2 h3, fun h => absurd h hn,
      fun h => ⟨h, rfl⟩⟩

/-- C26: in the command sub-mode of Detail with the cursor in bounds, `h` at a column
above 0 decrements the column, at column 0 of a line above 0 goes to the end of the
previous line, and at line 0, column 0 leaves the cursor; `l` before the end of the line
increments the column, at the end of a line that is not the last goes to column 0 of the
next line, and at the end of the last line leaves the cursor; `j` and `k` go one line
down or up when there is such a line, with the column clamped to that line's length, and
leave the cursor otherwise.  In every case the step returns, the cursor stays in bounds,
and the displayed lines and the mode are unchanged. -/
theorem detail_cursor_moves (L : Lib) (m : model) (k : KeyMsg)
    (hmode : m.mode = viewMode.modeDetail) (hcm : m.detailCommandMode = true)
    (hinv : DetailInv m) (hk : k.type = KeyType.KeyRunes) :
    (k.Runes = str "h" →
      ∃ m', Update L m (Msg.KeyMsg k) = some (m', none) ∧
        m'.detailLines = m.detailLines ∧ m'.mode = viewMode.modeDetail ∧ DetailInv m' ∧
        (m.detailCursorCol > 0 →
          m'.detailCursorLine = m.detailCursorLine ∧
          m'.detailCursorCol = m.detailCursorCol - 1) ∧
        (m.detailCursorCol = 0 → m.detailCursorLine > 0 →
          m'.detailCursorLine = m.detailCursorLine - 1 ∧
          ∃ prev, index m.detailLines (m.detailCursorLine - 1) = some prev ∧
            m'.detailCursorCol = len prev) ∧
        (m.detailCursorCol = 0 → m.detailCursorLine = 0 →
          m'.detailCursorLine = 0 ∧ m'.detailCursorCol = 0)) ∧
    (k.Runes = str "l" →
      ∃ m' cur, Update L m (Msg.KeyMsg k) = some (m', none) ∧
        index m.detailLines m.detailCursorLine = some cur ∧
        m'.detailLines = m.detailLines ∧ m'.mode = viewMode.modeDetail ∧ DetailInv m' ∧
        (m.detailCursorCol < len cur →
          m'.detailCursorLine = m.detailCursorLine ∧
          m'.detailCursorCol = m.detailCursorCol + 1) ∧
        (m.detailCursorCol = len cur → m.detailCursorLine < len m.detailLines - 1 →
          m'.detailCursorLine = m.detailCursorLine + 1 ∧ m'.detailCursorCol = 0) ∧
        (m.detailCursorCol = len cur → m.detailCursorLine = len m.detailLines - 1 →
          m'.detailCursorLine = m.detailCursorLine ∧
          m'.detailCursorCol = m.detailCursorCol)) ∧
    (k.Runes = str "j" →
      ∃ m', Update L m (Msg.KeyMsg k) = some (m', none) ∧
        m'.detailLines = m.detailLines ∧ m'.mode = viewMode.modeDetail ∧ DetailInv m' ∧
        (m.detailCursorLine < len m.detailLines - 1 →
          m'.detailCursorLine = m.detailCursorLine + 1 ∧
          ∃ next, index m.detailLines (m.detailCursorLine + 1) = some next ∧
            m'.detailCursorCol = min m.detailCursorCol (len next)) ∧
        (m.detailCursorLine = len m.detailLines - 1 →
          m'.detailCursorLine = m.detailCursorLine ∧
          m'.detailCursorCol = m.detailCursorCol)) ∧
    (k.Runes = str "k" →
      ∃ m', Update L m (Msg.KeyMsg k) = some (m', none) ∧
        m'.detailLines = m.detailLines ∧ m'.mode = viewMode.modeDetail ∧ DetailInv m' ∧
        (m.detailCursorLine > 0 →
          m'.detailCursorLine = m.detailCursorLine - 1 ∧
          ∃ prev, index m.detailLines (m.detailCursorLine - 1) = some prev ∧
            m'.detailCursorCol = min m.detailCursorCol (len prev)) ∧
        (m.detailCursorLine = 0 →
          m'.detailCursorLine = 0 ∧ m'.detailCursorCol = m.detailCursorCol)) := by
  rw [update_key_detail L m k hmode]
  refine ⟨fun hr => ?_, fun hr => ?_, fun hr => ?_, fun hr => ?_⟩
  · obtain ⟨m', h1, h2, h3, h4⟩ := detail_h_moves m k hk hr hcm hinv
    exact ⟨m', h1, by rw [h2], by rw [h2]; exact hmode, h3, h4⟩
  · obtain ⟨m', cur, h1, hc, h2, h3, h4⟩ := detail_l_moves m k hk hr hcm hinv
    exact ⟨m', cur, h1, hc, by rw [h2], by rw [h2]; exact hmode, h3, h4⟩
  · obtain ⟨m', h1, h2, h3, h4⟩ := detail_j_moves m k hk hr hcm hinv
    exact ⟨m', h1, by rw [h2], by rw [h2]; exact hmode, h3, h4⟩
  · obtain ⟨m', h1, h2, h3, h4⟩ := detail_k_moves m k hk hr hcm hinv
    exact ⟨m', h1, by rw [h2], by rw [h2]; exact hmode, h3, h4⟩

/-- Witness for `detail_cursor_moves`: in the Detail view of the lines `a`, `b`, with the
cursor at line 0, column 0, the key `j` goes to line 1. -/
theorem detail_cursor_moves_witness :
    twoLineDetailState.mode = viewMode.modeDetail ∧
    twoLineDetailState.detailCommandMode = true ∧ DetailInv twoLineDetailState ∧
    (runeKeyMsg "j").type = KeyType.KeyRunes ∧
    ∃ m', Update plainLib twoLineDetailState (runeKey "j") = some (m', none) ∧
      m'.detailCursorLine = 1 :=
  have hinv : DetailInv twoLineDetailState :=
    detailInv_of_index twoLineDetailState (str "a") (by decide) (by decide) (by decide)
  have h := (detail_cursor_moves plainLib twoLineDetailState (runeKeyMsg "j") (by decide)
    (by decide) hinv rfl).2.2.1 rfl
  ⟨by decide, by decide, hinv, rfl,
    h.elim fun m' hm' => ⟨m', hm'.1, (hm'.2.2.2.2.1 (by decide)).1⟩⟩

/-- C23 (code bug): `i` and `I` in Detail set `insertMode = false` ("starts in command
mode") but do not reset `commandMode`, which `updateEdit` tests first.  The messages
`staleCommandLineMsgs` reach a Detail state in which `commandMode` is still set; from it
`i`, and likewise `I`, give Edit mode with the command-line sub-mode active, and the next
key `i` is appended to the command text by the command-line handler, where the
editor-command handler would have started the insert sub-mode. -/
theorem detail_i_keeps_stale_command_line :
    run plainLib InitialModel staleCommandLineMsgs =
      some (staleDetailState, [Cmd.saveKey (str "k") (str "v") true]) ∧
    staleDetailState.mode = viewMode.modeDetail ∧
    staleDetailState.detailCommandMode = true ∧
    (run plainLib staleDetailState [runeKey "i"]).map
        (fun r => (r.1.mode, r.1.commandMode, r.1.insertMode, r.1.commandInput)) =
      some (viewMode.modeEdit, true, false, str ":") ∧
    (run plainLib staleDetailState [runeKey "I"]).map
        (fun r => (r.1.mode, r.1.commandMode, r.1.insertMode, r.1.commandInput)) =
      some (viewMode.modeEdit, true, false, str ":") ∧
    (run plainLib staleDetailState [runeKey "i", runeKey "i"]).map
        (fun r => (r.1.mode, r.1.commandMode, r.1.insertMode, r.1.commandInput)) =
      some (viewMode.modeEdit, true, false, str ":i") ∧
    (∃ m1, Update plainLib staleDetailState (runeKey "i") = some (m1, none) ∧
      updateEdit m1 (runeKeyMsg "i") = updateEditCommandLine m1 (runeKeyMsg "i") ∧
      (updateEditCommand m1 (runeKeyMsg "i")).map (fun r => r.1.insertMode) = some true ∧
      (updateEdit m1 (runeKeyMsg "i")).map (fun r => r.1.insertMode) = some false) := by
  refine ⟨rfl, rfl, rfl, rfl, rfl, rfl, _, rfl, rfl, rfl, rfl⟩

/-- C24 (code bug): leaving Detail does not clear the pending-delete flag.  In the Detail
view of the pair `k`, `v`, opened from the search list with the flag clear, `d` and Escape
give Search mode with the flag set, and a single further `d` issues the delete of `k`;
`d` and `i` give Edit mode with the flag set, and a single further `d` clears the line
`v`; on the two-line value `a`, `b` the same keys delete the line `a`. -/
theorem pending_delete_survives_mode_change :
    detailState.mode = viewMode.modeDetail ∧ detailState.detailCommandMode = true ∧
    detailState.waitingForSecondD = false ∧
    (run plainLib detailState [runeKey "d", specialKey KeyType.KeyEsc]).map
        (fun r => (r.1.mode, r.1.waitingForSecondD, r.2)) =
      some (viewMode.modeSearch, true, []) ∧
    (run plainLib detailState [runeKey "d", specialKey KeyType.KeyEsc, runeKey "d"]).map
        (fun r => (r.1.mode, r.2)) =
      some (viewMode.modeSearch, [Cmd.deleteKey (str "k")]) ∧
    (run plainLib detailState [runeKey "d", runeKey "i"]).map
        (fun r => (r.1.mode, r.1.waitingForSecondD, r.1.editLines)) =
      some (viewMode.modeEdit, true, [str "v"]) ∧
    (run plainLib detailState [runeKey "d", runeKey "i", runeKey "d"]).map
        (fun r => (r.1.mode, r.1.editLines)) =
      some (viewMode.modeEdit, [[]]) ∧
    (run plainLib twoLineDetailState [runeKey "d", runeKey "i", runeKey "d"]).map
        (fun r => (r.1.mode, r.1.editLines)) =
      some (viewMode.modeEdit, [str "b"]) := by
  refine ⟨rfl, rfl, rfl, rfl, rfl, rfl, rfl, rfl⟩

/-! ## Theorems: deleting a line and inserting a character -/

/-- C28: in the editor-command sub-mode of Edit with the pending-delete flag set and the
cursor in bounds, `d` on a buffer of more than one line removes exactly the cursor line
`k` (the lines before it and after it are kept in order), puts the cursor on line
`min(k, n − 2)`, where `n` is the old number of lines, and at column 0; on a buffer of
one line it replaces that line by the empty string; in both cases the flag is cleared,
nothing else changes, and the resulting buffer has at least one line. -/
theorem edit_dd_removes_line (L : Lib) (m : model) (k : KeyMsg)
    (hmode : m.mode = viewMode.modeEdit) (hcl : m.commandMode = false)
    (hins : m.insertMode = false) (hflag : m.waitingForSecondD = true) (hinv : EditInv m)
    (hk : k.type = KeyType.KeyRunes) (hr : k.Runes = str "d") :
    ∃ m', Update L m (Msg.KeyMsg k) = some (m', none) ∧
      m' = { m with editLines := m'.editLines, editLineNum := m'.editLineNum,
                    editCursor := 0, waitingForSecondD := false } ∧
      (len m.editLines > 1 →
        m'.editLines = m.editLines.eraseIdx m.editLineNum.toNat ∧
        m'.editLines =
          m.editLines.take m.editLineNum.toNat ++ m.editLines.drop (m.editLineNum.toNat + 1) ∧
        len m'.editLines = len m.editLines - 1 ∧
        m'.editLineNum = min m.editLineNum (len m.editLines - 2)) ∧
      (len m.editLines = 1 → m'.editLines = [[]] ∧ m'.editLineNum = m.editLineNum) ∧
      len m'.editLines ≥ 1 := by
  obtain ⟨hne, h0, h1, h2, line, hx, h3⟩ := hinv
  have n0 : str "d" ≠ str "i" := by decide
  have n1 : str "d" ≠ str "I" := by decide
  have n2 : str "d" ≠ str "a" := by decide
  have n3 : str "d" ≠ str "A" := by decide
  have n4 : str "d" ≠ str "o" := by decide
  have n5 : str "d" ≠ str "O" := by decide
  have n6 : str "d" ≠ str "h" := by decide
  have n7 : str "d" ≠ str "l" := by decide
  have n8 : str "d" ≠ str "j" := by decide
  have n9 : str "d" ≠ str "k" := by decide
  have n10 : str "d" ≠ str ":" := by decide
  rw [update_key_edit_command L m k hmode hcl hins]
  simp only [updateEditCommand, hk, hr, n0, n1, n2, n3, n4, n5, n6, n7, n8, n9, n10, hflag,
    if_true, if_false]
  have hnat : (m.editLineNum + 1).toNat = m.editLineNum.toNat + 1 := by omega
  by_cases hlen : len m.editLines > 1
  · have hl1 : len (m.editLines.take m.editLineNum.toNat ++
        m.editLines.drop (m.editLineNum.toNat + 1)) = len m.editLines - 1 := by
      rw [len_append, len_take_toNat m.editLines m.editLineNum h0 (by omega), ← hnat,
        len_drop_toNat m.editLines (m.editLineNum + 1) (by omega) (by omega)]
      omega
    rw [if_pos hlen]
    simp only [Option.bind_eq_bind, sliceTo_of_le m.editLines m.editLineNum h0 (by omega),
      sliceFrom_of_le m.editLines (m.editLineNum + 1) (by omega) (by omega), Option.some_bind,
      hnat]
    by_cases hc : m.editLineNum ≥ len (m.editLines.take m.editLineNum.toNat ++
        m.editLines.drop (m.editLineNum.toNat + 1))
    · simp only [if_pos hc]
      refine ⟨_, rfl, rfl, fun _ => ⟨?_, rfl, hl1, ?_⟩, fun h => ?_, ?_⟩
      · exact (List.eraseIdx_eq_take_drop_succ _ _).symm
      · show len (m.editLines.take m.editLineNum.toNat ++
          m.editLines.drop (m.editLineNum.toNat + 1)) - 1 = _
        rw [hl1] at hc ⊢
        omega
      · omega
      · show len (m.editLines.take m.editLineNum.toNat ++
          m.editLines.drop (m.editLineNum.toNat + 1)) ≥ 1
        rw [hl1]
        omega
    · simp only [if_neg hc]
      refine ⟨_, rfl, rfl, fun _ => ⟨?_, rfl, hl1, ?_⟩, fun h => ?_, ?_⟩
      · exact (List.eraseIdx_eq_take_drop_succ _ _).symm
      · show m.editLineNum = _
        rw [hl1] at hc
        omega
      · omega
      · show len (m.editLines.take m.editLineNum.toNat ++
          m.editLines.drop (m.editLineNum.toNat + 1)) ≥ 1
        rw [hl1]
        omega
  · have hone : len m.editLines = 1 := by omega
    rw [if_neg hlen, if_pos hone]
    simp only [Option.bind_eq_bind, setIndex_of_lt m.editLines 0 [] (le_refl _) (by omega),
      Option.some_bind]
    have hset : m.editLines.set (0 : Int).toNat [] = [[]] := by
      rcases hm : m.editLines with _ | ⟨a, rest⟩
      · exact absurd hm hne
      · rw [hm] at hone
        simp only [len, List.length_cons] at hone
        have : rest = [] := List.eq_nil_of_length_eq_zero (by omega)
        subst this
        rfl
    refine ⟨_, rfl, rfl, fun h => absurd h hlen, fun _ => ⟨hset, rfl⟩, ?_⟩
    show len (m.editLines.set (0 : Int).toNat []) ≥ 1
    rw [hset]
    decide

/-- Witness for `edit_dd_removes_line`: the editor on the lines `a`, `b` after a first
`d`; the second `d` leaves the one line `b`. -/
theorem edit_dd_removes_line_witness :
    twoLineDdState.mode = viewMode.modeEdit ∧ twoLineDdState.commandMode = false ∧
    twoLineDdState.insertMode = false ∧ twoLineDdState.waitingForSecondD = true ∧
    EditInv twoLineDdState ∧ twoLineDdState.editLines = [str "a", str "b"] ∧
    ∃ m', Update plainLib twoLineDdState (runeKey "d") = some (m', none) ∧
      m'.editLines = [str "b"] :=
  have hinv : EditInv twoLineDdState :=
    editInv_of_index twoLineDdState (str "a") (by decide) (by decide) (by decide)
  have h := edit_dd_removes_line plainLib twoLineDdState (runeKeyMsg "d") (by decide)
    (by decide) (by decide) (by decide) hinv rfl rfl
  ⟨by decide, by decide, by decide, by decide, hinv, by decide,
    h.elim fun m' hm' => ⟨m', hm'.1, (hm'.2.2.1 (by decide)).1.trans (by decide)⟩⟩

/-- A key whose text is one byte long is none of the keys the insert sub-mode treats
specially: their names are longer. -/
theorem one_byte_key_type (k : KeyMsg) (h : len k.String = 1) :
    k.type ≠ KeyType.KeyEsc ∧ k.type ≠ KeyType.KeyCtrlC ∧ k.type ≠ KeyType.KeyUp ∧
    k.type ≠ KeyType.KeyDown ∧ k.type ≠ KeyType.KeyLeft ∧ k.type ≠ KeyType.KeyRight ∧
    k.type ≠ KeyType.KeyBackspace ∧ k.type ≠ KeyType.KeyEnter := by
  obtain ⟨t, r, a, p⟩ := k
  refine ⟨?_, ?_, ?_, ?_, ?_, ?_, ?_, ?_⟩ <;>
  · intro ht
    simp only at ht
    subst ht
    cases a <;>
      (revert h; simp only [KeyMsg.String, keyNames, if_true, Bool.false_eq_true, if_false]; decide)

/-- C29, as stated, fails for multi-byte characters: the insert sub-mode inserts a key's
text only when it is one byte long.  In the insert sub-mode on the line `v`, typing `é`,
whose text is the two bytes 195, 169, or `世`, whose text is three bytes, changes neither
the buffer nor the cursor. -/
theorem insert_ignores_multibyte_character :
    (insertState.mode, insertState.commandMode, insertState.insertMode, insertState.editLines,
        insertState.editLineNum, insertState.editCursor) =
      (viewMode.modeEdit, false, true, [str "v"], 0, 0) ∧
    (runeKeyMsg "é").String = [195, 169] ∧ len (runeKeyMsg "世").String = 3 ∧
    Update plainLib insertState (runeKey "é") = some (insertState, none) ∧
    Update plainLib insertState (runeKey "世") = some (insertState, none) := by
  refine ⟨rfl, ?_, ?_, rfl, rfl⟩ <;> decide

/-- C29, amended: in the insert sub-mode of Edit with the cursor in bounds at line `n`,
column `col`, a key whose text is one byte long (a one-byte character typed without Alt,
or the space key) is inserted: line `n` becomes the old line with that byte inserted at
`col`, the cursor column becomes `col + 1`, and nothing else changes, the other lines
included.  A rune key whose text is not one byte long, such as a multi-byte character,
changes nothing. -/
theorem insert_single_byte_character (L : Lib) (m : model) (k : KeyMsg)
    (hmode : m.mode = viewMode.modeEdit) (hcl : m.commandMode = false)
    (hins : m.insertMode = true) (hinv : EditInv m) :
    (len k.String = 1 →
      ∃ m' line, Update L m (Msg.KeyMsg k) = some (m', none) ∧
        index m.editLines m.editLineNum = some line ∧
        m' = { m with editLines := m'.editLines, editCursor := m.editCursor + 1 } ∧
        index m'.editLines m.editLineNum =
          some (line.take m.editCursor.toNat ++ k.String ++ line.drop m.editCursor.toNat) ∧
        len m'.editLines = len m.editLines ∧
        ∀ i, i ≠ m.editLineNum → index m'.editLines i = index m.editLines i) ∧
    (k.type = KeyType.KeyRunes → len k.String ≠ 1 →
      Update L m (Msg.KeyMsg k) = some (m, none)) := by
  obtain ⟨hne, h0, h1, h2, line, hx, h3⟩ := hinv
  rw [update_key_edit_insert L m k hmode hcl hins]
  constructor
  · intro hlen
    obtain ⟨t1, t2, t3, t4, t5, t6, t7, t8⟩ := one_byte_key_type k hlen
    unfold updateEditInsert
    split
    · rename_i ht; exact absurd ht t1
    · rename_i ht; exact absurd ht t2
    · rename_i ht; exact absurd ht t3
    · rename_i ht; exact absurd ht t4
    · rename_i ht; exact absurd ht t5
    · rename_i ht; exact absurd ht t6
    · rename_i ht; exact absurd ht t7
    · rename_i ht; exact absurd ht t8
    · rw [if_pos ⟨hlen, h1⟩]
      simp only [Option.bind_eq_bind, hx, Option.some_bind,
        sliceTo_of_le line m.editCursor h2 h3, sliceFrom_of_le line m.editCursor h2 h3,
        setIndex_of_lt m.editLines m.editLineNum _ h0 h1]
      refine ⟨_, line, rfl, rfl, rfl, ?_, ?_, ?_⟩
      · exact index_set_self m.editLines m.editLineNum _ h0 h1
      · exact len_set _ _ _
      · intro i hi
        show index (m.editLines.set m.editLineNum.toNat _) i = index m.editLines i
        unfold index
        rw [len_set]
        by_cases hb : 0 ≤ i ∧ i < len m.editLines
        · rw [if_pos hb, if_pos hb]
          have hne' : m.editLineNum.toNat ≠ i.toNat := by omega
          exact List.getElem?_set_ne hne'
        · rw [if_neg hb, if_neg hb]
  · intro hk hlen
    unfold updateEditInsert
    simp only [hk]
    rw [if_neg (fun h => hlen h.1)]

/-- Witness for `insert_single_byte_character`: typing `e` in the insert sub-mode on the
line `v` gives the line `ev`. -/
theorem insert_single_byte_character_witness :
    insertState.mode = viewMode.modeEdit ∧ insertState.commandMode = false ∧
    insertState.insertMode = true ∧ EditInv insertState ∧
    len (runeKeyMsg "e").String = 1 ∧
    ∃ m', Update plainLib insertState (runeKey "e") = some (m', none) ∧
      index m'.editLines 0 = some (str "ev") :=
  have hinv : EditInv insertState :=
    editInv_of_index insertState (str "v") (by decide) (by decide) (by decide)
  have h := (insert_single_byte_character plainLib insertState (runeKeyMsg "e") (by decide)
    (by decide) (by decide) hinv).1 (by decide)
  ⟨by decide, by decide, by decide, hinv, by decide,
    h.elim fun m' h1 => h1.elim fun line h2 =>
      have hl : line = str "v" := Option.some.inj (h2.2.1.symm.trans (by decide))
      ⟨m', h2.1, by subst hl; exact h2.2.2.2.1⟩⟩

/-! ## Theorems: the command line of the editor -/

theorem run_searchListMsgs : run plainLib InitialModel searchListMsgs = some (searchState, []) := by
  rfl

theorem run_commandLineMsgs :
    run plainLib InitialModel (openEditorMsgs ++ [runeKey ":", runeKey "w"]) =
      some (commandLineState, []) := by
  rfl

/-- C30: in every reachable state in which the command-line sub-mode of Edit is active,
the command text begins with `:`; Backspace removes the last character of a text longer
than one character, leaves the text `:` as it is, and in both cases returns a state whose
command text still begins with `:`. -/
theorem command_line_begins_with_colon (L : Lib) (m : model) (hr : Reachable L m)
    (hmode : m.mode = viewMode.modeEdit) (hcl : m.commandMode = true) :
    stringsHasPrefix m.commandInput (str ":") = true ∧
    (∃ rest, m.commandInput = str ":" ++ rest) ∧
    ∀ k : KeyMsg, k.type = KeyType.KeyBackspace →
      (len m.commandInput > 1 →
        Update L m (Msg.KeyMsg k) =
          some ({ m with commandInput := m.commandInput.dropLast }, none) ∧
        stringsHasPrefix m.commandInput.dropLast (str ":") = true) ∧
      (m.commandInput = str ":" → Update L m (Msg.KeyMsg k) = some (m, none)) := by
  have hp := reachable_commandLineInv L m hr hcl
  refine ⟨hp, (hasPrefix_colon_iff _).mp hp, fun k hk => ?_⟩
  rw [update_key_edit_command_line L m k hmode hcl]
  have h0 := len_nonneg m.commandInput
  have hnat : (len m.commandInput - 1).toNat = m.commandInput.length - 1 := by
    simp only [len]
    omega
  constructor
  · intro hlen
    have hd : m.commandInput.dropLast = m.commandInput.take (len m.commandInput - 1).toNat := by
      rw [hnat, List.dropLast_eq_take]
    constructor
    · unfold updateEditCommandLine
      simp only [hk, if_pos hlen, Option.bind_eq_bind,
        sliceTo_of_le m.commandInput (len m.commandInput - 1) (by omega) (by omega),
        Option.some_bind, hd]
    · rw [hd]
      exact hasPrefix_colon_take m.commandInput _ (by omega) hp
  · intro hone
    have hlen : ¬ len m.commandInput > 1 := by
      rw [hone]
      decide
    unfold updateEditCommandLine
    simp only [hk, if_neg hlen]

/-- Witness for `command_line_begins_with_colon`: the command line holding `:w`, where
Backspace leaves `:`. -/
theorem command_line_begins_with_colon_witness :
    Reachable plainLib commandLineState ∧ commandLineState.mode = viewMode.modeEdit ∧
    commandLineState.commandMode = true ∧ commandLineState.commandInput = str ":w" ∧
    (run plainLib commandLineState [specialKey KeyType.KeyBackspace]).map
        (fun r => r.1.commandInput) = some (str ":") :=
  have hr : Reachable plainLib commandLineState := ⟨_, _, run_commandLineMsgs⟩
  have h := ((command_line_begins_with_colon plainLib commandLineState hr (by decide)
    (by decide)).2.2 (specialKeyMsg KeyType.KeyBackspace) rfl).1 (by decide)
  ⟨hr, by decide, by decide, by decide, by
    show (run plainLib commandLineState [Msg.KeyMsg (specialKeyMsg KeyType.KeyBackspace)]).map
        (fun r => r.1.commandInput) = some (str ":")
    simp only [run, h.1]
    decide⟩

/-! ## Theorems: the list windows and the delete gesture of Search -/

theorem updateSearch_up (L : Lib) (m : model) (k : KeyMsg) (hk : k.type = KeyType.KeyUp) :
    updateSearch L m k =
      some ({ m with
              selectedItem := if m.selectedItem > 0 then m.selectedItem - 1 else m.selectedItem,
              resultOffset := if m.selectedItem > 0 ∧ m.selectedItem - 1 < m.resultOffset then
                                m.selectedItem - 1
                              else m.resultOffset }, none) := by
  unfold updateSearch
  simp only [hk]
  by_cases h1 : m.selectedItem > 0 <;> by_cases h2 : m.selectedItem - 1 < m.resultOffset <;>
    simp only [h1, h2, if_true, if_false, and_self, and_true, true_and, false_and, and_false]

theorem updateSearch_down (L : Lib) (m : model) (k : KeyMsg) (hk : k.type = KeyType.KeyDown) :
    updateSearch L m k =
      some ({ m with
              selectedItem := if m.selectedItem < len m.results - 1 then m.selectedItem + 1
                              else m.selectedItem,
              resultOffset := if m.selectedItem < len m.results - 1 ∧
                                  m.selectedItem + 1 ≥ m.resultOffset + 10 then
                                m.selectedItem + 1 - 9
                              else m.resultOffset }, none) := by
  unfold updateSearch
  simp only [hk]
  by_cases h1 : m.selectedItem < len m.results - 1 <;>
    by_cases h2 : m.selectedItem + 1 ≥ m.resultOffset + 10 <;>
    simp only [h1, h2, if_true, if_false, and_self, and_true, true_and, false_and, and_false]

theorem updateMain_up (m : model) (k : KeyMsg) (hk : k.type = KeyType.KeyUp) :
    updateMain m k =
      some ({ m with
              selectedCommand := if m.selectedCommand > 0 then m.selectedCommand - 1
                                 else m.selectedCommand,
              commandOffset := if m.selectedCommand > 0 ∧
                                   m.selectedCommand - 1 < m.commandOffset then
                                 m.selectedCommand - 1
                               else m.commandOffset }, none) := by
  unfold updateMain
  simp only [hk]
  by_cases h1 : m.selectedCommand > 0 <;>
    by_cases h2 : m.selectedCommand - 1 < m.commandOffset <;>
    simp only [h1, h2, if_true, if_false, and_self, and_true, true_and, false_and, and_false]

theorem updateMain_down (m : model) (k : KeyMsg) (hk : k.type = KeyType.KeyDown) :
    updateMain m k =
      some ({ m with
              selectedCommand := if m.selectedCommand < len m.filteredCommands - 1 then
                                   m.selectedCommand + 1
                                 else m.selectedCommand,
              commandOffset := if m.selectedCommand < len m.filteredCommands - 1 ∧
                                   m.selectedCommand + 1 ≥ m.commandOffset + 10 then
                                 m.selectedCommand + 1 - 9
                               else m.commandOffset }, none) := by
  unfold updateMain
  simp only [hk]
  by_cases h1 : m.selectedCommand < len m.filteredCommands - 1 <;>
    by_cases h2 : m.selectedCommand + 1 ≥ m.commandOffset + 10 <;>
    simp only [h1, h2, if_true, if_false, and_self, and_true, true_and, false_and, and_false]

/-- C25: in every reachable state the Search highlight is 0 on an empty result list and a
row of the list otherwise, with `0 ≤ offset ≤ highlight < offset + 10`, and the same holds
for the Palette's highlighted command and command offset over the filtered commands
(`ListInv`).  In Search mode Up and Down return a state in which only the highlight and
the offset of the result list may differ, the highlight has moved by at most one row (up
by one unless it is 0, down by one unless it is the last row), and the invariant holds;
likewise in the Palette for the command list. -/
theorem highlight_window_invariant (L : Lib) (m : model) (hr : Reachable L m) :
    ListInv m ∧
    (m.mode = viewMode.modeSearch → ∀ k : KeyMsg,
      (k.type = KeyType.KeyUp →
        ∃ m', Update L m (Msg.KeyMsg k) = some (m', none) ∧
          m' = { m with selectedItem := m'.selectedItem, resultOffset := m'.resultOffset } ∧
          m'.selectedItem =
            (if m.selectedItem > 0 then m.selectedItem - 1 else m.selectedItem) ∧
          m.selectedItem - 1 ≤ m'.selectedItem ∧ m'.selectedItem ≤ m.selectedItem ∧
          ListInv m') ∧
      (k.type = KeyType.KeyDown →
        ∃ m', Update L m (Msg.KeyMsg k) = some (m', none) ∧
          m' = { m with selectedItem := m'.selectedItem, resultOffset := m'.resultOffset } ∧
          m'.selectedItem =
            (if m.selectedItem < len m.results - 1 then m.selectedItem + 1
             else m.selectedItem) ∧
          m.selectedItem ≤ m'.selectedItem ∧ m'.selectedItem ≤ m.selectedItem + 1 ∧
          ListInv m')) ∧
    (m.mode = viewMode.modeMain → ∀ k : KeyMsg,
      (k.type = KeyType.KeyUp →
        ∃ m', Update L m (Msg.KeyMsg k) = some (m', none) ∧
          m' = { m with selectedCommand := m'.selectedCommand,
                        commandOffset := m'.commandOffset } ∧
          m'.selectedCommand =
            (if m.selectedCommand > 0 then m.selectedCommand - 1 else m.selectedCommand) ∧
          m.selectedCommand - 1 ≤ m'.selectedCommand ∧
          m'.selectedCommand ≤ m.selectedCommand ∧ ListInv m') ∧
      (k.type = KeyType.KeyDown →
        ∃ m', Update L m (Msg.KeyMsg k) = some (m', none) ∧
          m' = { m with selectedCommand := m'.selectedCommand,
                        commandOffset := m'.commandOffset } ∧
          m'.selectedCommand =
            (if m.selectedCommand < len m.filteredCommands - 1 then m.selectedCommand + 1
             else m.selectedCommand) ∧
          m.selectedCommand ≤ m'.selectedCommand ∧
          m'.selectedCommand ≤ m.selectedCommand + 1 ∧ ListInv m')) := by
  have hinv := reachable_listInv L m hr
  refine ⟨hinv, fun hmode k => ⟨fun hk => ?_, fun hk => ?_⟩,
    fun hmode k => ⟨fun hk => ?_, fun hk => ?_⟩⟩
  · have hu : Update L m (Msg.KeyMsg k) = _ :=
      (update_key_search L m k hmode).trans (updateSearch_up L m k hk)
    refine ⟨_, hu, rfl, rfl, ?_, ?_, update_keeps_listInv L m _ _ _ hinv hu⟩
    · show m.selectedItem - 1 ≤ (if m.selectedItem > 0 then m.selectedItem - 1
        else m.selectedItem)
      split <;> omega
    · show (if m.selectedItem > 0 then m.selectedItem - 1 else m.selectedItem) ≤
        m.selectedItem
      split <;> omega
  · have hu : Update L m (Msg.KeyMsg k) = _ :=
      (update_key_search L m k hmode).trans (updateSearch_down L m k hk)
    refine ⟨_, hu, rfl, rfl, ?_, ?_, update_keeps_listInv L m _ _ _ hinv hu⟩
    · show m.selectedItem ≤ (if m.selectedItem < len m.results - 1 then m.selectedItem + 1
        else m.selectedItem)
      split <;> omega
    · show (if m.selectedItem < len m.results - 1 then m.selectedItem + 1
        else m.selectedItem) ≤ m.selectedItem + 1
      split <;> omega
  · have hu : Update L m (Msg.KeyMsg k) = _ :=
      (update_key_main L m k hmode).trans (updateMain_up m k hk)
    refine ⟨_, hu, rfl, rfl, ?_, ?_, update_keeps_listInv L m _ _ _ hinv hu⟩
    · show m.selectedCommand - 1 ≤ (if m.selectedCommand > 0 then m.selectedCommand - 1
        else m.selectedCommand)
      split <;> omega
    · show (if m.selectedCommand > 0 then m.selectedCommand - 1 else m.selectedCommand) ≤
        m.selectedCommand
      split <;> omega
  · have hu : Update L m (Msg.KeyMsg k) = _ :=
      (update_key_main L m k hmode).trans (updateMain_down m k hk)
    refine ⟨_, hu, rfl, rfl, ?_, ?_, update_keeps_listInv L m _ _ _ hinv hu⟩
    · show m.selectedCommand ≤ (if m.selectedCommand < len m.filteredCommands - 1 then
        m.selectedCommand + 1 else m.selectedCommand)
      split <;> omega
    · show (if m.selectedCommand < len m.filteredCommands - 1 then m.selectedCommand + 1
        else m.selectedCommand) ≤ m.selectedCommand + 1
      split <;> omega

/-- Witness for `highlight_window_invariant`: the Search list holding the one pair `k`,
`v`, with the highlight and the offset at 0. -/
theorem highlight_window_invariant_witness :
    Reachable plainLib searchState ∧ ListInv searchState ∧
    searchState.selectedItem = 0 ∧ searchState.resultOffset = 0 ∧
    len searchState.results = 1 :=
  have hr : Reachable plainLib searchState := ⟨_, _, run_searchListMsgs⟩
  ⟨hr, (highlight_window_invariant plainLib searchState hr).1, by decide, by decide,
    by decide⟩

theorem clear_flag_eq (m : model) (h : m.waitingForSecondD = false) :
    { m with waitingForSecondD := false } = m := by
  cases m
  simp only at h
  subst h
  rfl

theorem set_mode_eq (m : model) (v : viewMode) (h : m.mode = v) : { m with mode := v } = m := by
  cases m
  simp only at h
  subst h
  rfl

/-- C21: in a reachable Search state with a non-empty result list and the pending-delete
flag clear, the first `d` only sets the flag, the second `d` clears it and issues the
delete of the highlighted result's key, so that `d`, `d` issue exactly that one command
and return the state they started from, the list and the search text included; the
delete-success message then gives the same state, in mode Search, with the scan command
for the current search text (all keys for an empty text, the prefix range otherwise). -/
theorem search_dd_deletes_highlighted (L : Lib) (m : model) (hr : Reachable L m)
    (hmode : m.mode = viewMode.modeSearch) (hne : m.results ≠ [])
    (hflag : m.waitingForSecondD = false) :
    ∃ r, index m.results m.selectedItem = some r ∧
      Update L m (runeKey "d") = some ({ m with waitingForSecondD := true }, none) ∧
      Update L { m with waitingForSecondD := true } (runeKey "d") =
        some (m, some (Cmd.deleteKey r.Key)) ∧
      run L m [runeKey "d", runeKey "d"] = some (m, [Cmd.deleteKey r.Key]) ∧
      Update L m (Msg.deleteSuccessMsg r.Key) = some (m, some (searchCmd m)) ∧
      searchCmd m =
        Cmd.search (if m.input = [] then ScanAllKeys 50 else ScanWithRealPrefix m.input 50) := by
  obtain ⟨⟨-, hw, -, -, -⟩, -⟩ := reachable_listInv L m hr
  have hpos := len_pos_of_ne_nil hne
  obtain ⟨h0, h1⟩ := hw hpos
  obtain ⟨r, hx, -⟩ := index_of_lt m.results m.selectedItem h0 (by omega)
  have hd1 : Update L m (runeKey "d") = some ({ m with waitingForSecondD := true }, none) := by
    simp [Update, runeKey, runeKeyMsg, hmode, updateSearch, hflag]
  have hd2 : Update L { m with waitingForSecondD := true } (runeKey "d") =
      some (m, some (Cmd.deleteKey r.Key)) := by
    have hlt : m.selectedItem < len m.results := by omega
    have hge : ¬ (len m.results = 0 ∨ m.selectedItem ≥ len m.results) := by omega
    have hU : Update L { m with waitingForSecondD := true } (runeKey "d") =
        updateSearch L { m with waitingForSecondD := true } (runeKeyMsg "d") :=
      update_key_search L _ _ hmode
    rw [hU]
    simp only [runeKeyMsg, updateSearch, if_true, deleteSelectedKeyCmd,
      if_neg hge, hx, Option.bind_eq_bind, Option.some_bind, gt_iff_lt, hpos, hlt, and_self]
    exact congrArg (fun x => some (x, some (Cmd.deleteKey r.Key))) (clear_flag_eq m hflag)
  refine ⟨r, hx, hd1, hd2, ?_, ?_, ?_⟩
  · simp only [run, hd1, hd2, Option.toList, List.nil_append, List.append_nil]
  · show some ({ m with mode := viewMode.modeSearch },
        some (searchCmd { m with mode := viewMode.modeSearch })) = some (m, some (searchCmd m))
    rw [set_mode_eq m _ hmode]
  · unfold searchCmd
    by_cases h : m.input = []
    · rw [if_pos ((len_eq_zero_iff _).mpr h), if_pos h]
    · rw [if_neg (fun h' => h ((len_eq_zero_iff _).mp h')), if_neg h]

/-- Witness for `search_dd_deletes_highlighted`: the Search list holding the one pair
`k`, `v`. -/
theorem search_dd_deletes_highlighted_witness :
    Reachable plainLib searchState ∧ searchState.mode = viewMode.modeSearch ∧
    searchState.results ≠ [] ∧ searchState.waitingForSecondD = false ∧
    run plainLib searchState [runeKey "d", runeKey "d"] =
      some (searchState, [Cmd.deleteKey (str "k")]) :=
  have hr : Reachable plainLib searchState := ⟨_, _, run_searchListMsgs⟩
  have h := search_dd_deletes_highlighted plainLib searchState hr (by decide) (by decide)
    (by decide)
  ⟨hr, by decide, by decide, by decide,
    h.elim fun r hx =>
      have hk : r = { Key := str "k", Value := str "v" } :=
        Option.some.inj (hx.1.symm.trans (by decide))
      by subst hk; exact hx.2.2.2.1⟩

/-! ## Theorems: scan results, and saving what the Detail view shows -/

/-- C31: a scan-result message without error, applied to any state in any mode, returns
the state with the result list replaced by the message's list, the highlight and the
scroll offset set to 0 and the searching flag cleared, and issues no command; every other
field (mode, search text and cursor, Detail key, value, lines, cursor and sub-mode, Edit
buffer, cursor and sub-modes, Add fields, Palette state, status message, format) is
unchanged. -/
theorem scan_result_replaces_list_only (L : Lib) (m : model) (results : List KeyValue) :
    ∃ m', Update L m (Msg.searchResultMsg results none) = some (m', none) ∧
      m' = { m with results := results, selectedItem := 0, resultOffset := 0,
                    searching := false } ∧
      m'.results = results ∧ m'.selectedItem = 0 ∧ m'.resultOffset = 0 ∧
      m'.searching = false ∧
      m'.mode = m.mode ∧ m'.input = m.input ∧ m'.cursor = m.cursor ∧
      m'.detailKey = m.detailKey ∧ m'.detailValue = m.detailValue ∧
      m'.detailLines = m.detailLines ∧ m'.detailCursorLine = m.detailCursorLine ∧
      m'.detailCursorCol = m.detailCursorCol ∧ m'.detailCommandMode = m.detailCommandMode ∧
      m'.valueFormat = m.valueFormat ∧
      m'.editValue = m.editValue ∧ m'.editLines = m.editLines ∧
      m'.editLineNum = m.editLineNum ∧ m'.editCursor = m.editCursor ∧
      m'.insertMode = m.insertMode ∧ m'.commandMode = m.commandMode ∧
      m'.commandInput = m.commandInput ∧ m'.waitingForSecondD = m.waitingForSecondD ∧
      m'.statusMessage = m.statusMessage ∧
      m'.addKey = m.addKey ∧ m'.addValue = m.addValue ∧ m'.addStep = m.addStep ∧
      m'.addCursor = m.addCursor ∧
      m'.commandPrefix = m.commandPrefix ∧ m'.isInCommand = m.isInCommand ∧
      m'.commandList = m.commandList ∧ m'.filteredCommands = m.filteredCommands ∧
      m'.selectedCommand = m.selectedCommand ∧ m'.commandOffset = m.commandOffset :=
  ⟨_, rfl, rfl, rfl, rfl, rfl, rfl, rfl, rfl, rfl, rfl, rfl, rfl, rfl, rfl, rfl, rfl, rfl, rfl,
    rfl, rfl, rfl, rfl, rfl, rfl, rfl, rfl, rfl, rfl, rfl, rfl, rfl, rfl, rfl, rfl, rfl⟩

theorem sliceTo_mem {α : Type} {s a : List α} {j : Int} {x : α} (h : sliceTo s j = some a)
    (hx : x ∈ a) : x ∈ s := by
  unfold sliceTo at h
  split at h
  · cases h
    exact List.mem_of_mem_take hx
  · cases h

theorem sliceFrom_mem {α : Type} {s a : List α} {j : Int} {x : α} (h : sliceFrom s j = some a)
    (hx : x ∈ a) : x ∈ s := by
  unfold sliceFrom at h
  split at h
  · cases h
    exact List.mem_of_mem_drop hx
  · cases h

/-- The text of a rune key that is one byte long is the key's runes. -/
theorem rune_text_of_one_byte (k : KeyMsg) (ht : k.type = KeyType.KeyRunes)
    (hl : len k.String = 1) : k.String = k.Runes := by
  obtain ⟨t, r, a, p⟩ := k
  simp only at ht
  subst ht
  cases a <;> cases p <;>
    simp only [KeyMsg.String, if_true, Bool.false_eq_true, if_false, List.nil_append] at hl ⊢
  all_goals
    exfalso
    revert hl
    simp only [len, List.length_append]
    have h1 : (str "alt+").length = 4 := by decide
    have h2 : (str "[").length = 1 := by decide
    have h3 : (str "]").length = 1 := by decide
    omega

theorem searchTextStep_same (m m' : model) (k : Option KeyMsg) (h1 : m'.input = m.input)
    (h2 : m'.cursor = m.cursor) : SearchTextStep m m' k :=
  Or.inl ⟨h1, h2⟩

theorem executeSelectedCommand_text (m : model) (m' : model) (c : Option Cmd)
    (k : Option KeyMsg) (h : executeSelectedCommand m = some (m', c)) :
    SearchTextStep m m' k := by
  unfold executeSelectedCommand at h
  repeat' first
    | (rw [some_pair_iff] at h; obtain ⟨rfl, -⟩ := h;
        first | exact Or.inl ⟨rfl, rfl⟩ | exact Or.inr (Or.inl ⟨rfl, rfl⟩))
    | (rw [ite_eq_some_iff] at h; rcases h with ⟨-, h⟩ | ⟨-, h⟩)
    | (rw [bind_eq_some_iff] at h; obtain ⟨_, -, h⟩ := h)

theorem updateMain_text (m : model) (k : KeyMsg) (m' : model) (c : Option Cmd)
    (h : updateMain m k = some (m', c)) : SearchTextStep m m' (some k) := by
  unfold updateMain at h
  split at h
  case h_3 => exact executeSelectedCommand_text m m' c _ h
  all_goals
    repeat' first
      | (rw [some_pair_iff] at h; obtain ⟨rfl, -⟩ := h; exact Or.inl ⟨rfl, rfl⟩)
      | (rw [ite_eq_some_iff] at h; rcases h with ⟨-, h⟩ | ⟨-, h⟩)
      | (rw [bind_eq_some_iff] at h; obtain ⟨_, -, h⟩ := h)

theorem updateSearch_text (L : Lib) (m : model) (k : KeyMsg) (m' : model) (c : Option Cmd)
    (h : updateSearch L m k = some (m', c)) : SearchTextStep m m' (some k) := by
  unfold updateSearch at h
  split at h
  case h_3 =>
    left
    repeat' first
      | (rw [some_pair_iff] at h; obtain ⟨rfl, -⟩ := h;
          first | exact ⟨rfl, rfl⟩ | (unfold formatValue; split <;> exact ⟨rfl, rfl⟩))
      | (rw [ite_eq_some_iff] at h; rcases h with ⟨-, h⟩ | ⟨-, h⟩)
      | (rw [bind_eq_some_iff] at h; obtain ⟨_, -, h⟩ := h)
  case h_6 =>
    rw [ite_eq_some_iff] at h
    rcases h with ⟨hc, h⟩ | ⟨-, h⟩
    · rw [some_pair_iff] at h
      obtain ⟨rfl, -⟩ := h
      exact Or.inr (Or.inr (Or.inl ⟨rfl, hc, rfl⟩))
    · rw [some_pair_iff] at h
      obtain ⟨rfl, -⟩ := h
      exact Or.inl ⟨rfl, rfl⟩
  case h_7 =>
    rw [ite_eq_some_iff] at h
    rcases h with ⟨hc, h⟩ | ⟨-, h⟩
    · rw [some_pair_iff] at h
      obtain ⟨rfl, -⟩ := h
      exact Or.inr (Or.inr (Or.inr (Or.inl ⟨rfl, hc, rfl⟩)))
    · rw [some_pair_iff] at h
      obtain ⟨rfl, -⟩ := h
      exact Or.inl ⟨rfl, rfl⟩
  case h_8 =>
    rw [ite_eq_some_iff] at h
    rcases h with ⟨hc, h⟩ | ⟨-, h⟩
    · rw [bind_eq_some_iff] at h
      obtain ⟨a, ha, h⟩ := h
      rw [bind_eq_some_iff] at h
      obtain ⟨b, hb, h⟩ := h
      rw [some_pair_iff] at h
      obtain ⟨rfl, -⟩ := h
      exact Or.inr (Or.inr (Or.inr (Or.inr (Or.inl ⟨hc.1, a, b, ha, hb, rfl, rfl⟩))))
    · rw [some_pair_iff] at h
      obtain ⟨rfl, -⟩ := h
      exact Or.inl ⟨rfl, rfl⟩
  case h_9 =>
    rename_i ht
    rw [ite_eq_some_iff] at h
    rcases h with ⟨-, h⟩ | ⟨hd, h⟩
    · left
      repeat' first
        | (rw [some_pair_iff] at h; obtain ⟨rfl, -⟩ := h; exact ⟨rfl, rfl⟩)
        | (rw [ite_eq_some_iff] at h; rcases h with ⟨-, h⟩ | ⟨-, h⟩)
        | (rw [bind_eq_some_iff] at h; obtain ⟨_, -, h⟩ := h)
    · rw [ite_eq_some_iff] at h
      rcases h with ⟨hl, h⟩ | ⟨-, h⟩
      · rw [bind_eq_some_iff] at h
        obtain ⟨a, ha, h⟩ := h
        rw [bind_eq_some_iff] at h
        obtain ⟨b, hb, h⟩ := h
        rw [some_pair_iff] at h
        obtain ⟨rfl, -⟩ := h
        exact Or.inr (Or.inr (Or.inr (Or.inr (Or.inr
          ⟨k, rfl, ht, hd, hl, a, b, ha, hb, rfl, rfl⟩))))
      · rw [some_pair_iff] at h
        obtain ⟨rfl, -⟩ := h
        exact Or.inl ⟨rfl, rfl⟩
  all_goals
    repeat' first
      | (rw [some_pair_iff] at h; obtain ⟨rfl, -⟩ := h;
          first | exact Or.inl ⟨rfl, rfl⟩ | exact Or.inr (Or.inl ⟨rfl, rfl⟩))
      | (rw [ite_eq_some_iff] at h; rcases h with ⟨-, h⟩ | ⟨-, h⟩)

/-- What one step of `Update` does to the search text and its cursor. -/
theorem update_text (L : Lib) (m : model) (msg : Msg) (m' : model) (c : Option Cmd)
    (h : Update L m msg = some (m', c)) :
    SearchTextStep m m' (match msg with | Msg.KeyMsg k => some k | _ => none) := by
  cases msg with
  | KeyMsg k =>
    unfold Update at h
    dsimp only at h ⊢
    split at h
    · exact updateMain_text m k m' c h
    · exact updateSearch_text L m k m' c h
    · have hf := updateDetail_frame m k m' c h
      exact searchTextStep_same m m' _ (by rw [hf]) (by rw [hf])
    · unfold updateEdit at h
      split at h
      · have hf := updateEditCommandLine_frame m k m' c h
        exact searchTextStep_same m m' _ (by rw [hf]) (by rw [hf])
      · split at h
        · have hf := updateEditCommand_frame m k m' c h
          exact searchTextStep_same m m' _ (by rw [hf]) (by rw [hf])
        · have hf := updateEditInsert_frame m k m' c h
          exact searchTextStep_same m m' _ (by rw [hf]) (by rw [hf])
    · have hf := updateAdd_frame L m k m' c h
      exact searchTextStep_same m m' _ (by rw [hf]) (by rw [hf])
  | searchResultMsg results err =>
    unfold Update at h
    dsimp only at h
    split at h
    all_goals (simp only [Option.some.injEq, Prod.mk.injEq] at h)
    all_goals (obtain ⟨rfl, -⟩ := h; exact Or.inl ⟨rfl, rfl⟩)
  | deleteSuccessMsg key =>
    unfold Update at h
    simp only [Option.some.injEq, Prod.mk.injEq] at h
    obtain ⟨rfl, -⟩ := h
    exact Or.inl ⟨rfl, rfl⟩
  | saveSuccessMsg key value exitToDetail =>
    unfold Update at h
    dsimp only at h
    split at h
    all_goals (simp only [Option.some.injEq, Prod.mk.injEq] at h)
    all_goals (obtain ⟨rfl, -⟩ := h; exact Or.inl ⟨rfl, rfl⟩)
  | saveErrorMsg key err =>
    unfold Update at h
    simp only [Option.some.injEq, Prod.mk.injEq] at h
    obtain ⟨rfl, -⟩ := h
    exact Or.inl ⟨rfl, rfl⟩
  | addSuccessMsg key value =>
    unfold Update at h
    simp only [Option.some.injEq, Prod.mk.injEq] at h
    obtain ⟨rfl, -⟩ := h
    exact Or.inl ⟨rfl, rfl⟩
  | otherMsg =>
    unfold Update at h
    simp only [Option.some.injEq, Prod.mk.injEq] at h
    obtain ⟨rfl, -⟩ := h
    exact Or.inl ⟨rfl, rfl⟩

/-- One step keeps the letter `d` out of the search text. -/
theorem update_keeps_no_d (L : Lib) (m : model) (msg : Msg) (m' : model) (c : Option Cmd)
    (hinv : (100 : Byte) ∉ m.input) (h : Update L m msg = some (m', c)) :
    (100 : Byte) ∉ m'.input := by
  rcases update_text L m msg m' c h with ⟨h1, -⟩ | ⟨h1, -⟩ | ⟨h1, -⟩ | ⟨h1, -⟩ |
    ⟨-, a, b, ha, hb, h1, -⟩ | ⟨k, -, ht, hd, hl, a, b, ha, hb, h1, -⟩
  · rw [h1]; exact hinv
  · rw [h1]; exact List.not_mem_nil _
  · rw [h1]; exact hinv
  · rw [h1]; exact hinv
  · rw [h1]
    intro hmem
    rcases List.mem_append.mp hmem with hm | hm
    · exact hinv (sliceTo_mem ha hm)
    · exact hinv (sliceFrom_mem hb hm)
  · rw [h1]
    intro hmem
    rcases List.mem_append.mp hmem with hm | hm
    · rcases List.mem_append.mp hm with hm | hm
      · exact hinv (sliceTo_mem ha hm)
      · rw [rune_text_of_one_byte k ht hl] at hm hl
        apply hd
        rcases hr : k.Runes with _ | ⟨x, rest⟩
        · rw [hr] at hm
          cases hm
        · rw [hr] at hm hl
          simp only [len, List.length_cons] at hl
          have : rest = [] := List.eq_nil_of_length_eq_zero (by omega)
          subst this
          simp only [List.mem_singleton] at hm
          subst hm
          decide
    · exact hinv (sliceFrom_mem hb hm)

/-- One step keeps the search cursor inside the search text. -/
theorem update_keeps_search_cursor (L : Lib) (m : model) (msg : Msg) (m' : model)
    (c : Option Cmd) (hinv : 0 ≤ m.cursor ∧ m.cursor ≤ len m.input)
    (h : Update L m msg = some (m', c)) : 0 ≤ m'.cursor ∧ m'.cursor ≤ len m'.input := by
  obtain ⟨h0, h1⟩ := hinv
  rcases update_text L m msg m' c h with ⟨e1, e2⟩ | ⟨e1, e2⟩ | ⟨e1, hc, e2⟩ | ⟨e1, hc, e2⟩ |
    ⟨hc, a, b, ha, hb, e1, e2⟩ | ⟨k, -, -, -, hl, a, b, ha, hb, e1, e2⟩
  · rw [e1, e2]; exact ⟨h0, h1⟩
  · rw [e1, e2]; exact ⟨le_refl _, le_refl _⟩
  · rw [e1, e2]; omega
  · rw [e1, e2]; omega
  · rw [sliceTo_of_le m.input (m.cursor - 1) (by omega) (by omega)] at ha
    rw [sliceFrom_of_le m.input m.cursor h0 h1] at hb
    cases ha
    cases hb
    rw [e1, e2, len_append, len_take_toNat m.input (m.cursor - 1) (by omega) (by omega),
      len_drop_toNat m.input m.cursor h0 h1]
    omega
  · rw [sliceTo_of_le m.input m.cursor h0 h1] at ha
    rw [sliceFrom_of_le m.input m.cursor h0 h1] at hb
    cases ha
    cases hb
    rw [e1, e2, len_append, len_append, len_take_toNat m.input m.cursor h0 h1,
      len_drop_toNat m.input m.cursor h0 h1, hl]
    omega

/-- The key `d` in Search mode: whatever it returns has the search text and cursor of the
state it started from and is no scan, and it returns whenever the highlight is not
negative. -/
theorem search_d_step (L : Lib) (m : model) (k : KeyMsg)
    (hmode : m.mode = viewMode.modeSearch) (hk : k.type = KeyType.KeyRunes)
    (hr : k.Runes = str "d") :
    (∀ m' c, Update L m (Msg.KeyMsg k) = some (m', c) →
      m'.input = m.input ∧ m'.cursor = m.cursor ∧ ∀ req, c ≠ some (Cmd.search req)) ∧
    (0 ≤ m.selectedItem → ∃ m' c, Update L m (Msg.KeyMsg k) = some (m', c)) := by
  rw [update_key_search L m k hmode]
  unfold updateSearch
  simp only [hk]
  rw [if_pos hr]
  by_cases hw : m.waitingForSecondD = true
  · rw [if_pos hw]
    dsimp only
    by_cases hc : len m.results > 0 ∧ m.selectedItem < len m.results
    · rw [if_pos hc]
      have hge : ¬ (len m.results = 0 ∨ m.selectedItem ≥ len m.results) := by omega
      simp only [deleteSelectedKeyCmd, if_neg hge, Option.bind_eq_bind]
      constructor
      · intro m' c h
        cases hx : index m.results m.selectedItem with
        | none => rw [hx] at h; cases h
        | some r =>
          rw [hx] at h
          simp only [Option.some_bind, Option.some.injEq, Prod.mk.injEq] at h
          obtain ⟨rfl, rfl⟩ := h
          exact ⟨rfl, rfl, fun req hreq => by cases hreq⟩
      · intro h0
        obtain ⟨r, hx, -⟩ := index_of_lt m.results m.selectedItem h0 hc.2
        rw [hx]
        exact ⟨_, _, rfl⟩
    · rw [if_neg hc]
      refine ⟨fun m' c h => ?_, fun _ => ⟨_, _, rfl⟩⟩
      simp only [Option.some.injEq, Prod.mk.injEq] at h
      obtain ⟨rfl, rfl⟩ := h
      exact ⟨rfl, rfl, fun req hreq => by cases hreq⟩
  · rw [if_neg hw]
    refine ⟨fun m' c h => ?_, fun _ => ⟨_, _, rfl⟩⟩
    simp only [Option.some.injEq, Prod.mk.injEq] at h
    obtain ⟨rfl, rfl⟩ := h
    exact ⟨rfl, rfl, fun req hreq => by cases hreq⟩

/-- C34: in Search mode the key `d` never reaches the search text.  In every reachable
state no byte of the search text is the letter `d`, and in Search mode the key `d` returns
a state with the same search text and cursor and a command that is no scan (none, or the
delete of the highlighted key); for every Search state at all, reachable or not, whatever
the key `d` returns has the same search text and cursor and is no scan, and it returns
whenever the highlight is not negative. -/
theorem search_text_never_contains_d (L : Lib) (m : model) (hr : Reachable L m) :
    (∀ b ∈ m.input, [b] ≠ str "d") ∧
    (m.mode = viewMode.modeSearch → ∀ k : KeyMsg, k.type = KeyType.KeyRunes →
      k.Runes = str "d" →
      ∃ m' c, Update L m (Msg.KeyMsg k) = some (m', c) ∧ m'.input = m.input ∧
        m'.cursor = m.cursor ∧ ∀ req, c ≠ some (Cmd.search req)) ∧
    (∀ (m0 : model) (k : KeyMsg), m0.mode = viewMode.modeSearch →
      k.type = KeyType.KeyRunes → k.Runes = str "d" →
      (∀ m' c, Update L m0 (Msg.KeyMsg k) = some (m', c) →
        m'.input = m0.input ∧ m'.cursor = m0.cursor ∧ ∀ req, c ≠ some (Cmd.search req)) ∧
      (0 ≤ m0.selectedItem → ∃ m' c, Update L m0 (Msg.KeyMsg k) = some (m', c))) := by
  have hnd : (100 : Byte) ∉ m.input :=
    reachable_invariant L (fun s => (100 : Byte) ∉ s.input) (List.not_mem_nil _)
      (update_keeps_no_d L) m hr
  refine ⟨fun b hb hd => ?_, fun hmode k hk hrune => ?_,
    fun m0 k hmode hk hrune => search_d_step L m0 k hmode hk hrune⟩
  · have h100 : str "d" = [100] := by decide
    rw [h100] at hd
    simp only [List.cons.injEq, and_true] at hd
    exact hnd (hd ▸ hb)
  · obtain ⟨h1, h2⟩ := search_d_step L m k hmode hk hrune
    have hsel : 0 ≤ m.selectedItem := by
      obtain ⟨⟨hz, hp, -⟩, -⟩ := reachable_listInv L m hr
      have := len_nonneg m.results
      by_cases hl : len m.results = 0
      · rw [hz hl]
      · exact (hp (by omega)).1
    obtain ⟨m', c, h⟩ := h2 hsel
    exact ⟨m', c, h, h1 m' c h⟩

theorem run_typed_adb :
    run plainLib InitialModel
        [specialKey KeyType.KeyEnter, runeKey "a", runeKey "d", runeKey "b"] =
      some (typedAdbState,
        [Cmd.search (ScanWithRealPrefix (str "a") 50),
          Cmd.search (ScanWithRealPrefix (str "ab") 50)]) := by
  rfl

/-- Witness for `search_text_never_contains_d`: after `/search` is run and `a`, `d`, `b`
are typed, the search text is `ab`. -/
theorem search_text_never_contains_d_witness :
    Reachable plainLib typedAdbState ∧ typedAdbState.mode = viewMode.modeSearch ∧
    typedAdbState.input = str "ab" ∧ ∀ b ∈ typedAdbState.input, [b] ≠ str "d" :=
  have hr : Reachable plainLib typedAdbState := ⟨_, _, run_typed_adb⟩
  ⟨hr, by decide, by decide, (search_text_never_contains_d plainLib typedAdbState hr).1⟩

/-! ## Theorems: round trips in the insert sub-mode -/

theorem list_split_at {α : Type} {l : List α} {i : Int} {x : α} (h : index l i = some x) :
    ∃ A B, l = A ++ x :: B ∧ i = len A := by
  obtain ⟨h0, h1, hx⟩ := index_eq_some h
  have hlt : i.toNat < l.length := by simp only [len] at h1; omega
  refine ⟨l.take i.toNat, l.drop (i.toNat + 1), ?_, ?_⟩
  · have hx' : l[i.toNat] = x := by
      rw [List.getElem?_eq_getElem hlt] at hx
      exact Option.some.inj hx
    rw [← hx']
    simp
  · simp only [len, List.length_take]
    omega

theorem index_at {α : Type} (A B : List α) (x : α) : index (A ++ x :: B) (len A) = some x := by
  have h : index (A ++ [x] ++ B) (len A) = some x := index_insert A B x (len A) rfl
  simpa using h

theorem index_at_succ {α : Type} (A B : List α) (x y : α) :
    index (A ++ x :: y :: B) (len A + 1) = some y := by
  have h : index ((A ++ [x]) ++ [y] ++ B) (len (A ++ [x])) = some y :=
    index_insert (A ++ [x]) B y _ rfl
  rw [len_append, len_singleton] at h
  simpa using h

theorem len_at {α : Type} (A B : List α) (x : α) : len (A ++ x :: B) = len A + 1 + len B := by
  simp only [len, List.length_append, List.length_cons]
  omega

theorem toNat_len {α : Type} (A : List α) : (len A).toNat = A.length := by
  simp [len]

theorem toNat_len_succ {α : Type} (A : List α) : (len A + 1).toNat = A.length + 1 := by
  simp only [len]
  omega

theorem toNat_len_succ_succ {α : Type} (A : List α) : (len A + 1 + 1).toNat = A.length + 2 := by
  simp only [len]
  omega

theorem set_at {α : Type} (A B : List α) (x y : α) :
    (A ++ x :: B).set A.length y = A ++ y :: B := by
  induction A with
  | nil => rfl
  | cons a A ih => simp [ih]

theorem take_at_succ {α : Type} (A B : List α) (x : α) :
    (A ++ x :: B).take (A.length + 1) = A ++ [x] := by
  induction A with
  | nil => simp
  | cons a A ih => simp [ih]

theorem drop_at_succ {α : Type} (A B : List α) (x : α) :
    (A ++ x :: B).drop (A.length + 1) = B := by
  induction A with
  | nil => simp
  | cons a A ih => simp [ih]

theorem drop_at_succ_succ {α : Type} (A B : List α) (x y : α) :
    (A ++ x :: y :: B).drop (A.length + 2) = B := by
  induction A with
  | nil => simp
  | cons a A ih => simp

theorem take_at {α : Type} (A B : List α) : (A ++ B).take A.length = A := by
  simp

/-- Enter in the insert sub-mode splits the cursor line at the cursor. -/
theorem insert_enter_result (m : model) (k : KeyMsg) (A B : List Str) (line : Str)
    (hk : k.type = KeyType.KeyEnter) (hl : m.editLines = A ++ line :: B)
    (hn : m.editLineNum = len A) (h2 : 0 ≤ m.editCursor) (h3 : m.editCursor ≤ len line) :
    updateEditInsert m k =
      some ({ m with editLines := A ++ line.take m.editCursor.toNat ::
                                    line.drop m.editCursor.toNat :: B,
                     editLineNum := len A + 1, editCursor := 0 }, none) := by
  have hA := len_nonneg A
  have hB := len_nonneg B
  have hlt : len A < len (A ++ line :: B) := by rw [len_at]; omega
  unfold updateEditInsert
  simp only [hk, hl, hn, if_pos hlt, Option.bind_eq_bind, index_at, Option.some_bind,
    sliceTo_of_le line m.editCursor h2 h3, sliceFrom_of_le line m.editCursor h2 h3,
    setIndex_of_lt (A ++ line :: B) (len A) _ hA hlt, toNat_len, set_at]
  rw [sliceTo_of_le _ (len A + 1) (by omega) (by rw [len_at]; omega),
    sliceFrom_of_le _ (len A + 1) (by omega) (by rw [len_at]; omega)]
  simp only [Option.some_bind, toNat_len_succ, take_at_succ, drop_at_succ, List.append_assoc,
    List.singleton_append]

/-- Backspace in the insert sub-mode at column 0 of a line that is not the first joins
the line to the one before it. -/
theorem insert_backspace_merge (m : model) (k : KeyMsg) (A B : List Str) (p q : Str)
    (hk : k.type = KeyType.KeyBackspace) (hl : m.editLines = A ++ p :: q :: B)
    (hn : m.editLineNum = len A + 1) (hc : m.editCursor = 0) :
    updateEditInsert m k =
      some ({ m with editLines := A ++ (p ++ q) :: B, editLineNum := len A,
                     editCursor := len p }, none) := by
  have hA := len_nonneg A
  have hB := len_nonneg B
  have hlen : len (A ++ p :: q :: B) = len A + 1 + (1 + len B) := by
    simp only [len, List.length_append, List.length_cons]
    omega
  have hlen2 : ∀ x : Str, len (A ++ x :: q :: B) = len A + 1 + (1 + len B) := by
    intro x
    simp only [len, List.length_append, List.length_cons]
    omega
  have hlt : len A + 1 < len (A ++ p :: q :: B) := by rw [hlen]; omega
  have hpos : len A + 1 > 0 := by omega
  have hsub : len A + 1 - 1 = len A := by omega
  unfold updateEditInsert
  simp only [hk, hl, hn, hc, if_pos hlt, lt_self_iff_false, gt_iff_lt, if_false, if_pos hpos,
    Option.bind_eq_bind, hsub, index_at, index_at_succ, Option.some_bind,
    setIndex_of_lt (A ++ p :: q :: B) (len A) _ hA (by rw [hlen]; omega), toNat_len, set_at]
  rw [sliceTo_of_le _ (len A + 1) (by omega) (by rw [hlen2]; omega),
    sliceFrom_of_le _ (len A + 1 + 1) (by omega) (by rw [hlen2]; omega)]
  simp only [Option.some_bind, toNat_len_succ, toNat_len_succ_succ, take_at_succ,
    drop_at_succ_succ, List.append_assoc, List.singleton_append]

/-- A key whose text is one byte long, in the insert sub-mode, is inserted at the cursor. -/
theorem insert_char_result (m : model) (k : KeyMsg) (A B : List Str) (line : Str)
    (hlen : len k.String = 1) (hl : m.editLines = A ++ line :: B)
    (hn : m.editLineNum = len A) (h2 : 0 ≤ m.editCursor) (h3 : m.editCursor ≤ len line) :
    updateEditInsert m k =
      some ({ m with editLines := A ++ (line.take m.editCursor.toNat ++ k.String ++
                                    line.drop m.editCursor.toNat) :: B,
                     editCursor := m.editCursor + 1 }, none) := by
  have hA := len_nonneg A
  have hB := len_nonneg B
  have hlt : len A < len (A ++ line :: B) := by rw [len_at]; omega
  obtain ⟨t1, t2, t3, t4, t5, t6, t7, t8⟩ := one_byte_key_type k hlen
  unfold updateEditInsert
  split
  · rename_i ht; exact absurd ht t1
  · rename_i ht; exact absurd ht t2
  · rename_i ht; exact absurd ht t3
  · rename_i ht; exact absurd ht t4
  · rename_i ht; exact absurd ht t5
  · rename_i ht; exact absurd ht t6
  · rename_i ht; exact absurd ht t7
  · rename_i ht; exact absurd ht t8
  · simp only [hl, hn, hlen, hlt, and_self, if_true, Option.bind_eq_bind, index_at,
      Option.some_bind, sliceTo_of_le line m.editCursor h2 h3,
      sliceFrom_of_le line m.editCursor h2 h3,
      setIndex_of_lt (A ++ line :: B) (len A) _ hA hlt, toNat_len, set_at]

/-- Backspace in the insert sub-mode at a column above 0 removes the byte before the
cursor. -/
theorem insert_backspace_char (m : model) (k : KeyMsg) (A B : List Str) (line : Str)
    (hk : k.type = KeyType.KeyBackspace) (hl : m.editLines = A ++ line :: B)
    (hn : m.editLineNum = len A) (h2 : 0 < m.editCursor) (h3 : m.editCursor ≤ len line) :
    updateEditInsert m k =
      some ({ m with editLines := A ++ (line.take (m.editCursor - 1).toNat ++
                                    line.drop m.editCursor.toNat) :: B,
                     editCursor := m.editCursor - 1 }, none) := by
  have hA := len_nonneg A
  have hB := len_nonneg B
  have hlt : len A < len (A ++ line :: B) := by rw [len_at]; omega
  unfold updateEditInsert
  simp only [hk, hl, hn, if_pos hlt, gt_iff_lt, if_pos h2, Option.bind_eq_bind, index_at,
    Option.some_bind, sliceTo_of_le line (m.editCursor - 1) (by omega) (by omega),
    sliceFrom_of_le line m.editCursor (by omega) h3,
    setIndex_of_lt (A ++ line :: B) (len A) _ hA hlt, toNat_len, set_at]

theorem edit_fields_eq (m : model) (ls : List Str) (n c : Int) (h1 : ls = m.editLines)
    (h2 : n = m.editLineNum) (h3 : c = m.editCursor) :
    { m with editLines := ls, editLineNum := n, editCursor := c } = m := by
  subst h1 h2 h3
  rfl

/-- Splitting one line of a list of lines in two puts one separator into the joined
text, after the lines before it (each followed by a separator) and the first part of the
line. -/
theorem join_split_line (A B : List Str) (p q : Str) (sep : Byte) :
    ∃ P Q, stringsJoin (A ++ (p ++ q) :: B) [sep] = P ++ Q ∧
      stringsJoin (A ++ p :: q :: B) [sep] = P ++ [sep] ++ Q ∧
      len P = (A.map (fun l => len l + 1)).sum + len p := by
  induction A with
  | nil =>
    refine ⟨p, stringsJoin (q :: B) [sep], ?_, ?_, ?_⟩
    · cases B with
      | nil => simp [stringsJoin]
      | cons b B => simp [stringsJoin]
    · simp [stringsJoin]
    · simp
  | cons a A ih =>
    obtain ⟨P, Q, h1, h2, h3⟩ := ih
    refine ⟨a ++ [sep] ++ P, Q, ?_, ?_, ?_⟩
    · obtain ⟨y, ys, hy⟩ : ∃ y ys, A ++ (p ++ q) :: B = y :: ys := by
        cases A with
        | nil => exact ⟨_, _, rfl⟩
        | cons a' A' => exact ⟨_, _, rfl⟩
      rw [List.cons_append, hy]
      show a ++ [sep] ++ stringsJoin (y :: ys) [sep] = _
      rw [← hy, h1]
      simp
    · obtain ⟨y, ys, hy⟩ : ∃ y ys, A ++ p :: q :: B = y :: ys := by
        cases A with
        | nil => exact ⟨_, _, rfl⟩
        | cons a' A' => exact ⟨_, _, rfl⟩
      rw [List.cons_append, hy]
      show a ++ [sep] ++ stringsJoin (y :: ys) [sep] = _
      rw [← hy, h2]
      simp
    · rw [len_append, len_append, len_singleton, h3]
      simp only [List.map_cons, List.sum_cons]
      omega

/-- C33: in the insert sub-mode of Edit, for every buffer and cursor in bounds, Enter and
then Backspace return the state they started from, so the lines and the cursor line and
column are restored exactly; a key whose text is one byte long and then Backspace do the
same.  After Enter alone the lines joined with newlines are the original joined text with
one newline inserted at the cursor's offset, which is the lengths of the lines before the
cursor line, each plus one for its newline, plus the cursor column. -/
theorem insert_round_trips (L : Lib) (m : model) (hmode : m.mode = viewMode.modeEdit)
    (hcl : m.commandMode = false) (hins : m.insertMode = true) (hinv : EditInv m) :
    run L m [specialKey KeyType.KeyEnter, specialKey KeyType.KeyBackspace] = some (m, []) ∧
    (∀ k : KeyMsg, len k.String = 1 →
      run L m [Msg.KeyMsg k, specialKey KeyType.KeyBackspace] = some (m, [])) ∧
    ∃ m1, Update L m (specialKey KeyType.KeyEnter) = some (m1, none) ∧
      stringsJoin m1.editLines (str "\n") =
        (stringsJoin m.editLines (str "\n")).take
            (((m.editLines.take m.editLineNum.toNat).map (fun l => len l + 1)).sum +
              m.editCursor).toNat ++
          str "\n" ++
          (stringsJoin m.editLines (str "\n")).drop
            (((m.editLines.take m.editLineNum.toNat).map (fun l => len l + 1)).sum +
              m.editCursor).toNat := by
  obtain ⟨-, h0, h1, h2, line, hx, h3⟩ := hinv
  obtain ⟨A, B, hl, hn⟩ := list_split_at hx
  have hA := len_nonneg A
  have hte : line.take m.editCursor.toNat ++ line.drop m.editCursor.toNat = line :=
    List.take_append_drop _ _
  have hlt : len (line.take m.editCursor.toNat) = m.editCursor :=
    len_take_toNat line m.editCursor h2 h3
  have hE := (update_key_edit_insert L m (specialKeyMsg KeyType.KeyEnter) hmode hcl hins).trans
    (insert_enter_result m _ A B line rfl hl hn h2 h3)
  refine ⟨?_, fun k hlen => ?_, _, hE, ?_⟩
  · refine run_cons_none hE (run_cons_none ?_ (run_nil L m))
    refine (update_key_edit_insert L _ _ (by exact hmode) (by exact hcl)
      (by exact hins)).trans ?_
    refine (insert_backspace_merge _ _ A B _ _ rfl rfl rfl rfl).trans ?_
    refine congrArg (fun x => some (x, none)) ?_
    exact edit_fields_eq m _ _ _ (by rw [hte, hl]) hn.symm hlt
  · have hC := (update_key_edit_insert L m k hmode hcl hins).trans
      (insert_char_result m k A B line hlen hl hn h2 h3)
    refine run_cons_none hC (run_cons_none ?_ (run_nil L m))
    refine (update_key_edit_insert L _ _ (by exact hmode) (by exact hcl)
      (by exact hins)).trans ?_
    have hlen' : m.editCursor + 1 ≤ len (line.take m.editCursor.toNat ++ k.String ++
        line.drop m.editCursor.toNat) := by
      rw [len_append, len_append, hlt, hlen]
      have := len_nonneg (line.drop m.editCursor.toNat)
      omega
    refine (insert_backspace_char _ _ A B _ rfl rfl (by exact hn)
      (by show 0 < m.editCursor + 1; omega) (by exact hlen')).trans ?_
    refine congrArg (fun x => some (x, none)) ?_
    have hk1 : k.String.length = 1 := by
      simp only [len] at hlen
      omega
    have hc1 : (m.editCursor + 1 - 1).toNat = (line.take m.editCursor.toNat).length := by
      have := hlt
      simp only [len] at this
      omega
    have hc2 : (m.editCursor + 1).toNat =
        (line.take m.editCursor.toNat ++ k.String).length := by
      have := hlt
      simp only [len] at this
      rw [List.length_append, hk1]
      omega
    refine edit_fields_eq m _ _ _ ?_ rfl (by show m.editCursor + 1 - 1 = m.editCursor; omega)
    show A ++ (List.take (m.editCursor + 1 - 1).toNat
          (line.take m.editCursor.toNat ++ k.String ++ line.drop m.editCursor.toNat) ++
        List.drop (m.editCursor + 1).toNat
          (line.take m.editCursor.toNat ++ k.String ++ line.drop m.editCursor.toNat)) :: B =
      m.editLines
    rw [hc1, hc2, List.append_assoc, List.take_left', ← List.append_assoc,
      List.drop_left', hte, hl]
    · rfl
    · rfl
  · obtain ⟨P, Q, e1, e2, e3⟩ :=
      join_split_line A B (line.take m.editCursor.toNat) (line.drop m.editCursor.toNat) newline
    rw [hte] at e1
    have hAt : m.editLines.take m.editLineNum.toNat = A := by
      rw [hl, hn, toNat_len]
      exact take_at A _
    have hoff : (((m.editLines.take m.editLineNum.toNat).map (fun l => len l + 1)).sum +
        m.editCursor).toNat = P.length := by
      rw [hAt, ← hlt, ← e3]
      simp [len]
    rw [hoff, str_newline]
    show stringsJoin (A ++ line.take m.editCursor.toNat :: line.drop m.editCursor.toNat :: B)
        [newline] = _
    rw [hl, e1, e2, List.take_left', List.drop_left']
    · rfl
    · rfl

/-- Witness for `insert_round_trips`: the insert sub-mode on the line `v`. -/
theorem insert_round_trips_witness :
    insertState.mode = viewMode.modeEdit ∧ insertState.commandMode = false ∧
    insertState.insertMode = true ∧ EditInv insertState ∧
    run plainLib insertState [specialKey KeyType.KeyEnter, specialKey KeyType.KeyBackspace] =
      some (insertState, []) :=
  have hinv : EditInv insertState :=
    editInv_of_index insertState (str "v") (by decide) (by decide) (by decide)
  ⟨by decide, by decide, by decide, hinv,
    (insert_round_trips plainLib insertState (by decide) (by decide) (by decide) hinv).1⟩

/-! ## Theorems: no index or slice out of range -/

theorem ite_eq_iff_or {α : Type} {c : Prop} [Decidable c] {x y r : Option α} :
    ((if c then x else y) = r) = ((c ∧ x = r) ∨ (¬ c ∧ y = r)) := by
  by_cases hc : c <;> simp [hc]

theorem bind_eq_none_iff_or {α β : Type} {x : Option α} {f : α → Option β} :
    ((x >>= f) = none) = (x = none ∨ ∃ a, x = some a ∧ f a = none) := by
  cases x <;> simp

theorem index_eq_none {α : Type} {s : List α} {i : Int} (h : index s i = none) :
    i < 0 ∨ len s ≤ i := by
  by_cases hb : 0 ≤ i ∧ i < len s
  · obtain ⟨x, hx, -⟩ := index_of_lt s i hb.1 hb.2
    rw [hx] at h
    cases h
  · omega

theorem sliceTo_eq_none {α : Type} {s : List α} {j : Int} (h : sliceTo s j = none) :
    j < 0 ∨ len s < j := by
  by_cases hb : 0 ≤ j ∧ j ≤ len s
  · rw [sliceTo_of_le s j hb.1 hb.2] at h
    cases h
  · omega

theorem sliceFrom_eq_none {α : Type} {s : List α} {j : Int} (h : sliceFrom s j = none) :
    j < 0 ∨ len s < j := by
  by_cases hb : 0 ≤ j ∧ j ≤ len s
  · rw [sliceFrom_of_le s j hb.1 hb.2] at h
    cases h
  · omega

theorem colBeforeLineEnd_eq_none {lines : List Str} {n col : Int}
    (h : colBeforeLineEnd lines n col = none) : n < 0 := by
  unfold colBeforeLineEnd at h
  split at h
  · rename_i hlt
    cases hx : index lines n with
    | none =>
      rcases index_eq_none hx with h1 | h1
      · exact h1
      · omega
    | some x =>
      rw [hx] at h
      cases h
  · cases h

theorem deleteSelectedKeyCmd_eq_none {m : model} (h : deleteSelectedKeyCmd m = none) :
    m.selectedItem < 0 := by
  unfold deleteSelectedKeyCmd at h
  split at h
  · cases h
  · rename_i hc
    cases hx : index m.results m.selectedItem with
    | none =>
      rcases index_eq_none hx with h1 | h1
      · exact h1
      · omega
    | some x =>
      rw [hx] at h
      cases h

/-- In Search mode no key takes a failure branch when the search cursor is inside the
search text and the highlight is not negative. -/
theorem updateSearch_ne_none (L : Lib) (m : model) (k : KeyMsg)
    (hc0 : 0 ≤ m.cursor) (hc1 : m.cursor ≤ len m.input) (hs : 0 ≤ m.selectedItem) :
    updateSearch L m k ≠ none := by
  intro h
  unfold updateSearch at h
  split at h
  all_goals
    repeat' first
      | (rw [ite_eq_iff_or] at h; rcases h with ⟨hc, h⟩ | ⟨hc, h⟩)
      | (rw [bind_eq_none_iff_or] at h; rcases h with h | ⟨_, -, h⟩)
      | (cases h)
      | (have h' := sliceTo_eq_none h; simp only at *; omega)
      | (have h' := sliceFrom_eq_none h; simp only at *; omega)
      | (have h' := index_eq_none h; simp only at *; omega)
      | (have h' := deleteSelectedKeyCmd_eq_none h; simp only at *; omega)

theorem executeSelectedCommand_ne_none (m : model) (hs : 0 ≤ m.selectedCommand) :
    executeSelectedCommand m ≠ none := by
  intro h
  unfold executeSelectedCommand at h
  repeat' first
    | (rw [ite_eq_iff_or] at h; rcases h with ⟨hc, h⟩ | ⟨hc, h⟩)
    | (rw [bind_eq_none_iff_or] at h; rcases h with h | ⟨_, -, h⟩)
    | (cases h)
    | (have h' := index_eq_none h; simp only at *; omega)

/-- In the Palette no key takes a failure branch when the highlight is not negative. -/
theorem updateMain_ne_none (m : model) (k : KeyMsg) (hs : 0 ≤ m.selectedCommand) :
    updateMain m k ≠ none := by
  intro h
  unfold updateMain at h
  split at h
  case h_3 => exact executeSelectedCommand_ne_none m hs h
  all_goals
    repeat' first
      | (rw [ite_eq_iff_or] at h; rcases h with ⟨hc, h⟩ | ⟨hc, h⟩)
      | (rw [bind_eq_none_iff_or] at h; rcases h with h | ⟨_, -, h⟩)
      | (cases h)
      | (have h' := sliceTo_eq_none h; simp only at *; omega)

/-- In Detail mode no key takes a failure branch when the cursor line is not negative and
not beyond the end of the lines. -/
theorem updateDetail_ne_none (m : model) (k : KeyMsg) (h0 : 0 ≤ m.detailCursorLine)
    (h1 : m.detailCursorLine ≤ len m.detailLines) : updateDetail m k ≠ none := by
  intro h
  unfold updateDetail at h
  split at h
  all_goals
    repeat' first
      | (rw [ite_eq_iff_or] at h; rcases h with ⟨hc, h⟩ | ⟨hc, h⟩)
      | (rw [bind_eq_none_iff_or] at h; rcases h with h | ⟨_, -, h⟩)
      | (cases h)
      | (have h' := index_eq_none h; simp only at *; omega)
      | (have h' := colBeforeLineEnd_eq_none h; simp only at *; omega)

/-- In Add mode no key takes a failure branch when the cursor is inside the active
field. -/
theorem updateAdd_ne_none (L : Lib) (m : model) (k : KeyMsg) (hinv : AddInv m) :
    updateAdd L m k ≠ none := by
  obtain ⟨h0, h1⟩ := hinv
  intro h
  unfold updateAdd at h
  split at h
  all_goals
    repeat' first
      | (rw [ite_eq_iff_or] at h; rcases h with ⟨hc, h⟩ | ⟨hc, h⟩)
      | (rw [bind_eq_none_iff_or] at h; rcases h with h | ⟨_, -, h⟩)
      | (cases h)
      | (have h' := sliceTo_eq_none h; simp only at *; omega)
      | (have h' := sliceFrom_eq_none h; simp only at *; omega)

/-- No step of `Update` takes a failure branch from a state with the bounds `SafeInv`. -/
theorem update_ne_none (L : Lib) (m : model) (msg : Msg) (hinv : SafeInv m) :
    Update L m msg ≠ none := by
  obtain ⟨⟨hc0, hc1⟩, hadd, ⟨hres, hpal⟩, hdet, hedit⟩ := hinv
  have hsel : 0 ≤ m.selectedItem := by
    obtain ⟨hz, hp, -⟩ := hres
    have := len_nonneg m.results
    by_cases hl : len m.results = 0
    · rw [hz hl]
    · exact (hp (by omega)).1
  have hcmd : 0 ≤ m.selectedCommand := by
    obtain ⟨hz, hp, -⟩ := hpal
    have := len_nonneg m.filteredCommands
    by_cases hl : len m.filteredCommands = 0
    · rw [hz hl]
    · exact (hp (by omega)).1
  have hd : 0 ≤ m.detailCursorLine ∧ m.detailCursorLine ≤ len m.detailLines := by
    rcases hdet with ⟨d0, d1, -⟩ | ⟨-, d0, -⟩
    · omega
    · have := len_nonneg m.detailLines
      omega
  cases msg with
  | KeyMsg k =>
    unfold Update
    dsimp only
    split
    · exact updateMain_ne_none m k hcmd
    · exact updateSearch_ne_none L m k hc0 hc1 hsel
    · exact updateDetail_ne_none m k hd.1 hd.2
    · rename_i hmode
      obtain ⟨m', c, h, -⟩ := updateEdit_ok m k (hedit hmode)
      rw [h]
      exact Option.some_ne_none _
    · exact updateAdd_ne_none L m k hadd
  | searchResultMsg results err =>
    unfold Update
    dsimp only
    split <;> exact Option.some_ne_none _
  | deleteSuccessMsg key => exact Option.some_ne_none _
  | saveSuccessMsg key value exitToDetail =>
    unfold Update
    dsimp only
    split <;> exact Option.some_ne_none _
  | saveErrorMsg key err => exact Option.some_ne_none _
  | addSuccessMsg key value => exact Option.some_ne_none _
  | otherMsg => exact Option.some_ne_none _

theorem sliceTo_eq_some_len {α : Type} {s a : List α} {j : Int} (h : sliceTo s j = some a) :
    len a = j ∧ 0 ≤ j ∧ j ≤ len s := by
  unfold sliceTo at h
  split at h
  · rename_i hb
    cases h
    exact ⟨len_take_toNat s j hb.1 hb.2, hb.1, hb.2⟩
  · cases h

theorem sliceFrom_eq_some_len {α : Type} {s a : List α} {j : Int} (h : sliceFrom s j = some a) :
    len a = len s - j ∧ 0 ≤ j ∧ j ≤ len s := by
  unfold sliceFrom at h
  split at h
  · rename_i hb
    cases h
    exact ⟨len_drop_toNat s j hb.1 hb.2, hb.1, hb.2⟩
  · cases h

theorem addInv_set (m : model) (x : Str) (c : Int) (h0 : 0 ≤ c) (h1 : c ≤ len x) :
    AddInv { setCurrentInput m x with addCursor := c } := by
  unfold AddInv getCurrentInput setCurrentInput
  by_cases hs : m.addStep = 0
  · simp only [hs, if_true]
    exact ⟨h0, h1⟩
  · simp only [hs, if_false]
    exact ⟨h0, h1⟩

theorem addInv_reset (m : model) (h1 : m.addKey = []) (h2 : m.addStep = 0)
    (h3 : m.addCursor = 0) : AddInv m := by
  unfold AddInv getCurrentInput
  rw [h3, if_pos h2, h1]
  exact ⟨le_refl _, le_refl _⟩

theorem addInv_step1 (m : model) : AddInv { m with addStep := 1, addCursor := len m.addValue } := by
  unfold AddInv getCurrentInput
  exact ⟨len_nonneg _, le_refl _⟩

theorem addInv_step0 (m : model) : AddInv { m with addStep := 0, addCursor := len m.addKey } := by
  unfold AddInv getCurrentInput
  exact ⟨len_nonneg _, le_refl _⟩

theorem addInv_cursor (m : model) (c : Int) (h0 : 0 ≤ c) (h1 : c ≤ len (getCurrentInput m)) :
    AddInv { m with addCursor := c } :=
  ⟨h0, h1⟩

/-- The keys of Add mode keep the cursor inside the active field. -/
theorem updateAdd_addInv (L : Lib) (m : model) (k : KeyMsg) (m' : model) (c : Option Cmd)
    (hinv : AddInv m) (h : updateAdd L m k = some (m', c)) : AddInv m' := by
  have hi := hinv
  obtain ⟨h0, h1⟩ := hi
  have hnl : len (str "\n") = 1 := by decide
  unfold updateAdd at h
  split at h
  case h_1 =>
    rw [some_pair_iff] at h
    obtain ⟨rfl, -⟩ := h
    exact addInv_reset _ rfl rfl rfl
  case h_3 =>
    rw [ite_eq_some_iff] at h
    rcases h with ⟨-, h⟩ | ⟨-, h⟩
    · rw [some_pair_iff] at h
      obtain ⟨rfl, -⟩ := h
      exact addInv_step1 m
    · rw [ite_eq_some_iff] at h
      rcases h with ⟨-, h⟩ | ⟨-, h⟩
      · rw [some_pair_iff] at h
        obtain ⟨rfl, -⟩ := h
        exact addInv_step0 m
      · rw [some_pair_iff] at h
        obtain ⟨rfl, -⟩ := h
        exact hinv
  case h_4 =>
    rw [ite_eq_some_iff] at h
    rcases h with ⟨-, h⟩ | ⟨-, h⟩
    · rw [ite_eq_some_iff] at h
      rcases h with ⟨-, h⟩ | ⟨-, h⟩
      · rw [some_pair_iff] at h
        obtain ⟨rfl, -⟩ := h
        exact addInv_step1 m
      · rw [some_pair_iff] at h
        obtain ⟨rfl, -⟩ := h
        exact hinv
    · rw [bind_eq_some_iff] at h
      obtain ⟨a, ha, h⟩ := h
      rw [bind_eq_some_iff] at h
      obtain ⟨b, hb, h⟩ := h
      rw [some_pair_iff] at h
      obtain ⟨rfl, -⟩ := h
      obtain ⟨ea, -, -⟩ := sliceTo_eq_some_len ha
      obtain ⟨eb, -, -⟩ := sliceFrom_eq_some_len hb
      refine addInv_set m _ _ ?_ ?_
      · show 0 ≤ (setCurrentInput m (a ++ str "\n" ++ b)).addCursor + 1
        have : (setCurrentInput m (a ++ str "\n" ++ b)).addCursor = m.addCursor := by
          unfold setCurrentInput
          split <;> rfl
        omega
      · show (setCurrentInput m (a ++ str "\n" ++ b)).addCursor + 1 ≤ _
        have : (setCurrentInput m (a ++ str "\n" ++ b)).addCursor = m.addCursor := by
          unfold setCurrentInput
          split <;> rfl
        rw [len_append, len_append, hnl]
        omega
  case h_6 =>
    rw [ite_eq_some_iff] at h
    rcases h with ⟨hc, h⟩ | ⟨-, h⟩
    · rw [some_pair_iff] at h
      obtain ⟨rfl, -⟩ := h
      exact addInv_cursor m _ (by omega) (by omega)
    · rw [some_pair_iff] at h
      obtain ⟨rfl, -⟩ := h
      exact hinv
  case h_7 =>
    rw [ite_eq_some_iff] at h
    rcases h with ⟨hc, h⟩ | ⟨-, h⟩
    · rw [some_pair_iff] at h
      obtain ⟨rfl, -⟩ := h
      exact addInv_cursor m _ (by omega) (by omega)
    · rw [some_pair_iff] at h
      obtain ⟨rfl, -⟩ := h
      exact hinv
  case h_8 =>
    rw [ite_eq_some_iff] at h
    rcases h with ⟨hc, h⟩ | ⟨-, h⟩
    · rw [bind_eq_some_iff] at h
      obtain ⟨a, ha, h⟩ := h
      rw [bind_eq_some_iff] at h
      obtain ⟨b, hb, h⟩ := h
      rw [some_pair_iff] at h
      obtain ⟨rfl, -⟩ := h
      obtain ⟨ea, -, -⟩ := sliceTo_eq_some_len ha
      obtain ⟨eb, -, -⟩ := sliceFrom_eq_some_len hb
      refine addInv_set m _ _ ?_ ?_
      · show 0 ≤ (setCurrentInput m (a ++ b)).addCursor - 1
        have : (setCurrentInput m (a ++ b)).addCursor = m.addCursor := by
          unfold setCurrentInput
          split <;> rfl
        omega
      · show (setCurrentInput m (a ++ b)).addCursor - 1 ≤ _
        have : (setCurrentInput m (a ++ b)).addCursor = m.addCursor := by
          unfold setCurrentInput
          split <;> rfl
        rw [len_append]
        omega
    · rw [some_pair_iff] at h
      obtain ⟨rfl, -⟩ := h
      exact hinv
  case h_9 =>
    rw [ite_eq_some_iff] at h
    rcases h with ⟨hc, h⟩ | ⟨-, h⟩
    · rw [bind_eq_some_iff] at h
      obtain ⟨a, ha, h⟩ := h
      rw [bind_eq_some_iff] at h
      obtain ⟨b, hb, h⟩ := h
      rw [some_pair_iff] at h
      obtain ⟨rfl, -⟩ := h
      obtain ⟨ea, -, -⟩ := sliceTo_eq_some_len ha
      obtain ⟨eb, -, -⟩ := sliceFrom_eq_some_len hb
      refine addInv_set m _ _ ?_ ?_
      · show 0 ≤ (setCurrentInput m (a ++ k.String ++ b)).addCursor + 1
        have : (setCurrentInput m (a ++ k.String ++ b)).addCursor = m.addCursor := by
          unfold setCurrentInput
          split <;> rfl
        omega
      · show (setCurrentInput m (a ++ k.String ++ b)).addCursor + 1 ≤ _
        have : (setCurrentInput m (a ++ k.String ++ b)).addCursor = m.addCursor := by
          unfold setCurrentInput
          split <;> rfl
        rw [len_append, len_append, hc]
        omega
    · rw [some_pair_iff] at h
      obtain ⟨rfl, -⟩ := h
      exact hinv
  all_goals
    repeat' first
      | (rw [some_pair_iff] at h; obtain ⟨rfl, -⟩ := h; exact hinv)
      | (rw [ite_eq_some_iff] at h; rcases h with ⟨-, h⟩ | ⟨-, h⟩)

theorem executeSelectedCommand_addInv (m : model) (m' : model) (c : Option Cmd)
    (hinv : AddInv m) (h : executeSelectedCommand m = some (m', c)) : AddInv m' := by
  unfold executeSelectedCommand at h
  repeat' first
    | (rw [some_pair_iff] at h; obtain ⟨rfl, -⟩ := h;
        first | exact hinv | exact addInv_reset _ rfl rfl rfl)
    | (rw [ite_eq_some_iff] at h; rcases h with ⟨-, h⟩ | ⟨-, h⟩)
    | (rw [bind_eq_some_iff] at h; obtain ⟨_, -, h⟩ := h)

theorem updateMain_addInv (m : model) (k : KeyMsg) (m' : model) (c : Option Cmd)
    (hinv : AddInv m) (h : updateMain m k = some (m', c)) : AddInv m' := by
  unfold updateMain at h
  split at h
  case h_3 => exact executeSelectedCommand_addInv m m' c hinv h
  all_goals
    repeat' first
      | (rw [some_pair_iff] at h; obtain ⟨rfl, -⟩ := h; exact hinv)
      | (rw [ite_eq_some_iff] at h; rcases h with ⟨-, h⟩ | ⟨-, h⟩)
      | (rw [bind_eq_some_iff] at h; obtain ⟨_, -, h⟩ := h)

theorem update_keeps_addInv (L : Lib) (m : model) (msg : Msg) (m' : model) (c : Option Cmd)
    (hinv : AddInv m) (h : Update L m msg = some (m', c)) : AddInv m' := by
  cases msg with
  | KeyMsg k =>
    unfold Update at h
    dsimp only at h
    split at h
    · exact updateMain_addInv m k m' c hinv h
    · have hf := updateSearch_frame L m k m' c h
      rw [hf]
      exact hinv
    · have hf := updateDetail_frame m k m' c h
      rw [hf]
      exact hinv
    · unfold updateEdit at h
      split at h
      · have hf := updateEditCommandLine_frame m k m' c h
        rw [hf]
        exact hinv
      · split at h
        · have hf := updateEditCommand_frame m k m' c h
          rw [hf]
          exact hinv
        · have hf := updateEditInsert_frame m k m' c h
          rw [hf]
          exact hinv
    · exact updateAdd_addInv L m k m' c hinv h
  | searchResultMsg results err =>
    unfold Update at h
    dsimp only at h
    split at h
    all_goals (simp only [Option.some.injEq, Prod.mk.injEq] at h)
    all_goals (obtain ⟨rfl, -⟩ := h; exact hinv)
  | deleteSuccessMsg key =>
    unfold Update at h
    simp only [Option.some.injEq, Prod.mk.injEq] at h
    obtain ⟨rfl, -⟩ := h
    exact hinv
  | saveSuccessMsg key value exitToDetail =>
    unfold Update at h
    dsimp only at h
    split at h
    all_goals (simp only [Option.some.injEq, Prod.mk.injEq] at h)
    all_goals (obtain ⟨rfl, -⟩ := h; exact hinv)
  | saveErrorMsg key err =>
    unfold Update at h
    simp only [Option.some.injEq, Prod.mk.injEq] at h
    obtain ⟨rfl, -⟩ := h
    exact hinv
  | addSuccessMsg key value =>
    unfold Update at h
    simp only [Option.some.injEq, Prod.mk.injEq] at h
    obtain ⟨rfl, -⟩ := h
    exact addInv_reset _ rfl rfl rfl
  | otherMsg =>
    unfold Update at h
    simp only [Option.some.injEq, Prod.mk.injEq] at h
    obtain ⟨rfl, -⟩ := h
    exact hinv

theorem detailOk_congr (m m' : model) (h1 : m'.detailLines = m.detailLines)
    (h2 : m'.detailCursorLine = m.detailCursorLine)
    (h3 : m'.detailCursorCol = m.detailCursorCol) (h : DetailOk m) : DetailOk m' := by
  unfold DetailOk DetailInv at h ⊢
  rw [h1, h2, h3]
  exact h

/-- A key of Detail mode other than `h`, `l`, `j`, `k` in command sub-mode leaves the
Detail lines and cursor alone. -/
theorem updateDetail_static (m : model) (k : KeyMsg) (m' : model) (c : Option Cmd)
    (h : updateDetail m k = some (m', c))
    (hmove : ¬ (k.type = KeyType.KeyRunes ∧ m.detailCommandMode = true ∧
      (k.Runes = str "h" ∨ k.Runes = str "l" ∨ k.Runes = str "j" ∨ k.Runes = str "k"))) :
    m'.detailLines = m.detailLines ∧ m'.detailCursorLine = m.detailCursorLine ∧
      m'.detailCursorCol = m.detailCursorCol := by
  unfold updateDetail at h
  split at h
  case h_3 =>
    rename_i ht
    rw [ite_eq_some_iff] at h
    rcases h with ⟨hcm, h⟩ | ⟨-, h⟩
    · have hm : ¬ (k.Runes = str "h" ∨ k.Runes = str "l" ∨ k.Runes = str "j" ∨
          k.Runes = str "k") := fun hr => hmove ⟨ht, hcm, hr⟩
      rw [ite_eq_some_iff] at h
      rcases h with ⟨-, h⟩ | ⟨-, h⟩
      · rw [some_pair_iff] at h
        obtain ⟨rfl, -⟩ := h
        exact ⟨rfl, rfl, rfl⟩
      rw [ite_eq_some_iff] at h
      rcases h with ⟨-, h⟩ | ⟨-, h⟩
      · repeat' first
          | (rw [some_pair_iff] at h; obtain ⟨rfl, -⟩ := h; exact ⟨rfl, rfl, rfl⟩)
          | (rw [ite_eq_some_iff] at h; rcases h with ⟨-, h⟩ | ⟨-, h⟩)
      rw [ite_eq_some_iff] at h
      rcases h with ⟨-, h⟩ | ⟨-, h⟩
      · rw [some_pair_iff] at h
        obtain ⟨rfl, -⟩ := h
        exact ⟨rfl, rfl, rfl⟩
      rw [ite_eq_some_iff] at h
      rcases h with ⟨hr, h⟩ | ⟨-, h⟩
      · exact absurd (Or.inr (Or.inr (Or.inl hr))) hm
      rw [ite_eq_some_iff] at h
      rcases h with ⟨hr, h⟩ | ⟨-, h⟩
      · exact absurd (Or.inr (Or.inr (Or.inr hr))) hm
      rw [ite_eq_some_iff] at h
      rcases h with ⟨hr, h⟩ | ⟨-, h⟩
      · exact absurd (Or.inl hr) hm
      rw [ite_eq_some_iff] at h
      rcases h with ⟨hr, h⟩ | ⟨-, h⟩
      · exact absurd (Or.inr (Or.inl hr)) hm
      rw [some_pair_iff] at h
      obtain ⟨rfl, -⟩ := h
      exact ⟨rfl, rfl, rfl⟩
    · repeat' first
        | (rw [some_pair_iff] at h; obtain ⟨rfl, -⟩ := h; exact ⟨rfl, rfl, rfl⟩)
        | (rw [ite_eq_some_iff] at h; rcases h with ⟨-, h⟩ | ⟨-, h⟩)
  all_goals
    rw [some_pair_iff] at h
    obtain ⟨rfl, -⟩ := h
    exact ⟨rfl, rfl, rfl⟩

/-- With no Detail lines and the cursor at line 0, column 0, the keys `h`, `l`, `j`, `k`
leave the cursor where it is. -/
theorem updateDetail_empty (m : model) (k : KeyMsg) (m' : model) (c : Option Cmd)
    (h : updateDetail m k = some (m', c)) (hk : k.type = KeyType.KeyRunes)
    (hcm : m.detailCommandMode = true)
    (hr : k.Runes = str "h" ∨ k.Runes = str "l" ∨ k.Runes = str "j" ∨ k.Runes = str "k")
    (h1 : m.detailLines = []) (h2 : m.detailCursorLine = 0) (h3 : m.detailCursorCol = 0) :
    m'.detailLines = m.detailLines ∧ m'.detailCursorLine = m.detailCursorLine ∧
      m'.detailCursorCol = m.detailCursorCol := by
  have hlen : len ([] : List Str) = 0 := rfl
  rcases hr with hr | hr | hr | hr
  · rw [updateDetail_h m k hk hr hcm, h2, h3] at h
    simp only [gt_iff_lt, lt_self_iff_false, if_false, Option.some.injEq, Prod.mk.injEq] at h
    obtain ⟨rfl, -⟩ := h
    exact ⟨rfl, h2.symm, h3.symm⟩
  · rw [updateDetail_l m k hk hr hcm, h1, h2, h3] at h
    have hcb : colBeforeLineEnd ([] : List Str) 0 0 = some false := by decide
    rw [hcb] at h
    simp only [Option.some_bind, Bool.false_eq_true, if_false, hlen, zero_sub,
      Int.reduceNeg, Option.some.injEq, Prod.mk.injEq] at h
    rw [if_neg (by decide)] at h
    simp only [Option.some.injEq, Prod.mk.injEq] at h
    obtain ⟨rfl, -⟩ := h
    exact ⟨h1.symm, h2.symm, h3.symm⟩
  · rw [updateDetail_j m k hk hr hcm, h1, h2] at h
    rw [if_neg (by decide)] at h
    simp only [Option.some.injEq, Prod.mk.injEq] at h
    obtain ⟨rfl, -⟩ := h
    exact ⟨h1.symm, h2.symm, rfl⟩
  · rw [updateDetail_k m k hk hr hcm, h2] at h
    rw [if_neg (by decide)] at h
    simp only [Option.some.injEq, Prod.mk.injEq] at h
    obtain ⟨rfl, -⟩ := h
    exact ⟨rfl, h2.symm, rfl⟩

/-- The keys of Detail mode keep the Detail cursor in bounds. -/
theorem updateDetail_detailOk (m : model) (k : KeyMsg) (m' : model) (c : Option Cmd)
    (hinv : DetailOk m) (h : updateDetail m k = some (m', c)) : DetailOk m' := by
  by_cases hmove : k.type = KeyType.KeyRunes ∧ m.detailCommandMode = true ∧
      (k.Runes = str "h" ∨ k.Runes = str "l" ∨ k.Runes = str "j" ∨ k.Runes = str "k")
  · obtain ⟨hk, hcm, hr⟩ := hmove
    rcases hinv with hd | ⟨h1, h2, h3⟩
    · left
      rcases hr with hr | hr | hr | hr
      · obtain ⟨m1, e, -, hi, -⟩ := detail_h_moves m k hk hr hcm hd
        rw [e] at h
        simp only [Option.some.injEq, Prod.mk.injEq] at h
        exact h.1 ▸ hi
      · obtain ⟨m1, _, e, -, -, hi, -⟩ := detail_l_moves m k hk hr hcm hd
        rw [e] at h
        simp only [Option.some.injEq, Prod.mk.injEq] at h
        exact h.1 ▸ hi
      · obtain ⟨m1, e, -, hi, -⟩ := detail_j_moves m k hk hr hcm hd
        rw [e] at h
        simp only [Option.some.injEq, Prod.mk.injEq] at h
        exact h.1 ▸ hi
      · obtain ⟨m1, e, -, hi, -⟩ := detail_k_moves m k hk hr hcm hd
        rw [e] at h
        simp only [Option.some.injEq, Prod.mk.injEq] at h
        exact h.1 ▸ hi
    · obtain ⟨e1, e2, e3⟩ := updateDetail_empty m k m' c h hk hcm hr h1 h2 h3
      exact detailOk_congr m m' e1 e2 e3 (Or.inr ⟨h1, h2, h3⟩)
  · obtain ⟨e1, e2, e3⟩ := updateDetail_static m k m' c h hmove
    exact detailOk_congr m m' e1 e2 e3 hinv

/-- A Detail view opened on a text has its cursor in bounds. -/
theorem detailInv_of_fresh (m : model) (s : Str)
    (h1 : m.detailLines = stringsSplit s newline) (h2 : m.detailCursorLine = 0)
    (h3 : m.detailCursorCol = 0) : DetailInv m := by
  have hne : m.detailLines ≠ [] := h1 ▸ stringsSplit_ne_nil s newline
  have hpos := len_pos_of_ne_nil hne
  obtain ⟨x, hx, -⟩ := index_of_lt m.detailLines m.detailCursorLine (by omega) (by omega)
  exact detailInv_of_index m x hx (by omega) (by rw [h3]; exact len_nonneg x)

/-- The keys of Search mode keep the Detail cursor in bounds; Enter opens a fresh view. -/
theorem updateSearch_detailOk (L : Lib) (m : model) (k : KeyMsg) (m' : model)
    (c : Option Cmd) (hinv : DetailOk m) (h : updateSearch L m k = some (m', c)) :
    DetailOk m' := by
  unfold updateSearch at h
  split at h
  case h_3 =>
    rw [ite_eq_some_iff] at h
    rcases h with ⟨-, h⟩ | ⟨-, h⟩
    · rw [bind_eq_some_iff] at h
      obtain ⟨r, -, h⟩ := h
      rw [some_pair_iff] at h
      obtain ⟨rfl, -⟩ := h
      exact Or.inl (detailInv_of_fresh _ _ rfl rfl rfl)
    · rw [some_pair_iff] at h
      obtain ⟨rfl, -⟩ := h
      exact hinv
  all_goals
    repeat' first
      | (rw [some_pair_iff] at h; obtain ⟨rfl, -⟩ := h; exact hinv)
      | (rw [ite_eq_some_iff] at h; rcases h with ⟨-, h⟩ | ⟨-, h⟩)
      | (rw [bind_eq_some_iff] at h; obtain ⟨_, -, h⟩ := h)

theorem update_keeps_detailOk (L : Lib) (m : model) (msg : Msg) (m' : model)
    (c : Option Cmd) (hinv : DetailOk m) (h : Update L m msg = some (m', c)) :
    DetailOk m' := by
  cases msg with
  | KeyMsg k =>
    unfold Update at h
    dsimp only at h
    split at h
    · have hf := updateMain_frame m k m' c h
      rw [hf]
      exact hinv
    · exact updateSearch_detailOk L m k m' c hinv h
    · exact updateDetail_detailOk m k m' c hinv h
    · unfold updateEdit at h
      split at h
      · have hf := updateEditCommandLine_frame m k m' c h
        rw [hf]
        exact hinv
      · split at h
        · have hf := updateEditCommand_frame m k m' c h
          rw [hf]
          exact hinv
        · have hf := updateEditInsert_frame m k m' c h
          rw [hf]
          exact hinv
    · have hf := updateAdd_frame L m k m' c h
      rw [hf]
      exact hinv
  | searchResultMsg results err =>
    unfold Update at h
    dsimp only at h
    split at h
    all_goals (simp only [Option.some.injEq, Prod.mk.injEq] at h)
    all_goals (obtain ⟨rfl, -⟩ := h; exact hinv)
  | deleteSuccessMsg key =>
    unfold Update at h
    simp only [Option.some.injEq, Prod.mk.injEq] at h
    obtain ⟨rfl, -⟩ := h
    exact hinv
  | saveSuccessMsg key value exitToDetail =>
    unfold Update at h
    dsimp only at h
    split at h
    all_goals (simp only [Option.some.injEq, Prod.mk.injEq] at h)
    all_goals (obtain ⟨rfl, -⟩ := h; exact hinv)
  | saveErrorMsg key err =>
    unfold Update at h
    simp only [Option.some.injEq, Prod.mk.injEq] at h
    obtain ⟨rfl, -⟩ := h
    exact hinv
  | addSuccessMsg key value =>
    unfold Update at h
    simp only [Option.some.injEq, Prod.mk.injEq] at h
    obtain ⟨rfl, -⟩ := h
    exact hinv
  | otherMsg =>
    unfold Update at h
    simp only [Option.some.injEq, Prod.mk.injEq] at h
    obtain ⟨rfl, -⟩ := h
    exact hinv

theorem safeInv_initial : SafeInv InitialModel := by
  refine ⟨⟨le_refl _, le_refl _⟩, ⟨le_refl _, le_refl _⟩, ⟨?_, ?_⟩, Or.inr ⟨rfl, rfl, rfl⟩,
    fun h => by cases h⟩
  · unfold WindowInv
    decide
  · unfold WindowInv
    decide

/-- Every step of `Update` keeps the bounds `SafeInv`. -/
theorem update_keeps_safeInv (L : Lib) (m : model) (msg : Msg) (m' : model) (c : Option Cmd)
    (hinv : SafeInv m) (h : Update L m msg = some (m', c)) : SafeInv m' := by
  obtain ⟨hcur, hadd, hlist, hdet, hedit⟩ := hinv
  exact ⟨update_keeps_search_cursor L m msg m' c hcur h, update_keeps_addInv L m msg m' c hadd h,
    update_keeps_listInv L m msg m' c hlist h, update_keeps_detailOk L m msg m' c hdet h,
    fun hm => (update_keeps_edit_buffer L m msg m' c h hm).1 hedit⟩

/-- From a state with the bounds `SafeInv`, no run takes a failure branch. -/
theorem run_total (L : Lib) (msgs : List Msg) :
    ∀ m : model, SafeInv m → ∃ m' cs, run L m msgs = some (m', cs) := by
  induction msgs with
  | nil => exact fun m _ => ⟨m, [], rfl⟩
  | cons msg rest ih =>
    intro m hinv
    obtain ⟨⟨m1, c⟩, hu⟩ := Option.ne_none_iff_exists'.mp (update_ne_none L m msg hinv)
    obtain ⟨m2, cs, hr⟩ := ih m1 (update_keeps_safeInv L m msg m1 c hinv hu)
    exact ⟨m2, c.toList ++ cs, run_cons hu hr⟩

/-- C32: in every state reachable from the initial model by key events and result
messages, no step of `Update` takes the failure branch of an index or slice operation:
every message returns a state and a command, and so does every further sequence of
messages.  The bounds behind it hold in every reachable state (`SafeInv`): the search
cursor is inside the search text, the Add cursor inside the active field, the highlights
inside their lists, the Detail cursor inside the Detail lines (or at line 0, column 0
while no value has been opened and the lines are empty), and in Edit mode the edit cursor
inside the buffer. -/
theorem update_never_out_of_range (L : Lib) (m : model) (hr : Reachable L m) :
    (∀ msg, ∃ m' c, Update L m msg = some (m', c)) ∧
    (∀ msgs, ∃ m' cs, run L m msgs = some (m', cs)) ∧
    SafeInv m ∧
    (0 ≤ m.cursor ∧ m.cursor ≤ len m.input) ∧
    (0 ≤ m.addCursor ∧ m.addCursor ≤ len (getCurrentInput m)) ∧
    (m.detailLines ≠ [] → DetailInv m) ∧
    (m.mode = viewMode.modeEdit → EditInv m) := by
  have hinv : SafeInv m :=
    reachable_invariant L SafeInv safeInv_initial (update_keeps_safeInv L) m hr
  refine ⟨fun msg => ?_, fun msgs => run_total L msgs m hinv, hinv, hinv.1, hinv.2.1, ?_,
    hinv.2.2.2.2⟩
  · obtain ⟨⟨m1, c⟩, hu⟩ := Option.ne_none_iff_exists'.mp (update_ne_none L m msg hinv)
    exact ⟨m1, c, hu⟩
  · intro hne
    rcases hinv.2.2.2.1 with hd | ⟨he, -⟩
    · exact hd
    · exact absurd he hne

/-- Witness for `update_never_out_of_range`: the Search list holding the pair `k`, `v`,
where Enter returns the Detail view. -/
theorem update_never_out_of_range_witness :
    Reachable plainLib searchState ∧
    ∃ m' c, Update plainLib searchState (specialKey KeyType.KeyEnter) = some (m', c) :=
  have hr : Reachable plainLib searchState := ⟨_, _, run_searchListMsgs⟩
  ⟨hr, (update_never_out_of_range plainLib searchState hr).1 (specialKey KeyType.KeyEnter)⟩

end TikvTool
